import Mathlib

/-!
# Monster factions: registry, loader, finalizer and attitude resolver

A shallow embedding of `src/monfaction.cpp`.

Conventions of the embedding.

* The two globals `faction_map` and `faction_list` are the two fields of `Registry`, which every
  operation takes and returns explicitly.
* `mfaction_id` (`int_id<monfaction>`) wraps a C++ `int`; it is an `Int` here.  The conversion
  of `faction_map.size()` to `int` is taken without overflow (fewer than `2^31` factions).
* The maps (`faction_map`, `mfaction_att_map`) are lists of key/value pairs with distinct keys,
  read by `assoc_find` and written by `assoc_set` and `assoc_insert`; the `std::set` named
  `unloaded` is an ascending list; the `std::multimap` named `child_map` is the list of its
  pairs in insertion order, which is the order `equal_range` keeps among equal keys.
* `debugmsg` never aborts; every call is recorded, in order, in a list of `debugmsg` values that
  the operations return next to their result.
* The recursion of `int_id::obj` and of `monfaction::attitude` and the `while` loop of
  `finalize_monfactions` are not structurally bounded in the source.  They are given a budget
  (`fuel`) and return `none` when it runs out; termination is then a theorem
  (some budget gives `some` result), not a property of the encoding.
* `faction_list[i]` with `i` outside the vector is undefined behaviour in the source.  Reads are
  `none` there; writes leave the list unchanged.  In registries built by the loader all such
  indices are in range (`RegWF`).
* `load_monster_faction` takes the reference `monfaction &faction = faction_list[...]`
  (line 207) and then calls `get_or_add_faction`, whose `push_back` (line 76) invalidates the
  reference when the vector reallocates.  The source reserves no capacity, so whether a growing
  vector reallocates is the choice of the implementation, and a write through an invalidated
  reference is undefined behaviour.  `load_monster_faction` and `add_to_attitude_map` therefore
  return `none` as soon as a write goes through the reference after `faction_list` grew: they
  return a registry exactly when `faction_list` does not grow while the reference is held,
  which is when the reference stays valid whatever the capacity of the vector.
* `load_monster_faction_ix` and `add_to_attitude_map_ix` are the same two functions with the
  reference read as the index it was taken at, so that every write lands in
  `faction_list[index]`.  They return what the source returns whenever the source is defined
  (`load_monster_faction_eq_ix`), and serve only to describe sets of registries (`Loaded`,
  `Reachable`) that contain every registry the source can build.
-/

namespace Monfactions

/-! ## Data model -/

/-- Modelled from the spec: the enumeration `mf_attitude` is declared in `monfaction.h`, which is
not part of the sources; the spec lists the closed set FRIENDLY, NEUTRAL, BY_MOOD, HOSTILE and the
code names `MFA_BY_MOOD`, `MFA_NEUTRAL` and `MFA_FRIENDLY`. -/
inductive mf_attitude where
  | MFA_BY_MOOD
  | MFA_NEUTRAL
  | MFA_FRIENDLY
  | MFA_HOSTILE
  deriving DecidableEq, Repr

open mf_attitude

/-- Lookup in a map kept as a list of key/value pairs with distinct keys (`find`). -/
def assoc_find {κ ν : Type} [DecidableEq κ] : List (κ × ν) → κ → Option ν
  | [], _ => none
  | (k, v) :: rest, key => if k = key then some v else assoc_find rest key

/-- Assignment `m[key] = val`: overwrites the entry of `key` or adds one. -/
def assoc_set {κ ν : Type} [DecidableEq κ] : List (κ × ν) → κ → ν → List (κ × ν)
  | [], key, val => [(key, val)]
  | (k, v) :: rest, key, val =>
    if k = key then (k, val) :: rest else (k, v) :: assoc_set rest key val

/-- Insertion `m.insert( p )`: adds the pair unless its key already has an entry. -/
def assoc_insert {κ ν : Type} [DecidableEq κ] (m : List (κ × ν)) (p : κ × ν) : List (κ × ν) :=
  match assoc_find m p.1 with
  | some _ => m
  | none => assoc_set m p.1 p.2

/-- Modelled from the spec: the type `mfaction_att_map` is declared in `monfaction.h`, which is
not part of the sources; the spec describes it as a mapping from faction id to attitude with
unique keys whose iteration order is irrelevant. -/
abbrev mfaction_att_map := List (Int × mf_attitude)

/-- The faction record `monfaction` (fields as used by `monfaction.cpp`). -/
structure monfaction where
  name : String
  id : Int
  base_faction : Int
  attitude_map : mfaction_att_map
  deriving DecidableEq, Repr

/-- The two globals of `monfaction.cpp`: `faction_map` (name to id) and `faction_list`. -/
structure Registry where
  faction_map : List (String × Int)
  faction_list : List monfaction
  deriving DecidableEq, Repr

/-- The registry at program start: both globals empty. -/
def Registry.empty : Registry := ⟨[], []⟩

/-- One value per `debugmsg` call site of `monfaction.cpp`, with the arguments of the call. -/
inductive debugmsg where
  /-- Line 21: "invalid monfaction id %d". -/
  | invalid_int_id (id : Int)
  /-- Line 39: "invalid monfaction id %s". -/
  | invalid_str_id (name : String)
  /-- Line 107: "Invalid faction relations (no relation found): %s -> %s". -/
  | no_relation_found (self other : String)
  /-- Line 115: "No monster factions found.". -/
  | no_factions_found
  /-- Line 143: "No valid root monster faction!". -/
  | no_valid_root
  /-- Line 168: "Tried to load monster faction %s more than once". -/
  | loaded_more_than_once (name : String)
  /-- Line 189: "Cycle encountered when processing monster factions. Bad factions: %s". -/
  | cycle_encountered (names : String)
  deriving DecidableEq, Repr

/-- The parsed record handed to the loader (`JsonObject`), reduced to the fields the loader reads.
`base_faction` is `none` when the member is missing; each tag field is the iteration sequence of
the `std::set<std::string>` that `get_tags` returns. -/
structure JsonObject where
  name : String
  base_faction : Option String
  by_mood : List String
  neutral : List String
  friendly : List String
  deriving DecidableEq, Repr

/-- Write through `faction_list[i]` for a `size_t` index. -/
def modify_at {α : Type} : List α → Nat → (α → α) → List α
  | [], _, _ => []
  | x :: rest, 0, f => f x :: rest
  | x :: rest, n + 1, f => x :: modify_at rest n f

/-- Write through `faction_list[id]` for an `mfaction_id`. -/
def modify_faction (fl : List monfaction) (id : Int) (f : monfaction → monfaction) :
    List monfaction :=
  if id < 0 then fl else modify_at fl id.toNat f

/-! ## Registry lookups -/

/-- The test `static_cast<size_t>( _id ) >= faction_list.size()` of `int_id::obj`: a negative
`int` converts to a value above every vector size. -/
def id_out_of_range (fl : List monfaction) (id : Int) : Prop :=
  id < 0 ∨ (fl.length : Int) ≤ id

instance (fl : List monfaction) (id : Int) : Decidable (id_out_of_range fl id) := by
  unfold id_out_of_range; infer_instance

/-- The lookup `int_id<monfaction>::obj()`, lines 17-26.  `fuel` bounds the call depth. -/
def obj (fl : List monfaction) : Nat → Int → Option (monfaction × List debugmsg)
  | 0, _ => none
  | fuel + 1, id =>
    if id_out_of_range fl id then
      match obj fl fuel 0 with
      | some (m, msgs) => some (m, debugmsg.invalid_int_id id :: msgs)
      | none => none
    else
      match fl[id.toNat]? with
      | some m => some (m, [])
      | none => none

/-- The lookup `string_id<monfaction>::id()`, lines 34-43. -/
def str_id (reg : Registry) (name : String) : Int × List debugmsg :=
  match assoc_find reg.faction_map name with
  | none => (0, [debugmsg.invalid_str_id name])
  | some id => (id, [])

/-- The test `string_id<monfaction>::is_valid()`, lines 51-55. -/
def is_valid (reg : Registry) (name : String) : Bool :=
  (assoc_find reg.faction_map name).isSome

/-- The function `monfactions::get_or_add_faction`, lines 63-81. -/
def get_or_add_faction (reg : Registry) (name : String) : Registry × Int :=
  match assoc_find reg.faction_map name with
  | some id => (reg, id)
  | none =>
    let mfact : monfaction :=
      { name := name, id := (reg.faction_map.length : Int), base_faction := -1,
        attitude_map := [] }
    ({ faction_map := assoc_set reg.faction_map mfact.name mfact.id,
       faction_list := reg.faction_list ++ [mfact] }, mfact.id)

/-! ## Resolver -/

/-- The query `monfaction::attitude`, lines 94-110, for the faction `self`.  `fuel` bounds the
call depth, the nested calls of `obj` included. -/
def attitude (fl : List monfaction) :
    Nat → monfaction → Int → Option (mf_attitude × List debugmsg)
  | 0, _, _ => none
  | fuel + 1, self, other =>
    match assoc_find self.attitude_map other with
    | some a => some (a, [])
    | none =>
      match obj fl fuel other with
      | none => none
      | some (o, msgs) =>
        if other ≠ o.base_faction then
          match attitude fl fuel self o.base_faction with
          | some (a, msgs2) => some (a, msgs ++ msgs2)
          | none => none
        else
          match obj fl fuel other with
          | none => none
          | some (o2, msgs2) =>
            some (MFA_FRIENDLY,
              msgs ++ msgs2 ++ [debugmsg.no_relation_found self.name o2.name])

/-! ## Loader -/

/-- The helper `add_to_attitude_map`, lines 193-201, with the reference `map` read as the
attitude map of `faction_list[subject]` at every write, also after `faction_list` grew. -/
def add_to_attitude_map_ix : List String → Int → mf_attitude → Registry → Registry
  | [], _, _, reg => reg
  | k :: keys, subject, value, reg =>
    let r := get_or_add_faction reg k
    let fl2 := modify_faction r.1.faction_list subject
      (fun f => { f with attitude_map := assoc_set f.attitude_map r.2 value })
    add_to_attitude_map_ix keys subject value { r.1 with faction_list := fl2 }

/-- The function `monfactions::load_monster_faction`, lines 203-217, with the reference
`faction` read as `faction_list[index]` at every write, also after `faction_list` grew. -/
def load_monster_faction_ix (reg : Registry) (jo : JsonObject) : Registry :=
  let r1 := get_or_add_faction reg jo.name
  let r2 := get_or_add_faction r1.1 (jo.base_faction.getD "")
  let fl3 := modify_faction r2.1.faction_list r1.2 (fun f => { f with base_faction := r2.2 })
  let reg3 : Registry := { r2.1 with faction_list := fl3 }
  let reg4 := add_to_attitude_map_ix jo.by_mood r1.2 MFA_BY_MOOD reg3
  let reg5 := add_to_attitude_map_ix jo.neutral r1.2 MFA_NEUTRAL reg4
  add_to_attitude_map_ix jo.friendly r1.2 MFA_FRIENDLY reg5

/-- The helper `add_to_attitude_map`, lines 193-201.  The parameter `map` is a reference into
the record `faction_list[subject]`, taken by the caller.  Each key is resolved by
`get_or_add_faction` (line 198) and the entry is then written through `map` (line 199).  When
`get_or_add_faction` registered a new faction, `faction_list` grew by `push_back` (line 76)
after the reference was taken: the write goes through a reference that the source does not
keep valid, and the result is `none`. -/
def add_to_attitude_map : List String → Int → mf_attitude → Registry → Option Registry
  | [], _, _, reg => some reg
  | k :: keys, subject, value, reg =>
    let r := get_or_add_faction reg k
    if r.1.faction_list.length = reg.faction_list.length then
      let fl2 := modify_faction r.1.faction_list subject
        (fun f => { f with attitude_map := assoc_set f.attitude_map r.2 value })
      add_to_attitude_map keys subject value { r.1 with faction_list := fl2 }
    else none

/-- The function `monfactions::load_monster_faction`, lines 203-217.  The subject is registered
first and the reference `faction` is taken to its record (line 207).  The parent is then
resolved by `get_or_add_faction` and written through `faction` (line 209), and the three tag
sets are written through `faction.attitude_map` (lines 214-216).  The result is `none` when
`faction_list` grew between line 207 and one of these writes. -/
def load_monster_faction (reg : Registry) (jo : JsonObject) : Option Registry :=
  let r1 := get_or_add_faction reg jo.name
  let r2 := get_or_add_faction r1.1 (jo.base_faction.getD "")
  if r2.1.faction_list.length = r1.1.faction_list.length then
    let fl3 := modify_faction r2.1.faction_list r1.2 (fun f => { f with base_faction := r2.2 })
    let reg3 : Registry := { r2.1 with faction_list := fl3 }
    match add_to_attitude_map jo.by_mood r1.2 MFA_BY_MOOD reg3 with
    | none => none
    | some reg4 =>
      match add_to_attitude_map jo.neutral r1.2 MFA_NEUTRAL reg4 with
      | none => none
      | some reg5 => add_to_attitude_map jo.friendly r1.2 MFA_FRIENDLY reg5
  else none

/-! ## Finalizer -/

/-- Insertion into the `std::set<Int>` named `unloaded`, kept in ascending order. -/
def set_insert : List Int → Int → List Int
  | [], x => [x]
  | y :: rest, x =>
    if x < y then x :: y :: rest else if x = y then y :: rest else y :: set_insert rest x

/-- The locals of `finalize_monfactions` during its first two loops.  `child_map` lists the pairs
of the multimap in insertion order (the order `equal_range` keeps among equal keys). -/
structure scan_state where
  child_map : List (Int × Int)
  unloaded : List Int
  queue : List Int
  deriving DecidableEq, Repr

/-- The body of the first loop of `finalize_monfactions` (lines 124-139) on the element `faction`:
the element as the loop leaves it. -/
def scan_faction (faction : monfaction) : monfaction :=
  if faction.id = faction.base_faction then faction
  else if (assoc_find faction.attitude_map faction.id).isNone then
    { faction with attitude_map := assoc_set faction.attitude_map faction.id MFA_FRIENDLY }
  else faction

/-- The effect of the body of the first loop (lines 124-139) on the locals. -/
def scan_locals (st : scan_state) (faction : monfaction) : scan_state :=
  let unloaded := set_insert st.unloaded faction.id
  if faction.id = faction.base_faction then
    { st with unloaded := unloaded, queue := st.queue ++ [faction.id] }
  else if faction.base_faction ≥ 0 then
    { st with unloaded := unloaded,
              child_map := st.child_map ++ [(faction.base_faction, faction.id)] }
  else { st with unloaded := unloaded }

/-- The first loop of `finalize_monfactions`, lines 123-140, over the elements not yet visited. -/
def scan_loop : List monfaction → scan_state → List monfaction × scan_state
  | [], st => ([], st)
  | faction :: rest, st =>
    let r := scan_loop rest (scan_locals st faction)
    (scan_faction faction :: r.1, r.2)

/-- The second loop of `finalize_monfactions`, lines 150-159. -/
def adopt_loop (root : Int) :
    List monfaction → List (Int × Int) →
      List monfaction × List (Int × Int)
  | [], cm => ([], cm)
  | faction :: rest, cm =>
    if faction.base_faction < 0 then
      let faction2 : monfaction := { faction with base_faction := root }
      let cm2 :=
        if faction2.base_faction ≠ faction2.id then cm ++ [(faction2.base_faction, faction2.id)]
        else cm
      let r := adopt_loop root rest cm2
      (faction2 :: r.1, r.2)
    else
      let r := adopt_loop root rest cm
      (faction :: r.1, r.2)

/-- The helper `apply_base_faction`, lines 83-92. -/
def apply_base_faction (fuel : Nat) (fl : List monfaction) (base faction_id : Int) :
    Option (List monfaction × List debugmsg) :=
  match obj fl fuel base with
  | none => none
  | some (b, msgs) =>
    some (b.attitude_map.foldl
      (fun fl2 pair => modify_faction fl2 faction_id
        (fun faction =>
          if (assoc_find faction.attitude_map pair.1).isNone then
            { faction with attitude_map := assoc_insert faction.attitude_map pair }
          else faction))
      fl, msgs)

/-- The state of the traversal loop of `finalize_monfactions`. -/
structure bfs_state where
  faction_list : List monfaction
  unloaded : List Int
  queue : List Int
  msgs : List debugmsg
  deriving DecidableEq, Repr

/-- The inner loop of the traversal, lines 172-176, over the children still to visit. -/
def children_loop (fuel : Nat) (cur : Int) :
    List (Int × Int) → bfs_state → Option bfs_state
  | [], st => some st
  | it :: rest, st =>
    match apply_base_faction fuel st.faction_list cur it.2 with
    | none => none
    | some (fl2, msgs) =>
      children_loop fuel cur rest
        { st with faction_list := fl2, queue := st.queue ++ [it.2], msgs := st.msgs ++ msgs }

/-- The traversal loop of `finalize_monfactions`, lines 162-177.  The first argument bounds the
call depth of `obj`, the second the number of iterations. -/
def bfs_loop (dfuel : Nat) (child_map : List (Int × Int)) :
    Nat → bfs_state → Option bfs_state
  | 0, st => if st.queue = [] then some st else none
  | fuel + 1, st =>
    match st.queue with
    | [] => some st
    | cur :: rest =>
      if cur ∈ st.unloaded then
        match children_loop dfuel cur (child_map.filter (fun p => p.1 = cur))
            { st with queue := rest, unloaded := st.unloaded.filter (fun x => x ≠ cur) } with
        | none => none
        | some st2 => bfs_loop dfuel child_map fuel st2
      else
        match obj st.faction_list dfuel cur with
        | none => none
        | some (o, msgs) =>
          bfs_loop dfuel child_map fuel
            { st with queue := rest,
                      msgs := st.msgs ++ msgs ++ [debugmsg.loaded_more_than_once o.name] }

/-- The last loop of `finalize_monfactions`, lines 182-187: the names collected and the list as
the loop leaves it. -/
def cycle_loop (fuel : Nat) (root : Int) :
    List Int → String → List monfaction → List debugmsg →
      Option (String × List monfaction × List debugmsg)
  | [], names, fl, msgs => some (names, fl, msgs)
  | fac :: rest, names, fl, msgs =>
    match obj fl fuel fac with
    | none => none
    | some (o, msgs2) =>
      cycle_loop fuel root rest ((names ++ o.name) ++ " ")
        (modify_faction fl fac (fun f => { f with base_faction := root })) (msgs ++ msgs2)

/-- The function `monfactions::finalize_monfactions`, lines 112-191. -/
def finalize_monfactions (fuel : Nat) (reg : Registry) : Option (Registry × List debugmsg) :=
  if reg.faction_list = [] then some (reg, [debugmsg.no_factions_found])
  else
    let s := scan_loop reg.faction_list ⟨[], [], []⟩
    match s.2.queue with
    | [] => some ({ reg with faction_list := s.1 }, [debugmsg.no_valid_root])
    | root :: _ =>
      let a := adopt_loop root s.1 s.2.child_map
      match bfs_loop fuel a.2 fuel ⟨a.1, s.2.unloaded, s.2.queue, []⟩ with
      | none => none
      | some st =>
        if st.unloaded ≠ [] then
          match cycle_loop fuel root st.unloaded "" st.faction_list st.msgs with
          | none => none
          | some (names, fl, msgs) =>
            some ({ reg with faction_list := fl }, msgs ++ [debugmsg.cycle_encountered names])
        else some ({ reg with faction_list := st.faction_list }, st.msgs)

/-! ## Sequences of calls -/

/-- Loading a sequence of records in order with `load_monster_faction_ix`. -/
def load_all_ix (reg : Registry) (jos : List JsonObject) : Registry :=
  jos.foldl load_monster_faction_ix reg

/-- Loading a sequence of records in order with `load_monster_faction`; `none` as soon as one
load is. -/
def load_all (reg : Registry) : List JsonObject → Option Registry
  | [] => some reg
  | jo :: jos =>
    match load_monster_faction reg jo with
    | none => none
    | some reg2 => load_all reg2 jos


/-! ## Vocabulary of the statements -/

/-- The record `faction_list[c]` for an id inside the vector. -/
def fget (fl : List monfaction) (c : Int) : Option monfaction :=
  if c < 0 then none else fl[c.toNat]?

/-- The parent of a target as the resolver reads it: `other.obj().base_faction`. -/
def base_of (fl : List monfaction) (t : Int) : Int :=
  match obj fl 2 t with
  | some (o, _) => o.base_faction
  | none => t

/-- The parent chain `T0 = T`, `T1 = T0.base_faction`, ... of a target. -/
def parent_chain (fl : List monfaction) : Nat → Int → Int
  | 0, t => t
  | n + 1, t => parent_chain fl n (base_of fl t)

/-- Shape of `faction_list` in registries built by the loader: the record at index `i` has id
`i`, and its parent is UNSET (`-1`) or an index of the list. -/
def ListWF (fl : List monfaction) : Prop :=
  ∀ (i : Nat) (m : monfaction), fl[i]? = some m →
    m.id = (i : Int) ∧ -1 ≤ m.base_faction ∧ m.base_faction < (fl.length : Int)

/-- Shape of the registry built by the loader: `faction_map` and `faction_list` describe the
same factions. -/
def RegWF (reg : Registry) : Prop :=
  reg.faction_map.length = reg.faction_list.length ∧
  ListWF reg.faction_list ∧
  (∀ (i : Nat) (m : monfaction), reg.faction_list[i]? = some m →
    assoc_find reg.faction_map m.name = some (i : Int)) ∧
  (∀ (name : String) (id : Int), assoc_find reg.faction_map name = some id →
    ∃ m, fget reg.faction_list id = some m ∧ m.name = name)

/-- The attitude map of `faction_list[c]` (empty outside the vector). -/
def att_of (fl : List monfaction) (c : Int) : mfaction_att_map :=
  match fget fl c with
  | some m => m.attitude_map
  | none => []

/-- The faction `c` is registered and is its own parent (a root). -/
def self_parented (fl : List monfaction) (c : Int) : Prop :=
  ∃ m, fget fl c = some m ∧ m.base_faction = c

/-- The faction `c` is registered and its parent is UNSET (negative). -/
def unset_parent (fl : List monfaction) (c : Int) : Prop :=
  ∃ m, fget fl c = some m ∧ m.base_faction < 0

/-- The parent chain of `c` reaches a self-parented faction. -/
def reaches_root (fl : List monfaction) (c : Int) : Prop :=
  ∃ n, self_parented fl (parent_chain fl n c)

/-- The parent chain of `c` reaches a self-parented faction or one whose parent is UNSET. -/
def anchored (fl : List monfaction) (c : Int) : Prop :=
  ∃ n, self_parented fl (parent_chain fl n c) ∨ unset_parent fl (parent_chain fl n c)

/-- The primary root that `finalize_monfactions` picks on line 149: the front of the queue that
the first loop filled. -/
def primary_root (fl : List monfaction) : Option Int :=
  (scan_loop fl ⟨[], [], []⟩).2.queue.head?

/-- The second loop of `finalize_monfactions` on one element (lines 151-158): the element as the
loop leaves it. -/
def adopt_faction (root : Int) (faction : monfaction) : monfaction :=
  if faction.base_faction < 0 then { faction with base_faction := root } else faction

/-- The attitude map that `apply_base_faction` leaves in the derived faction: the entries of the
base map `b` are inserted, in order, where the key has no entry yet (lines 85-91). -/
def merge_att (a b : mfaction_att_map) : mfaction_att_map :=
  b.foldl (fun a2 pair => if (assoc_find a2 pair.1).isNone then assoc_insert a2 pair else a2) a

/-- The fields of a faction record that the traversal never writes. -/
def skel (m : monfaction) : String × Int × Int := (m.name, m.id, m.base_faction)

/-- What the traversal needs of the list and the child map that the first two loops hand
over: every parent is registered, and the child map holds exactly one pair per faction that is
not its own parent, keyed by that parent. -/
structure bfs_ctx (fl2 : List monfaction) (cm : List (Int × Int)) : Prop where
  wf : ListWF fl2
  edges : ∀ p c, (p, c) ∈ cm ↔ ∃ m, fget fl2 c = some m ∧ m.base_faction ≠ c ∧ m.base_faction = p
  nodup : (cm.map Prod.snd).Nodup
  base_valid : ∀ c m, fget fl2 c = some m → ∃ mp, fget fl2 m.base_faction = some mp

/-- The loop invariant of the traversal, relative to the list `fl2` it started from. -/
structure bfs_inv (fl2 : List monfaction) (st : bfs_state) : Prop where
  skel_eq : st.faction_list.map skel = fl2.map skel
  no_msgs : st.msgs = []
  queue_nodup : st.queue.Nodup
  queue_unloaded : ∀ q, q ∈ st.queue → q ∈ st.unloaded
  unloaded_valid : ∀ u, u ∈ st.unloaded → ∃ m, fget fl2 u = some m
  unloaded_sorted : st.unloaded.Pairwise (· < ·)
  pending : ∀ c m, fget fl2 c = some m → m.base_faction ≠ c → m.base_faction ∈ st.unloaded →
    att_of st.faction_list c = m.attitude_map ∧ c ∈ st.unloaded ∧ c ∉ st.queue
  reached : ∀ c m, fget fl2 c = some m → m.base_faction ≠ c → m.base_faction ∉ st.unloaded →
    (∀ k, assoc_find (att_of st.faction_list c) k =
      (assoc_find m.attitude_map k).or (assoc_find (att_of st.faction_list m.base_faction) k)) ∧
    (c ∈ st.queue ∨ c ∉ st.unloaded)
  roots : ∀ c m, fget fl2 c = some m → m.base_faction = c →
    att_of st.faction_list c = m.attitude_map ∧ (c ∈ st.queue ∨ c ∉ st.unloaded)
  reach : ∀ c, (∃ m, fget fl2 c = some m) → (c ∈ st.queue ∨ c ∉ st.unloaded) →
    reaches_root fl2 c

/-- The name of `faction_list[c]` (empty outside the vector). -/
def name_of (fl : List monfaction) (c : Int) : String :=
  match fget fl c with
  | some m => m.name
  | none => ""

/-- The string that the last loop of `finalize_monfactions` builds for the factions `u`: every
name followed by a blank (lines 183-184). -/
def names_of (fl : List monfaction) (u : List Int) : String :=
  u.foldl (fun s x => (s ++ name_of fl x) ++ " ") ""

/-- What `finalize_monfactions` makes of a list `fl` with primary root `root`: `u` are the
factions still in `unloaded` after the traversal and `flF` is the list it leaves. -/
structure final_spec (fl : List monfaction) (root : Int) (u : List Int)
    (flF : List monfaction) : Prop where
  sorted : u.Pairwise (· < ·)
  mem_unvisited : ∀ c, c ∈ u ↔ (∃ m, fget fl c = some m) ∧ ¬ anchored fl c
  length_eq : flF.length = fl.length
  root_first : self_parented fl root ∧ ∀ c, self_parented fl c → root ≤ c
  records : ∀ c m, fget fl c = some m →
    ∃ mF, fget flF c = some mF ∧ mF.name = m.name ∧ mF.id = m.id ∧
      mF.base_faction =
        (if c ∈ u then root else if m.base_faction < 0 then root else m.base_faction) ∧
      (m.base_faction = c → mF.attitude_map = m.attitude_map) ∧
      (m.base_faction ≠ c → c ∈ u → ∀ k, assoc_find mF.attitude_map k =
        (assoc_find m.attitude_map k).or (if k = c then some MFA_FRIENDLY else none)) ∧
      (m.base_faction ≠ c → c ∉ u → ∀ k, assoc_find mF.attitude_map k =
        ((assoc_find m.attitude_map k).or (if k = c then some MFA_FRIENDLY else none)).or
          (assoc_find (att_of flF mF.base_faction) k))

/-- The registries that calls of `get_or_add_faction` and of the loader build from the empty
registry (the states in which `finalize_monfactions` is called).  The loader enters as
`load_monster_faction_ix`: the set contains every registry that `load_monster_faction`
returns (`Loaded_load`). -/
inductive Loaded : Registry → Prop where
  | empty : Loaded Registry.empty
  | add (reg : Registry) (name : String) : Loaded reg → Loaded (get_or_add_faction reg name).1
  | load (reg : Registry) (jo : JsonObject) : Loaded reg → Loaded (load_monster_faction_ix reg jo)

/-- The state in which the traversal loop of `finalize_monfactions` ends (line 177), for the
primary root `root`. -/
def finalize_traversal (fuel : Nat) (fl : List monfaction) (root : Int) : Option bfs_state :=
  let s := scan_loop fl ⟨[], [], []⟩
  let a := adopt_loop root s.1 s.2.child_map
  bfs_loop fuel a.2 fuel ⟨a.1, s.2.unloaded, s.2.queue, []⟩

/-! ## Concrete inputs -/

/-- A record with the given name and parent and no tags. -/
def plain_record (name : String) (base : Option String) : JsonObject :=
  ⟨name, base, [], [], []⟩

/-- Scenario 1 of the spec: a root that is friendly to `bar`, and a child of the root. -/
def simple_inheritance : List JsonObject :=
  [⟨"root", some "root", [], [], ["bar"]⟩, plain_record "child" (some "root")]

/-- Scenario 5 of the spec: two factions that name each other as parent, and a root. -/
def cycle_and_root : List JsonObject :=
  [plain_record "p" (some "q"), plain_record "q" (some "p"), plain_record "r" (some "r")]

/-- A single self-parented record. -/
def lone_root : List JsonObject := [plain_record "r" (some "r")]

/-- Four records that leave no root: `a` is loaded as its own parent, `b` and `c` as children
of `a`, and a second record of `a` names `b` as parent.  Every record names only factions that
are registered when it is loaded. -/
def rootless_cycle : List JsonObject :=
  [plain_record "a" (some "a"), plain_record "b" (some "a"), plain_record "c" (some "a"),
   plain_record "a" (some "b")]

/-- The registry that loading `rootless_cycle` into the empty registry leaves. -/
def rootless_cycle_loaded : Registry :=
  ⟨[("a", 0), ("b", 1), ("c", 2)], [⟨"a", 0, 1, []⟩, ⟨"b", 1, 0, []⟩, ⟨"c", 2, 0, []⟩]⟩

/-- The registry that loading `cycle_and_root` leaves when `q` was registered before by
`get_or_add_faction`. -/
def cycle_loaded : Registry :=
  ⟨[("q", 0), ("p", 1), ("r", 2)], [⟨"q", 0, 1, []⟩, ⟨"p", 1, 0, []⟩, ⟨"r", 2, 2, []⟩]⟩

/-- The faction list that `finalize_monfactions` leaves for `simple_inheritance`. -/
def simple_inheritance_final : List monfaction :=
  [⟨"root", 0, 0, [(1, MFA_FRIENDLY)]⟩, ⟨"bar", 1, 0, [(1, MFA_FRIENDLY)]⟩,
   ⟨"child", 2, 0, [(2, MFA_FRIENDLY), (1, MFA_FRIENDLY)]⟩]

/-- The faction list of `rootless_cycle`, as loaded and as `finalize_monfactions` leaves it. -/
def rootless_cycle_final : List monfaction :=
  [⟨"a", 0, 1, [(0, MFA_FRIENDLY)]⟩, ⟨"b", 1, 0, [(1, MFA_FRIENDLY)]⟩,
   ⟨"c", 2, 0, [(2, MFA_FRIENDLY)]⟩]

/-- The query for two faction names, as the engine asks it:
`string_id( s ).obj().attitude( string_id( t ).id() )`; the messages are dropped. -/
def attitude_of_names (fuel : Nat) (reg : Registry) (s t : String) : Option mf_attitude :=
  match obj reg.faction_list fuel (str_id reg s).1 with
  | none => none
  | some (self, _) =>
    match attitude reg.faction_list fuel self (str_id reg t).1 with
    | none => none
    | some (a, _) => some a

/-- Two self-parented records: `r1` is friendly to `y` and `z`, `r2` is neutral to `y`. -/
def two_roots : List JsonObject :=
  [⟨"r1", some "r1", [], [], ["y", "z"]⟩, ⟨"r2", some "r2", [], ["y"], []⟩]

/-! ## Registries seen through faction names -/

/-- Every key of every attitude map is an id of the list. -/
def AttWF (reg : Registry) : Prop :=
  ∀ (i : Nat) (m : monfaction), reg.faction_list[i]? = some m →
    ∀ (k : Int) (a : mf_attitude), assoc_find m.attitude_map k = some a →
      0 ≤ k ∧ k < (reg.faction_list.length : Int)

/-- What a registry says about factions when they are identified by name: which names are
registered, the name of the parent of a faction (`none` when the parent is UNSET), and the
attitude entry of one named faction for another. -/
structure Obs where
  valid : String → Bool
  base : String → Option String
  att : String → String → Option mf_attitude

/-- The name-level content of a registry. -/
def observe (reg : Registry) : Obs where
  valid := fun n => is_valid reg n
  base := fun n =>
    match assoc_find reg.faction_map n with
    | none => none
    | some i =>
      match fget reg.faction_list i with
      | none => none
      | some m =>
        if m.base_faction < 0 then none else some (name_of reg.faction_list m.base_faction)
  att := fun n t =>
    match assoc_find reg.faction_map n with
    | none => none
    | some i =>
      match assoc_find reg.faction_map t with
      | none => none
      | some k => assoc_find (att_of reg.faction_list i) k

/-- Name-level effect of `get_or_add_faction`. -/
def Obs.add_name (o : Obs) (n : String) : Obs :=
  { o with valid := fun x => o.valid x || decide (x = n) }

/-- Name-level effect of `faction.base_faction = ...` for the subject `s`. -/
def Obs.set_base (o : Obs) (s b : String) : Obs :=
  { o with base := fun n => if n = s then some b else o.base n }

/-- Name-level effect of `map[faction] = value` for the subject `s` and the target `t`. -/
def Obs.set_att (o : Obs) (s t : String) (v : mf_attitude) : Obs :=
  { o with att := fun n t2 => if n = s ∧ t2 = t then some v else o.att n t2 }

/-- Name-level effect of `add_to_attitude_map_ix` for the subject `s`. -/
def Obs.add_tags (o : Obs) (keys : List String) (s : String) (v : mf_attitude) : Obs :=
  keys.foldl (fun o2 k => (o2.add_name k).set_att s k v) o

/-- Name-level effect of `load_monster_faction_ix`. -/
def Obs.load (o : Obs) (jo : JsonObject) : Obs :=
  (((((o.add_name jo.name).add_name (jo.base_faction.getD "")).set_base jo.name
    (jo.base_faction.getD "")).add_tags jo.by_mood jo.name MFA_BY_MOOD).add_tags
    jo.neutral jo.name MFA_NEUTRAL).add_tags jo.friendly jo.name MFA_FRIENDLY

/-- The attitude that a record declares for the target `t`: the tag set listing `t` that the
loader processes last. -/
def tag_value (jo : JsonObject) (t : String) : Option mf_attitude :=
  if t ∈ jo.friendly then some MFA_FRIENDLY
  else if t ∈ jo.neutral then some MFA_NEUTRAL
  else if t ∈ jo.by_mood then some MFA_BY_MOOD
  else none

/-- The (target, attitude) pairs that a record declares. -/
def tag_entries (jo : JsonObject) : List (String × mf_attitude) :=
  jo.by_mood.map (fun t => (t, MFA_BY_MOOD)) ++ jo.neutral.map (fun t => (t, MFA_NEUTRAL)) ++
    jo.friendly.map (fun t => (t, MFA_FRIENDLY))

/-- No (subject, target) pair appears twice with conflicting attitude values. -/
def no_conflict (recs : List JsonObject) : Prop :=
  ∀ j1 ∈ recs, ∀ j2 ∈ recs, j1.name = j2.name →
    ∀ p ∈ tag_entries j1, ∀ q ∈ tag_entries j2, p.1 = q.1 → p.2 = q.2

instance (recs : List JsonObject) : Decidable (no_conflict recs) := by
  unfold no_conflict; infer_instance

/-- Records of the same faction declare the same parent. -/
def same_base (recs : List JsonObject) : Prop :=
  ∀ j1 ∈ recs, ∀ j2 ∈ recs, j1.name = j2.name →
    j1.base_faction.getD "" = j2.base_faction.getD ""

instance (recs : List JsonObject) : Decidable (same_base recs) := by
  unfold same_base; infer_instance

/-- Two registries with the same name-level content. -/
structure Sim (A B : Registry) : Prop where
  wfA : RegWF A
  wfB : RegWF B
  obs : observe A = observe B

/-- The ids `i` of `A` and `j` of `B` belong to the same faction name. -/
def corr (A B : Registry) (i j : Int) : Prop :=
  ∃ n, assoc_find A.faction_map n = some i ∧ assoc_find B.faction_map n = some j

/-- Two registries with the same name-level content, finalized with primary roots of the
same name whenever a faction is handed to the primary root (as an unvisited faction or as one
whose parent is UNSET). -/
structure FinalPair (A B : Registry) (rA rB : Int) (uA uB : List Int)
    (flFA flFB : List monfaction) : Prop where
  sim : Sim A B
  specA : final_spec A.faction_list rA uA flFA
  specB : final_spec B.faction_list rB uB flFB
  roots : (∃ i m, fget A.faction_list i = some m ∧ (i ∈ uA ∨ m.base_faction < 0)) →
    corr A B rA rB

/-- Two self-parented factions `p` (friendly to itself) and `q` (neutral to `p`), and two
records of `a` that declare different parents.  Every record names only factions that are
registered when it is loaded. -/
def two_parents : List JsonObject :=
  [⟨"p", some "p", [], [], ["p"]⟩, ⟨"q", some "q", [], ["p"], []⟩,
   plain_record "a" (some "p"), plain_record "a" (some "q")]

/-- The records of `two_parents` with the two records of `a` exchanged. -/
def two_parents_swapped : List JsonObject :=
  [⟨"p", some "p", [], [], ["p"]⟩, ⟨"q", some "q", [], ["p"], []⟩,
   plain_record "a" (some "q"), plain_record "a" (some "p")]

/-- Two records that name each other: in either order the first one names a faction that is
not registered yet. -/
def mutual_pair : List JsonObject :=
  [⟨"a", some "a", [], ["b"], []⟩, plain_record "b" (some "a")]

/-- The records of `mutual_pair` in the other order. -/
def mutual_pair_swapped : List JsonObject :=
  [plain_record "b" (some "a"), ⟨"a", some "a", [], ["b"], []⟩]

/-- A root `r` that is friendly to itself and its children `c1` (neutral to `r`) and `c2`. -/
def siblings : List JsonObject :=
  [⟨"r", some "r", [], [], ["r"]⟩, ⟨"c1", some "r", [], ["r"], []⟩, plain_record "c2" (some "r")]

/-- The records of `siblings` with the two children exchanged. -/
def siblings_swapped : List JsonObject :=
  [⟨"r", some "r", [], [], ["r"]⟩, plain_record "c2" (some "r"), ⟨"c1", some "r", [], ["r"], []⟩]

/-! ## Sequences of calls and the names they register -/

/-- A call of one of the three state-changing entry points. -/
inductive Op where
  | add (name : String)
  | load (jo : JsonObject)
  | finalize (fuel : Nat)

/-- The registry after one call; `none` when `finalize_monfactions` runs out of budget.  The
loader is run as `load_monster_faction_ix`, which returns what `load_monster_faction` returns
whenever that is defined. -/
def run_op (reg : Registry) : Op → Option Registry
  | Op.add name => some (get_or_add_faction reg name).1
  | Op.load jo => some (load_monster_faction_ix reg jo)
  | Op.finalize fuel =>
    match finalize_monfactions fuel reg with
    | some (reg2, _) => some reg2
    | none => none

/-- The registry after a sequence of calls. -/
def run_ops : List Op → Registry → Option Registry
  | [], reg => some reg
  | op :: ops, reg =>
    match run_op reg op with
    | some reg2 => run_ops ops reg2
    | none => none

/-- The names that a call passes to `get_or_add_faction`, in order: `load_monster_faction`
passes the name of the record, its `base_faction` and then the three tag sets. -/
def op_names : Op → List String
  | Op.add name => [name]
  | Op.load jo =>
    jo.name :: jo.base_faction.getD "" :: (jo.by_mood ++ jo.neutral ++ jo.friendly)
  | Op.finalize _ => []

/-- One more name in a list of distinct names kept in order of first occurrence. -/
def note_name (d : List String) (n : String) : List String :=
  if n ∈ d then d else d ++ [n]

/-- The distinct names of a sequence, in order of first occurrence. -/
def first_names (names : List String) : List String :=
  names.foldl note_name []

/-- The name-to-id map that gives the names of `d` the ids `k`, `k + 1`, ... -/
def index_from : Nat → List String → List (String × Int)
  | _, [] => []
  | k, n :: rest => (n, (k : Int)) :: index_from (k + 1) rest

/-- The stub records of the names of `d` with the ids `k`, `k + 1`, ...: own name, own id,
UNSET parent, empty attitude map. -/
def stubs_from : Nat → List String → List monfaction
  | _, [] => []
  | k, n :: rest => ⟨n, (k : Int), -1, []⟩ :: stubs_from (k + 1) rest

/-- Passing a sequence of names to `get_or_add_faction`, in order: the registry it leaves and
the ids it returned. -/
def register_all : List String → Registry → Registry × List Int
  | [], reg => (reg, [])
  | n :: names, reg =>
    let r := get_or_add_faction reg n
    let rest := register_all names r.1
    (rest.1, r.2 :: rest.2)

/-- The registries reachable from the empty registry by calls of `get_or_add_faction`,
`load_monster_faction` and `finalize_monfactions`, in any order.  The loader enters as
`load_monster_faction_ix`: the set contains every registry that `load_monster_faction`
returns (`Reachable_load`). -/
inductive Reachable : Registry → Prop where
  | empty : Reachable Registry.empty
  | add (reg : Registry) (name : String) : Reachable reg →
      Reachable (get_or_add_faction reg name).1
  | load (reg : Registry) (jo : JsonObject) : Reachable reg →
      Reachable (load_monster_faction_ix reg jo)
  | finalize (reg : Registry) (fuel : Nat) (regF : Registry) (msgs : List debugmsg) :
      Reachable reg → finalize_monfactions fuel reg = some (regF, msgs) → Reachable regF

/-- Every entry of every attitude map of the list satisfies `P`. -/
def entries_ok (P : Int × mf_attitude → Prop) (fl : List monfaction) : Prop :=
  ∀ m, m ∈ fl → ∀ p, p ∈ m.attitude_map → P p

/-- Every entry of every attitude map is keyed by a registered id and holds a value other
than HOSTILE. -/
def EntWF (reg : Registry) : Prop :=
  entries_ok (fun p => 0 ≤ p.1 ∧ p.1 < (reg.faction_list.length : Int) ∧ p.2 ≠ MFA_HOSTILE)
    reg.faction_list

/-- The names that a sequence of calls passes to `get_or_add_faction`, in order. -/
def ops_names : List Op → List String
  | [] => []
  | op :: ops => op_names op ++ ops_names ops

/-- The registry that `finalize_monfactions` leaves for `simple_inheritance`. -/
def simple_inheritance_registry : Registry :=
  ⟨[("root", 0), ("bar", 1), ("child", 2)], simple_inheritance_final⟩

/-- The traversal loop of `finalize_monfactions` (lines 162-177) run as `bfs_loop` runs it,
recording the faction `cur` that each iteration takes from the front of the queue (line 164).
The queue is first-in first-out and the loop ends when it is empty, so this is also the
sequence of the factions that were pushed on the queue. -/
def bfs_order (dfuel : Nat) (child_map : List (Int × Int)) :
    Nat → bfs_state → Option (List Int)
  | 0, st => if st.queue = [] then some [] else none
  | fuel + 1, st =>
    match st.queue with
    | [] => some []
    | cur :: rest =>
      if cur ∈ st.unloaded then
        match children_loop dfuel cur (child_map.filter (fun p => p.1 = cur))
            { st with queue := rest, unloaded := st.unloaded.filter (fun x => x ≠ cur) } with
        | none => none
        | some st2 =>
          match bfs_order dfuel child_map fuel st2 with
          | some order => some (cur :: order)
          | none => none
      else
        match obj st.faction_list dfuel cur with
        | none => none
        | some (o, msgs) =>
          match bfs_order dfuel child_map fuel
            { st with queue := rest,
                      msgs := st.msgs ++ msgs ++ [debugmsg.loaded_more_than_once o.name] } with
          | some order => some (cur :: order)
          | none => none

/-- The factions that the traversal of `finalize_monfactions` takes from the queue, in order,
for the list `fl` with primary root `root`. -/
def finalize_order (fuel : Nat) (fl : List monfaction) (root : Int) : Option (List Int) :=
  let s := scan_loop fl ⟨[], [], []⟩
  let a := adopt_loop root s.1 s.2.child_map
  bfs_order fuel a.2 fuel ⟨a.1, s.2.unloaded, s.2.queue, []⟩

/-- Every faction of the registry is the subject of a record of `recs`, and its parent is the
faction which that record names: itself or a faction registered before it. -/
def ParentsBefore (recs : List JsonObject) (reg : Registry) : Prop :=
  ∀ (i : Int) (m : monfaction), fget reg.faction_list i = some m →
    0 ≤ m.base_faction ∧ m.base_faction ≤ i ∧
    ∃ jo, jo ∈ recs ∧ jo.name = m.name ∧
      assoc_find reg.faction_map (jo.base_faction.getD "") = some m.base_faction


/-! ## Maps kept as lists of pairs -/

section assoc
variable {κ ν : Type} [DecidableEq κ]

theorem assoc_find_set (m : List (κ × ν)) (k : κ) (v : ν) (key : κ) :
    assoc_find (assoc_set m k v) key = if k = key then some v else assoc_find m key := by
  induction m with
  | nil => simp [assoc_set, assoc_find]
  | cons p rest ih =>
    obtain ⟨k0, v0⟩ := p
    by_cases h : k0 = k
    · subst h
      by_cases h2 : k0 = key <;> simp [assoc_set, assoc_find, h2]
    · by_cases h2 : k0 = key
      · subst h2
        have h3 : ¬ k = k0 := fun e => h e.symm
        simp [assoc_set, assoc_find, h, h3]
      · simp [assoc_set, assoc_find, h, h2, ih]

theorem assoc_find_insert (m : List (κ × ν)) (p : κ × ν) (key : κ) :
    assoc_find (assoc_insert m p) key =
      match assoc_find m key with
      | some a => some a
      | none => if p.1 = key then some p.2 else none := by
  unfold assoc_insert
  cases h : assoc_find m p.1 with
  | some a =>
    cases h2 : assoc_find m key with
    | some b => simp
    | none =>
      have : ¬ p.1 = key := by
        intro e
        rw [e] at h
        rw [h] at h2
        cases h2
      simp [h2, this]
  | none =>
    simp only [assoc_find_set]
    by_cases h3 : p.1 = key
    · rw [h3] at h
      simp [h3, h]
    · simp only [h3, if_false]
      cases assoc_find m key <;> rfl

theorem assoc_set_length_of_none (m : List (κ × ν)) (k : κ) (v : ν)
    (h : assoc_find m k = none) : (assoc_set m k v).length = m.length + 1 := by
  induction m with
  | nil => simp [assoc_set]
  | cons p rest ih =>
    obtain ⟨k0, v0⟩ := p
    by_cases h2 : k0 = k
    · simp [assoc_find, h2] at h
    · simp only [assoc_find, h2, if_false] at h
      simp [assoc_set, h2, ih h]

end assoc

/-! ## Indexing the faction list -/

theorem modify_at_length {α : Type} (l : List α) (n : Nat) (f : α → α) :
    (modify_at l n f).length = l.length := by
  induction l generalizing n with
  | nil => simp [modify_at]
  | cons x rest ih =>
    cases n with
    | zero => simp [modify_at]
    | succ n => simp [modify_at, ih]

theorem modify_at_getElem? {α : Type} (l : List α) (n : Nat) (f : α → α) (i : Nat) :
    (modify_at l n f)[i]? = if i = n then (l[i]?).map f else l[i]? := by
  induction l generalizing n i with
  | nil => simp [modify_at]
  | cons x rest ih =>
    cases n with
    | zero =>
      cases i with
      | zero => simp [modify_at]
      | succ i => simp [modify_at]
    | succ n =>
      cases i with
      | zero => simp [modify_at]
      | succ i => simp [modify_at, ih]

theorem modify_faction_length (fl : List monfaction) (id : Int)
    (f : monfaction → monfaction) : (modify_faction fl id f).length = fl.length := by
  unfold modify_faction
  split
  · rfl
  · exact modify_at_length _ _ _

theorem modify_faction_getElem? (fl : List monfaction) (id : Int)
    (f : monfaction → monfaction) (i : Nat) :
    (modify_faction fl id f)[i]? = if (i : Int) = id then (fl[i]?).map f else fl[i]? := by
  unfold modify_faction
  split
  · rename_i h
    have : ¬ (i : Int) = id := by omega
    simp [this]
  · rename_i h
    rw [modify_at_getElem?]
    by_cases h2 : (i : Int) = id
    · have h3 : i = id.toNat := by omega
      rw [if_pos h3, if_pos h2]
    · have h3 : ¬ i = id.toNat := by omega
      rw [if_neg h3, if_neg h2]

theorem fget_modify_faction (fl : List monfaction) (id : Int)
    (f : monfaction → monfaction) (c : Int) :
    fget (modify_faction fl id f) c = if c = id then (fget fl c).map f else fget fl c := by
  unfold fget
  by_cases hc : c < 0
  · simp [hc]
  · simp only [hc, if_false]
    rw [modify_faction_getElem?]
    by_cases h2 : c = id
    · have h3 : (c.toNat : Int) = id := by omega
      rw [if_pos h3, if_pos h2]
    · have h3 : ¬ (c.toNat : Int) = id := by omega
      rw [if_neg h3, if_neg h2]

theorem fget_eq_some {fl : List monfaction} {c : Int} {m : monfaction}
    (h : fget fl c = some m) : 0 ≤ c ∧ c < (fl.length : Int) ∧ fl[c.toNat]? = some m := by
  unfold fget at h
  split at h
  · cases h
  · rename_i hc
    have := (List.getElem?_eq_some.mp h).1
    exact ⟨by omega, by omega, h⟩

theorem fget_of_range {fl : List monfaction} {c : Int} (h0 : 0 ≤ c)
    (h1 : c < (fl.length : Int)) : ∃ m, fget fl c = some m := by
  unfold fget
  have hc : ¬ c < 0 := by omega
  simp only [hc, if_false]
  have : c.toNat < fl.length := by omega
  exact ⟨fl[c.toNat], List.getElem?_eq_getElem this⟩

theorem fget_natCast (fl : List monfaction) (i : Nat) : fget fl (i : Int) = fl[i]? := by
  unfold fget
  have : ¬ ((i : Int) < 0) := by omega
  simp [this]

/-! ## The lookup `obj` -/

theorem obj_of_fget {fl : List monfaction} {c : Int} {m : monfaction}
    (h : fget fl c = some m) (fuel : Nat) : obj fl (fuel + 1) c = some (m, []) := by
  obtain ⟨h0, h1, h2⟩ := fget_eq_some h
  have : ¬ id_out_of_range fl c := by
    unfold id_out_of_range
    omega
  simp [obj, this, h2]

theorem obj_out_of_range {fl : List monfaction} {c : Int} {m : monfaction}
    (h : id_out_of_range fl c) (h0 : fl[0]? = some m) (fuel : Nat) :
    obj fl (fuel + 2) c = some (m, [debugmsg.invalid_int_id c]) := by
  have h1 : fget fl 0 = some m := by
    have := fget_natCast fl 0
    simpa [h0] using this
  have h2 := obj_of_fget h1 fuel
  simp [obj, h] at h2 ⊢
  rw [h2]

theorem obj_total {fl : List monfaction} (hne : fl ≠ []) (c : Int) :
    ∃ r, ∀ fuel, obj fl (fuel + 2) c = some r := by
  by_cases h : id_out_of_range fl c
  · cases fl with
    | nil => exact absurd rfl hne
    | cons m rest =>
      exact ⟨(m, [debugmsg.invalid_int_id c]), fun fuel => obj_out_of_range h (by simp) fuel⟩
  · have : ∃ m, fget fl c = some m := by
      unfold id_out_of_range at h
      exact fget_of_range (by omega) (by omega)
    obtain ⟨m, hm⟩ := this
    exact ⟨_, fun fuel => obj_of_fget hm (fuel + 1)⟩

theorem obj_empty (fuel : Nat) (c : Int) : obj [] fuel c = none := by
  induction fuel generalizing c with
  | zero => rfl
  | succ n ih =>
    have : id_out_of_range [] c := by
      unfold id_out_of_range
      simp
      omega
    simp [obj, this, ih]

/-! ## The resolver `monfaction::attitude` -/

theorem base_of_spec {fl : List monfaction} (hne : fl ≠ []) (t : Int) :
    ∃ o msgs, (∀ fuel, obj fl (fuel + 2) t = some (o, msgs)) ∧ base_of fl t = o.base_faction := by
  obtain ⟨⟨o, msgs⟩, h⟩ := obj_total hne t
  refine ⟨o, msgs, h, ?_⟩
  have h0 := h 0
  simp only [Nat.zero_add] at h0
  simp [base_of, h0]

theorem attitude_hit (fl : List monfaction) (self : monfaction) (t : Int) (a : mf_attitude)
    (h : assoc_find self.attitude_map t = some a) (fuel : Nat) :
    attitude fl (fuel + 1) self t = some (a, []) := by
  simp [attitude, h]

theorem attitude_miss {fl : List monfaction} (hne : fl ≠ []) (self : monfaction) (t : Int)
    (h : assoc_find self.attitude_map t = none) (fuel : Nat) :
    ∃ o msgs, (∀ f, obj fl (f + 2) t = some (o, msgs)) ∧ base_of fl t = o.base_faction ∧
      attitude fl (fuel + 3) self t =
        if t ≠ base_of fl t then
          match attitude fl (fuel + 2) self (base_of fl t) with
          | some (a, msgs2) => some (a, msgs ++ msgs2)
          | none => none
        else
          some (MFA_FRIENDLY, msgs ++ msgs ++ [debugmsg.no_relation_found self.name o.name]) := by
  obtain ⟨o, msgs, hobj, hb⟩ := base_of_spec hne t
  refine ⟨o, msgs, hobj, hb, ?_⟩
  have h1 := hobj fuel
  rw [attitude, h]
  simp only [h1, hb]

theorem parent_chain_fixed (fl : List monfaction) (t : Int) (h : base_of fl t = t) (n : Nat) :
    parent_chain fl n t = t := by
  induction n with
  | zero => rfl
  | succ n ih => simp [parent_chain, h, ih]

theorem attitude_found {fl : List monfaction} (hne : fl ≠ []) (self : monfaction) :
    ∀ (i : Nat) (t : Int) (a : mf_attitude),
      assoc_find self.attitude_map (parent_chain fl i t) = some a →
      (∀ j, j < i → assoc_find self.attitude_map (parent_chain fl j t) = none) →
      ∀ fuel, ∃ msgs, attitude fl (fuel + i + 3) self t = some (a, msgs) := by
  intro i
  induction i with
  | zero =>
    intro t a h _ fuel
    exact ⟨[], attitude_hit fl self t a h (fuel + 2)⟩
  | succ i ih =>
    intro t a h hbefore fuel
    have h0 : assoc_find self.attitude_map t = none := hbefore 0 (by omega)
    have hroot : t ≠ base_of fl t := by
      intro e
      have := parent_chain_fixed fl t e.symm (i + 1)
      rw [this, h0] at h
      cases h
    obtain ⟨o, msgs, _, _, hstep⟩ := attitude_miss hne self t h0 (fuel + i + 1)
    obtain ⟨msgs2, hrec⟩ :=
      ih (base_of fl t) a h (fun j hj => hbefore (j + 1) (by omega)) fuel
    have e1 : fuel + (i + 1) + 3 = fuel + i + 1 + 3 := by omega
    have e2 : fuel + i + 1 + 2 = fuel + i + 3 := by omega
    rw [e1, hstep, if_pos hroot, e2, hrec]
    exact ⟨msgs ++ msgs2, rfl⟩

theorem attitude_not_found {fl : List monfaction} (hne : fl ≠ []) (self : monfaction) :
    ∀ (n : Nat) (t : Int),
      base_of fl (parent_chain fl n t) = parent_chain fl n t →
      (∀ i, i ≤ n → assoc_find self.attitude_map (parent_chain fl i t) = none) →
      ∀ fuel, ∃ o omsgs pre, obj fl 2 (parent_chain fl n t) = some (o, omsgs) ∧
        attitude fl (fuel + n + 3) self t =
          some (MFA_FRIENDLY, pre ++ [debugmsg.no_relation_found self.name o.name]) := by
  intro n
  induction n with
  | zero =>
    intro t hroot hnone fuel
    have h0 : assoc_find self.attitude_map t = none := hnone 0 (by omega)
    obtain ⟨o, msgs, hobj, _, hstep⟩ := attitude_miss hne self t h0 fuel
    have hr : ¬ t ≠ base_of fl t := fun e => e hroot.symm
    refine ⟨o, msgs, msgs ++ msgs, hobj 0, ?_⟩
    rw [Nat.add_zero, hstep, if_neg hr]
  | succ n ih =>
    intro t hroot hnone fuel
    have h0 : assoc_find self.attitude_map t = none := hnone 0 (by omega)
    obtain ⟨o, msgs, hobj, _, hstep⟩ := attitude_miss hne self t h0 (fuel + n + 1)
    have e1 : fuel + (n + 1) + 3 = fuel + n + 1 + 3 := by omega
    by_cases hr : t ≠ base_of fl t
    · obtain ⟨o2, omsgs, pre, hobj2, hrec⟩ :=
        ih (base_of fl t) hroot (fun i hi => hnone (i + 1) (by omega)) fuel
      have e2 : fuel + n + 1 + 2 = fuel + n + 3 := by omega
      refine ⟨o2, omsgs, msgs ++ pre, hobj2, ?_⟩
      rw [e1, hstep, if_pos hr, e2, hrec]
      simp
    · have hfix : base_of fl t = t := by
        by_contra e
        exact hr (fun e2 => e e2.symm)
      have hc := parent_chain_fixed fl t hfix (n + 1)
      refine ⟨o, msgs, msgs ++ msgs, ?_, ?_⟩
      · rw [hc]
        exact hobj 0
      · rw [e1, hstep, if_neg hr]

/-! ## Registries built by the loader are well formed -/

theorem get_or_add_faction_known {reg : Registry} {name : String} {id : Int}
    (h : assoc_find reg.faction_map name = some id) :
    get_or_add_faction reg name = (reg, id) := by
  simp [get_or_add_faction, h]

theorem get_or_add_faction_fresh {reg : Registry} {name : String}
    (h : assoc_find reg.faction_map name = none) :
    get_or_add_faction reg name =
      ({ faction_map := assoc_set reg.faction_map name (reg.faction_map.length : Int),
         faction_list := reg.faction_list ++
           [{ name := name, id := (reg.faction_map.length : Int), base_faction := -1,
              attitude_map := [] }] }, (reg.faction_map.length : Int)) := by
  simp [get_or_add_faction, h]

theorem RegWF_empty : RegWF Registry.empty := by
  refine ⟨rfl, ?_, ?_, ?_⟩
  · intro i m h
    simp [Registry.empty] at h
  · intro i m h
    simp [Registry.empty] at h
  · intro name id h
    simp [Registry.empty, assoc_find] at h

theorem fget_append_left {fl : List monfaction} {c : Int} {m : monfaction}
    (h : fget fl c = some m) (l2 : List monfaction) : fget (fl ++ l2) c = some m := by
  obtain ⟨h0, h1, h2⟩ := fget_eq_some h
  unfold fget
  have hc : ¬ c < 0 := by omega
  simp only [hc, if_false]
  rw [List.getElem?_append_left (by omega)]
  exact h2

theorem RegWF_get_or_add (reg : Registry) (h : RegWF reg) (name : String) :
    RegWF (get_or_add_faction reg name).1 := by
  cases hf : assoc_find reg.faction_map name with
  | some id => rw [get_or_add_faction_known hf]; exact h
  | none =>
    rw [get_or_add_faction_fresh hf]
    obtain ⟨hlen, hl, hn, hm⟩ := h
    refine ⟨?_, ?_, ?_, ?_⟩
    · simp [assoc_set_length_of_none _ _ _ hf, hlen]
    · intro i m hi
      simp only at hi
      by_cases hlt : i < reg.faction_list.length
      · rw [List.getElem?_append_left hlt] at hi
        obtain ⟨h1, h2, h3⟩ := hl i m hi
        refine ⟨h1, h2, ?_⟩
        simp only [List.length_append, List.length_singleton]
        omega
      · have hlen2 := (List.getElem?_eq_some.mp hi).1
        simp only [List.length_append, List.length_singleton] at hlen2
        have hi2 : i = reg.faction_list.length := by omega
        subst hi2
        simp at hi
        subst hi
        simp only [List.length_append, List.length_singleton]
        refine ⟨by simp [hlen], by omega, by omega⟩
    · intro i m hi
      simp only at hi ⊢
      rw [assoc_find_set]
      by_cases hlt : i < reg.faction_list.length
      · rw [List.getElem?_append_left hlt] at hi
        have h1 := hn i m hi
        have : ¬ name = m.name := by
          intro e
          rw [← e, hf] at h1
          cases h1
        simp [this, h1]
      · have hlen2 := (List.getElem?_eq_some.mp hi).1
        simp only [List.length_append, List.length_singleton] at hlen2
        have hi2 : i = reg.faction_list.length := by omega
        subst hi2
        simp at hi
        subst hi
        simp [hlen]
    · intro name2 id hfind
      simp only at hfind ⊢
      rw [assoc_find_set] at hfind
      by_cases he : name = name2
      · subst he
        simp only [if_true, Option.some.injEq] at hfind
        subst hfind
        refine ⟨monfaction.mk name (reg.faction_map.length : Int) (-1) [], ?_, rfl⟩
        rw [hlen, fget_natCast]
        simp
      · simp only [he, if_false] at hfind
        obtain ⟨m, h1, h2⟩ := hm name2 id hfind
        exact ⟨m, fget_append_left h1 _, h2⟩

theorem get_or_add_faction_valid (reg : Registry) (h : RegWF reg) (name : String) :
    ∃ m, fget (get_or_add_faction reg name).1.faction_list (get_or_add_faction reg name).2 =
        some m ∧ m.name = name := by
  have hwf := RegWF_get_or_add reg h name
  have hfind : assoc_find (get_or_add_faction reg name).1.faction_map name =
      some (get_or_add_faction reg name).2 := by
    cases hf : assoc_find reg.faction_map name with
    | some id => rw [get_or_add_faction_known hf]; exact hf
    | none =>
      rw [get_or_add_faction_fresh hf]
      simp [assoc_find_set]
  exact hwf.2.2.2 _ _ hfind

theorem RegWF_modify (reg : Registry) (h : RegWF reg) (id : Int) (f : monfaction → monfaction)
    (hf : ∀ m, m ∈ reg.faction_list → (f m).name = m.name ∧ (f m).id = m.id ∧
      -1 ≤ (f m).base_faction ∧ (f m).base_faction < (reg.faction_list.length : Int)) :
    RegWF { reg with faction_list := modify_faction reg.faction_list id f } := by
  obtain ⟨hlen, hl, hn, hm⟩ := h
  have key : ∀ (i : Nat) (m : monfaction),
      (modify_faction reg.faction_list id f)[i]? = some m →
      ∃ m0, reg.faction_list[i]? = some m0 ∧ (m = m0 ∨ m = f m0) := by
    intro i m hi
    rw [modify_faction_getElem?] at hi
    split at hi
    · cases h0 : reg.faction_list[i]? with
      | none => rw [h0] at hi; cases hi
      | some m0 =>
        rw [h0] at hi
        simp only [Option.map, Option.some.injEq] at hi
        exact ⟨m0, rfl, Or.inr hi.symm⟩
    · exact ⟨m, hi, Or.inl rfl⟩
  refine ⟨?_, ?_, ?_, ?_⟩
  · simp [modify_faction_length, hlen]
  · intro i m hi
    simp only at hi
    obtain ⟨m0, h0, hcase⟩ := key i m hi
    obtain ⟨h1, h2, h3⟩ := hl i m0 h0
    simp only [modify_faction_length]
    rcases hcase with e | e
    · subst e; exact ⟨h1, h2, h3⟩
    · obtain ⟨_, g2, g3, g4⟩ := hf m0 (List.mem_iff_getElem?.mpr ⟨i, h0⟩)
      subst e
      exact ⟨by rw [g2]; exact h1, g3, g4⟩
  · intro i m hi
    simp only at hi ⊢
    obtain ⟨m0, h0, hcase⟩ := key i m hi
    have h1 := hn i m0 h0
    rcases hcase with e | e
    · subst e; exact h1
    · obtain ⟨g1, _⟩ := hf m0 (List.mem_iff_getElem?.mpr ⟨i, h0⟩)
      subst e
      rw [g1]; exact h1
  · intro name id2 hfind
    simp only at hfind ⊢
    obtain ⟨m, h1, h2⟩ := hm name id2 hfind
    rw [fget_modify_faction]
    split
    · refine ⟨f m, by simp [h1], ?_⟩
      obtain ⟨h3, _, _⟩ := fget_eq_some h1
      have := (hf m (List.mem_iff_getElem?.mpr ⟨id2.toNat, (fget_eq_some h1).2.2⟩)).1
      rw [this]; exact h2
    · exact ⟨m, h1, h2⟩

theorem RegWF_add_to_attitude_map_ix (keys : List String) (subject : Int) (value : mf_attitude)
    (reg : Registry) (h : RegWF reg) : RegWF (add_to_attitude_map_ix keys subject value reg) := by
  induction keys generalizing reg with
  | nil => exact h
  | cons k keys ih =>
    rw [add_to_attitude_map_ix]
    apply ih
    have h1 := RegWF_get_or_add reg h k
    exact RegWF_modify _ h1 subject _ (fun m hm => by
      obtain ⟨i, hi⟩ := List.mem_iff_getElem?.mp hm
      obtain ⟨_, g2, g3⟩ := h1.2.1 i m hi
      exact ⟨rfl, rfl, g2, g3⟩)

theorem RegWF_load (reg : Registry) (h : RegWF reg) (jo : JsonObject) :
    RegWF (load_monster_faction_ix reg jo) := by
  unfold load_monster_faction_ix
  have h1 := RegWF_get_or_add reg h jo.name
  have h2 := RegWF_get_or_add _ h1 (jo.base_faction.getD "")
  obtain ⟨mb, hb, _⟩ := get_or_add_faction_valid _ h1 (jo.base_faction.getD "")
  obtain ⟨hb0, hb1, _⟩ := fget_eq_some hb
  have h3 := RegWF_modify _ h2 (get_or_add_faction reg jo.name).2
    (fun f => { f with base_faction :=
      (get_or_add_faction (get_or_add_faction reg jo.name).1 (jo.base_faction.getD "")).2 })
    (fun m _ => ⟨rfl, rfl, by simp only; omega, by simp only; omega⟩)
  exact RegWF_add_to_attitude_map_ix _ _ _ _
    (RegWF_add_to_attitude_map_ix _ _ _ _ (RegWF_add_to_attitude_map_ix _ _ _ _ h3))

theorem RegWF_load_all_ix (jos : List JsonObject) (reg : Registry) (h : RegWF reg) :
    RegWF (load_all_ix reg jos) := by
  induction jos generalizing reg with
  | nil => exact h
  | cons jo jos ih =>
    simp only [load_all_ix, List.foldl_cons]
    exact ih _ (RegWF_load reg h jo)

/-! ## The first two loops of `finalize_monfactions` -/

theorem scan_loop_eq (fl : List monfaction) (st : scan_state) :
    scan_loop fl st = (fl.map scan_faction, fl.foldl scan_locals st) := by
  induction fl generalizing st with
  | nil => rfl
  | cons m rest ih => simp [scan_loop, ih]

theorem scan_locals_queue (fl : List monfaction) (st : scan_state) :
    (fl.foldl scan_locals st).queue =
      st.queue ++ (fl.filter (fun m => m.id = m.base_faction)).map (fun m => m.id) := by
  induction fl generalizing st with
  | nil => simp
  | cons m rest ih =>
    rw [List.foldl_cons, ih]
    by_cases h : m.id = m.base_faction
    · simp [scan_locals, h]
    · by_cases h2 : m.base_faction ≥ 0 <;> simp [scan_locals, h, h2]

theorem scan_locals_child_map (fl : List monfaction) (st : scan_state) :
    (fl.foldl scan_locals st).child_map =
      st.child_map ++ (fl.filter (fun m => ¬ m.id = m.base_faction ∧ m.base_faction ≥ 0)).map
        (fun m => (m.base_faction, m.id)) := by
  induction fl generalizing st with
  | nil => simp
  | cons m rest ih =>
    rw [List.foldl_cons, ih]
    by_cases h : m.id = m.base_faction
    · simp [scan_locals, h]
    · by_cases h2 : m.base_faction ≥ 0 <;> simp [scan_locals, h, h2]

theorem scan_locals_unloaded (fl : List monfaction) (st : scan_state) :
    (fl.foldl scan_locals st).unloaded =
      fl.foldl (fun u m => set_insert u m.id) st.unloaded := by
  induction fl generalizing st with
  | nil => simp
  | cons m rest ih =>
    rw [List.foldl_cons, ih]
    by_cases h : m.id = m.base_faction
    · simp [scan_locals, h]
    · by_cases h2 : m.base_faction ≥ 0 <;> simp [scan_locals, h, h2]

theorem mem_set_insert (s : List Int) (x y : Int) : y ∈ set_insert s x ↔ y = x ∨ y ∈ s := by
  induction s with
  | nil => simp [set_insert]
  | cons z rest ih =>
    unfold set_insert
    split
    · simp
    · split
      · rename_i h1 h2
        subst h2
        simp
      · simp [ih]
        tauto

theorem set_insert_sorted (s : List Int) (x : Int) (h : s.Pairwise (· < ·)) :
    (set_insert s x).Pairwise (· < ·) := by
  induction s with
  | nil => simp [set_insert]
  | cons z rest ih =>
    unfold set_insert
    rw [List.pairwise_cons] at h
    split
    · rename_i h1
      rw [List.pairwise_cons]
      refine ⟨?_, List.pairwise_cons.mpr h⟩
      intro a ha
      rcases List.mem_cons.mp ha with e | e
      · rw [e]; exact h1
      · have := h.1 a e
        omega
    · split
      · exact List.pairwise_cons.mpr h
      · rename_i h1 h2
        rw [List.pairwise_cons]
        refine ⟨?_, ih h.2⟩
        intro a ha
        rcases (mem_set_insert rest x a).mp ha with e | e
        · omega
        · exact h.1 a e

theorem foldl_set_insert_mem (fl : List monfaction) (u : List Int) (y : Int) :
    y ∈ fl.foldl (fun u m => set_insert u m.id) u ↔ y ∈ u ∨ ∃ m, m ∈ fl ∧ m.id = y := by
  induction fl generalizing u with
  | nil => simp
  | cons m rest ih =>
    rw [List.foldl_cons, ih, mem_set_insert]
    constructor
    · rintro ((e | e) | ⟨m2, h1, h2⟩)
      · exact Or.inr ⟨m, by simp, e.symm⟩
      · exact Or.inl e
      · exact Or.inr ⟨m2, by simp [h1], h2⟩
    · rintro (e | ⟨m2, h1, h2⟩)
      · exact Or.inl (Or.inr e)
      · rcases List.mem_cons.mp h1 with e | e
        · subst e
          exact Or.inl (Or.inl h2.symm)
        · exact Or.inr ⟨m2, e, h2⟩

theorem foldl_set_insert_sorted (fl : List monfaction) (u : List Int)
    (h : u.Pairwise (· < ·)) : (fl.foldl (fun u m => set_insert u m.id) u).Pairwise (· < ·) := by
  induction fl generalizing u with
  | nil => exact h
  | cons m rest ih =>
    rw [List.foldl_cons]
    exact ih _ (set_insert_sorted u m.id h)

theorem adopt_loop_eq (root : Int) (fl : List monfaction) (cm : List (Int × Int)) :
    adopt_loop root fl cm =
      (fl.map (adopt_faction root),
       cm ++ (fl.filter (fun m => m.base_faction < 0 ∧ ¬ root = m.id)).map
         (fun m => (root, m.id))) := by
  induction fl generalizing cm with
  | nil => simp [adopt_loop]
  | cons m rest ih =>
    unfold adopt_loop
    by_cases h : m.base_faction < 0
    · by_cases h2 : root = m.id
      · subst h2
        simp [h, ih, adopt_faction]
      · simp [h, h2, ih, adopt_faction]
    · simp [h, ih, adopt_faction]

/-! ## Well-formed lists -/

theorem ListWF_fget {fl : List monfaction} (h : ListWF fl) {c : Int} {m : monfaction}
    (hm : fget fl c = some m) :
    m.id = c ∧ -1 ≤ m.base_faction ∧ m.base_faction < (fl.length : Int) := by
  obtain ⟨h0, h1, h2⟩ := fget_eq_some hm
  obtain ⟨g1, g2, g3⟩ := h _ _ h2
  exact ⟨by omega, g2, g3⟩

theorem ListWF_mem {fl : List monfaction} (h : ListWF fl) {m : monfaction} (hm : m ∈ fl) :
    fget fl m.id = some m := by
  obtain ⟨i, hi⟩ := List.mem_iff_getElem?.mp hm
  obtain ⟨g1, _, _⟩ := h _ _ hi
  rw [g1, fget_natCast]
  exact hi

theorem fget_mem {fl : List monfaction} {c : Int} {m : monfaction} (hm : fget fl c = some m) :
    m ∈ fl :=
  List.mem_iff_getElem?.mpr ⟨_, (fget_eq_some hm).2.2⟩

theorem fget_map (fl : List monfaction) (f : monfaction → monfaction) (c : Int) :
    fget (fl.map f) c = (fget fl c).map f := by
  unfold fget
  split
  · rfl
  · simp [List.getElem?_map]

/-! ## `apply_base_faction` and the inner loop of the traversal -/

theorem modify_at_id {α : Type} (l : List α) (n : Nat) : modify_at l n (fun x => x) = l := by
  induction l generalizing n with
  | nil => rfl
  | cons x rest ih =>
    cases n with
    | zero => rfl
    | succ n => simp [modify_at, ih]

theorem modify_at_comp {α : Type} (l : List α) (n : Nat) (f g : α → α) :
    modify_at (modify_at l n f) n g = modify_at l n (fun x => g (f x)) := by
  induction l generalizing n with
  | nil => rfl
  | cons x rest ih =>
    cases n with
    | zero => rfl
    | succ n => simp [modify_at, ih]

theorem modify_faction_id (fl : List monfaction) (c : Int) :
    modify_faction fl c (fun x => x) = fl := by
  unfold modify_faction
  split
  · rfl
  · exact modify_at_id _ _

theorem modify_faction_comp (fl : List monfaction) (c : Int) (f g : monfaction → monfaction) :
    modify_faction (modify_faction fl c f) c g = modify_faction fl c (fun x => g (f x)) := by
  unfold modify_faction
  split
  · rfl
  · exact modify_at_comp _ _ _ _

theorem foldl_modify_faction {β : Type} (ps : List β) (g : β → monfaction → monfaction)
    (fl : List monfaction) (c : Int) :
    ps.foldl (fun fl2 p => modify_faction fl2 c (g p)) fl =
      modify_faction fl c (fun m => ps.foldl (fun m2 p => g p m2) m) := by
  induction ps generalizing fl with
  | nil => simp [modify_faction_id]
  | cons p ps ih =>
    simp only [List.foldl_cons]
    rw [ih, modify_faction_comp]

theorem foldl_merge_step (ps : mfaction_att_map) (m : monfaction) :
    ps.foldl (fun m2 pair =>
        if (assoc_find m2.attitude_map pair.1).isNone then
          { m2 with attitude_map := assoc_insert m2.attitude_map pair }
        else m2) m =
      { m with attitude_map := merge_att m.attitude_map ps } := by
  induction ps generalizing m with
  | nil => rfl
  | cons p ps ih =>
    simp only [List.foldl_cons, merge_att]
    rw [ih]
    by_cases h : (assoc_find m.attitude_map p.1).isNone
    · simp [h, merge_att]
    · simp [h, merge_att]

theorem assoc_find_merge_att (a ps : mfaction_att_map) (k : Int) :
    assoc_find (merge_att a ps) k = (assoc_find a k).or (assoc_find ps k) := by
  induction ps generalizing a with
  | nil => simp [merge_att, assoc_find]
  | cons p ps ih =>
    obtain ⟨pk, pv⟩ := p
    have hstep : merge_att a ((pk, pv) :: ps) =
        merge_att (if (assoc_find a pk).isNone then assoc_insert a (pk, pv) else a) ps := by
      simp [merge_att]
    rw [hstep, ih]
    by_cases h : (assoc_find a pk).isNone
    · rw [if_pos h, assoc_find_insert]
      by_cases hk : pk = k
      · subst hk
        rw [Option.isNone_iff_eq_none] at h
        simp [h, assoc_find]
      · cases hfa : assoc_find a k <;> simp [assoc_find, hk]
    · rw [if_neg h]
      by_cases hk : pk = k
      · subst hk
        cases hfa : assoc_find a pk with
        | none => simp [hfa] at h
        | some v => simp
      · simp [assoc_find, hk]

theorem apply_base_faction_spec {fl : List monfaction} {base : Int} {b : monfaction}
    (hb : fget fl base = some b) (fuel : Nat) (c : Int) :
    apply_base_faction (fuel + 1) fl base c =
      some (modify_faction fl c
        (fun m => { m with attitude_map := merge_att m.attitude_map b.attitude_map }), []) := by
  unfold apply_base_faction
  rw [obj_of_fget hb]
  simp only
  rw [foldl_modify_faction b.attitude_map
    (fun pair faction =>
      if (assoc_find faction.attitude_map pair.1).isNone then
        { faction with attitude_map := assoc_insert faction.attitude_map pair }
      else faction)]
  have e : (fun m : monfaction => b.attitude_map.foldl
      (fun m2 p =>
        if (assoc_find m2.attitude_map p.1).isNone then
          { m2 with attitude_map := assoc_insert m2.attitude_map p }
        else m2) m) =
      (fun m => { m with attitude_map := merge_att m.attitude_map b.attitude_map }) := by
    funext m
    exact foldl_merge_step b.attitude_map m
  rw [e]

theorem children_loop_spec (fuel : Nat) (cur : Int) (b : monfaction)
    (ch : List (Int × Int)) (st : bfs_state)
    (hcur : fget st.faction_list cur = some b) (hne : ∀ p, p ∈ ch → p.2 ≠ cur) :
    children_loop (fuel + 1) cur ch st =
      some { st with
        faction_list := ch.foldl (fun fl p => modify_faction fl p.2
          (fun m => { m with attitude_map := merge_att m.attitude_map b.attitude_map }))
          st.faction_list,
        queue := st.queue ++ ch.map Prod.snd } := by
  induction ch generalizing st with
  | nil => simp [children_loop]
  | cons p ch ih =>
    rw [children_loop, apply_base_faction_spec hcur]
    simp only
    have hp : p.2 ≠ cur := hne p (by simp)
    rw [ih]
    · simp
    · simp only
      rw [fget_modify_faction]
      have : ¬ cur = p.2 := fun e => hp e.symm
      simp [this, hcur]
    · intro q hq
      exact hne q (by simp [hq])

theorem fget_foldl_modify (F : monfaction → monfaction) (ch : List (Int × Int))
    (fl : List monfaction) (hnd : (ch.map Prod.snd).Nodup) (x : Int) :
    fget (ch.foldl (fun fl p => modify_faction fl p.2 F) fl) x =
      if x ∈ ch.map Prod.snd then (fget fl x).map F else fget fl x := by
  induction ch generalizing fl with
  | nil => simp
  | cons p ch ih =>
    simp only [List.map_cons, List.nodup_cons] at hnd
    simp only [List.foldl_cons]
    rw [ih _ hnd.2, fget_modify_faction]
    by_cases h1 : x = p.2
    · subst h1
      simp [hnd.1]
    · by_cases h2 : x ∈ ch.map Prod.snd
      · simp [h1, h2]
      · simp [h1, h2]

theorem map_skel_modify_faction (fl : List monfaction) (c : Int) (F : monfaction → monfaction)
    (hF : ∀ m, skel (F m) = skel m) : (modify_faction fl c F).map skel = fl.map skel := by
  apply List.ext_getElem?
  intro i
  rw [List.getElem?_map, List.getElem?_map, modify_faction_getElem?]
  split
  · cases fl[i]? with
    | none => rfl
    | some m => simp [hF]
  · rfl

theorem map_skel_foldl_modify (F : monfaction → monfaction) (hF : ∀ m, skel (F m) = skel m)
    (ch : List (Int × Int)) (fl : List monfaction) :
    (ch.foldl (fun fl p => modify_faction fl p.2 F) fl).map skel = fl.map skel := by
  induction ch generalizing fl with
  | nil => rfl
  | cons p ch ih =>
    simp only [List.foldl_cons]
    rw [ih, map_skel_modify_faction _ _ _ hF]

theorem fget_skel {fl fl2 : List monfaction} (h : fl.map skel = fl2.map skel) {c : Int}
    {m2 : monfaction} (hm : fget fl2 c = some m2) :
    ∃ m, fget fl c = some m ∧ skel m = skel m2 := by
  have h1 : (fl.map skel)[c.toNat]? = (fl2.map skel)[c.toNat]? := by rw [h]
  unfold fget at hm ⊢
  split at hm
  · cases hm
  · rename_i hc
    simp only [hc, if_false]
    rw [List.getElem?_map, List.getElem?_map, hm] at h1
    cases h2 : fl[c.toNat]? with
    | none => rw [h2] at h1; cases h1
    | some m =>
      rw [h2] at h1
      simp only [Option.map, Option.some.injEq] at h1
      exact ⟨m, rfl, h1⟩

/-! ## The traversal loop -/

theorem base_of_fget {fl : List monfaction} {c : Int} {m : monfaction}
    (h : fget fl c = some m) : base_of fl c = m.base_faction := by
  unfold base_of
  rw [obj_of_fget h 1]

theorem att_of_fget {fl : List monfaction} {c : Int} {m : monfaction}
    (h : fget fl c = some m) : att_of fl c = m.attitude_map := by
  unfold att_of
  rw [h]

theorem reaches_root_step {fl : List monfaction} {c : Int} {m : monfaction}
    (h : fget fl c = some m) (hr : reaches_root fl m.base_faction) : reaches_root fl c := by
  obtain ⟨n, hn⟩ := hr
  refine ⟨n + 1, ?_⟩
  rw [parent_chain, base_of_fget h]
  exact hn

theorem bfs_step {fl2 : List monfaction} {cm : List (Int × Int)} (ctx : bfs_ctx fl2 cm)
    {st : bfs_state} (inv : bfs_inv fl2 st) {cur : Int} {rest : List Int}
    (hq : st.queue = cur :: rest) (dfuel : Nat) :
    cur ∈ st.unloaded ∧
    ∃ st2, children_loop (dfuel + 1) cur (cm.filter (fun p => p.1 = cur))
        { st with queue := rest, unloaded := st.unloaded.filter (fun x => x ≠ cur) } = some st2 ∧
      bfs_inv fl2 st2 ∧ st2.unloaded.length < st.unloaded.length := by
  have hcurq : cur ∈ st.queue := by rw [hq]; simp
  have hcuru : cur ∈ st.unloaded := inv.queue_unloaded cur hcurq
  obtain ⟨mc, hmc⟩ := inv.unloaded_valid cur hcuru
  obtain ⟨b, hb, hbskel⟩ := fget_skel inv.skel_eq hmc
  have hnd : (cur :: rest).Nodup := by rw [← hq]; exact inv.queue_nodup
  have hcur_rest : cur ∉ rest := (List.nodup_cons.mp hnd).1
  have hrest_nd : rest.Nodup := (List.nodup_cons.mp hnd).2
  -- the children of `cur`
  have hch : ∀ c, c ∈ (cm.filter (fun p => p.1 = cur)).map Prod.snd ↔
      ∃ m, fget fl2 c = some m ∧ m.base_faction ≠ c ∧ m.base_faction = cur := by
    intro c
    simp only [List.mem_map, List.mem_filter, decide_eq_true_eq]
    constructor
    · rintro ⟨⟨p, c2⟩, ⟨h1, h2⟩, h3⟩
      simp only at h2 h3
      subst h2 h3
      exact (ctx.edges _ _).mp h1
    · intro h
      exact ⟨(cur, c), ⟨(ctx.edges _ _).mpr h, rfl⟩, rfl⟩
  have hch_nd : ((cm.filter (fun p => p.1 = cur)).map Prod.snd).Nodup :=
    List.Nodup.sublist (List.Sublist.map _ (List.filter_sublist _)) ctx.nodup
  have hch_ne : ∀ p, p ∈ cm.filter (fun p => p.1 = cur) → p.2 ≠ cur := by
    intro p hp e
    have : p.2 ∈ (cm.filter (fun p => p.1 = cur)).map Prod.snd := List.mem_map.mpr ⟨p, hp, rfl⟩
    obtain ⟨m, h1, h2, h3⟩ := (hch _).mp this
    rw [e] at h2
    exact h2 h3
  refine ⟨hcuru, _, children_loop_spec dfuel cur b _ _ hb hch_ne, ?_, ?_⟩
  · -- the invariant after the step
    have hF : ∀ m : monfaction,
        skel { m with attitude_map := merge_att m.attitude_map b.attitude_map } = skel m :=
      fun m => rfl
    have hatt : ∀ x, att_of ((cm.filter (fun p => p.1 = cur)).foldl
          (fun fl p => modify_faction fl p.2
            (fun m => { m with attitude_map := merge_att m.attitude_map b.attitude_map }))
          st.faction_list) x =
        if x ∈ (cm.filter (fun p => p.1 = cur)).map Prod.snd then
          (match fget st.faction_list x with
           | some m => merge_att m.attitude_map b.attitude_map
           | none => [])
        else att_of st.faction_list x := by
      intro x
      unfold att_of
      rw [fget_foldl_modify _ _ _ hch_nd]
      by_cases hx : x ∈ (cm.filter (fun p => p.1 = cur)).map Prod.snd
      · rw [if_pos hx, if_pos hx]
        cases fget st.faction_list x <;> rfl
      · rw [if_neg hx, if_neg hx]
    have hmemf : ∀ x, x ∈ st.unloaded.filter (fun x => x ≠ cur) ↔ x ∈ st.unloaded ∧ x ≠ cur := by
      intro x
      simp [List.mem_filter]
    constructor
    · simp only
      rw [map_skel_foldl_modify _ hF]
      exact inv.skel_eq
    · exact inv.no_msgs
    · simp only
      rw [List.nodup_append]
      refine ⟨hrest_nd, hch_nd, ?_⟩
      intro x hx1 hx2
      obtain ⟨m, h1, h2, h3⟩ := (hch x).mp hx2
      have := (inv.pending x m h1 h2 (by rw [h3]; exact hcuru)).2.2
      exact this (by rw [hq]; simp [hx1])
    · intro q hq2
      simp only [List.mem_append] at hq2
      rw [hmemf]
      rcases hq2 with h | h
      · refine ⟨inv.queue_unloaded q (by rw [hq]; simp [h]), ?_⟩
        intro e
        subst e
        exact hcur_rest h
      · obtain ⟨m, h1, h2, h3⟩ := (hch q).mp h
        refine ⟨(inv.pending q m h1 h2 (by rw [h3]; exact hcuru)).1 |> fun _ =>
          (inv.pending q m h1 h2 (by rw [h3]; exact hcuru)).2.1, ?_⟩
        intro e
        subst e
        exact h2 h3
    · intro u hu
      exact inv.unloaded_valid u ((hmemf u).mp hu).1
    · exact List.Pairwise.filter _ inv.unloaded_sorted
    · -- pending
      intro c m hm hne hbu
      simp only at hbu ⊢
      obtain ⟨hbu1, hbu2⟩ := (hmemf _).mp hbu
      obtain ⟨p1, p2, p3⟩ := inv.pending c m hm hne hbu1
      have hc_not_child : c ∉ (cm.filter (fun p => p.1 = cur)).map Prod.snd := by
        intro hc
        obtain ⟨m2, h1, h2, h3⟩ := (hch c).mp hc
        rw [hm] at h1
        cases h1
        exact hbu2 h3
      have hc_ne : c ≠ cur := by
        intro e
        subst e
        exact p3 hcurq
      refine ⟨?_, (hmemf c).mpr ⟨p2, hc_ne⟩, ?_⟩
      · rw [hatt, if_neg hc_not_child]
        exact p1
      · simp only [List.mem_append, not_or]
        refine ⟨?_, hc_not_child⟩
        intro h
        exact p3 (by rw [hq]; simp [h])
    · -- reached
      intro c m hm hne hbu
      simp only at hbu ⊢
      have hmemq : ∀ x, x ∈ st.queue → x ∈ rest ++
          (cm.filter (fun p => p.1 = cur)).map Prod.snd ∨
          x ∉ st.unloaded.filter (fun x => x ≠ cur) := by
        intro x hx
        rw [hq] at hx
        rcases List.mem_cons.mp hx with e | e
        · right
          rw [hmemf]
          intro h
          exact h.2 e
        · left
          simp [e]
      by_cases hbc : m.base_faction = cur
      · have hc_child : c ∈ (cm.filter (fun p => p.1 = cur)).map Prod.snd :=
          (hch c).mpr ⟨m, hm, hne, hbc⟩
        obtain ⟨p1, p2, p3⟩ := inv.pending c m hm hne (by rw [hbc]; exact hcuru)
        obtain ⟨mc2, hmc2, _⟩ := fget_skel inv.skel_eq hm
        have hcur_not_child : cur ∉ (cm.filter (fun p => p.1 = cur)).map Prod.snd := by
          intro hc
          obtain ⟨m2, h1, h2, h3⟩ := (hch cur).mp hc
          exact h2 h3
        refine ⟨?_, Or.inl (by simp [hc_child])⟩
        intro k
        rw [hatt, if_pos hc_child, hmc2, hbc, hatt, if_neg hcur_not_child, att_of_fget hb]
        simp only
        rw [assoc_find_merge_att]
        rw [att_of_fget hmc2] at p1
        rw [p1]
      · have hbu1 : m.base_faction ∉ st.unloaded := by
          intro h
          exact hbu ((hmemf _).mpr ⟨h, hbc⟩)
        obtain ⟨r1, r2⟩ := inv.reached c m hm hne hbu1
        have hc_not_child : c ∉ (cm.filter (fun p => p.1 = cur)).map Prod.snd := by
          intro hc
          obtain ⟨m2, h1, h2, h3⟩ := (hch c).mp hc
          rw [hm] at h1
          cases h1
          exact hbc h3
        have hp_not_child : m.base_faction ∉ (cm.filter (fun p => p.1 = cur)).map Prod.snd := by
          intro hc
          obtain ⟨m2, h1, h2, h3⟩ := (hch _).mp hc
          have := (inv.pending _ m2 h1 h2 (by rw [h3]; exact hcuru)).2.1
          exact hbu1 this
        refine ⟨?_, ?_⟩
        · intro k
          rw [hatt, if_neg hc_not_child, hatt, if_neg hp_not_child]
          exact r1 k
        · rcases r2 with h | h
          · rcases hmemq c h with h2 | h2
            · exact Or.inl h2
            · exact Or.inr h2
          · right
            intro h2
            exact h ((hmemf c).mp h2).1
    · -- roots
      intro c m hm hroot
      simp only
      obtain ⟨r1, r2⟩ := inv.roots c m hm hroot
      have hc_not_child : c ∉ (cm.filter (fun p => p.1 = cur)).map Prod.snd := by
        intro hc
        obtain ⟨m2, h1, h2, h3⟩ := (hch c).mp hc
        rw [hm] at h1
        cases h1
        exact h2 hroot
      refine ⟨?_, ?_⟩
      · rw [hatt, if_neg hc_not_child]
        exact r1
      · rcases r2 with h | h
        · rw [hq] at h
          rcases List.mem_cons.mp h with e | e
          · right
            rw [hmemf]
            intro h2
            exact h2.2 e
          · left
            simp [e]
        · right
          intro h2
          exact h ((hmemf c).mp h2).1
    · -- reach
      intro c hc hcase
      simp only at hcase
      rcases hcase with h | h
      · rcases List.mem_append.mp h with h2 | h2
        · exact inv.reach c hc (Or.inl (by rw [hq]; simp [h2]))
        · obtain ⟨m, h3, h4, h5⟩ := (hch c).mp h2
          apply reaches_root_step h3
          rw [h5]
          exact inv.reach cur ⟨mc, hmc⟩ (Or.inl hcurq)
      · by_cases hcu : c ∈ st.unloaded
        · have : c = cur := by
            by_contra hne
            exact h ((hmemf c).mpr ⟨hcu, hne⟩)
          subst this
          exact inv.reach c hc (Or.inl hcurq)
        · exact inv.reach c hc (Or.inr hcu)
  · simp only
    apply List.length_filter_lt_length_iff_exists.mpr
    exact ⟨cur, hcuru, by simp⟩

theorem bfs_loop_spec {fl2 : List monfaction} {cm : List (Int × Int)} (ctx : bfs_ctx fl2 cm)
    (dfuel : Nat) :
    ∀ (fuel : Nat) (st : bfs_state), bfs_inv fl2 st → st.unloaded.length ≤ fuel →
      ∃ st2, bfs_loop (dfuel + 1) cm fuel st = some st2 ∧ bfs_inv fl2 st2 ∧ st2.queue = [] := by
  intro fuel
  induction fuel with
  | zero =>
    intro st inv hlen
    have hu : st.unloaded = [] := List.length_eq_zero.mp (by omega)
    have hq : st.queue = [] := by
      cases hq : st.queue with
      | nil => rfl
      | cons q rest =>
        have := inv.queue_unloaded q (by rw [hq]; simp)
        rw [hu] at this
        cases this
    exact ⟨st, by simp [bfs_loop, hq], inv, hq⟩
  | succ fuel ih =>
    intro st inv hlen
    cases hq : st.queue with
    | nil => exact ⟨st, by simp [bfs_loop, hq], inv, hq⟩
    | cons cur rest =>
      obtain ⟨hcuru, st2, hst2, inv2, hlt⟩ := bfs_step ctx inv hq dfuel
      obtain ⟨st3, hst3, inv3, hq3⟩ := ih st2 inv2 (by omega)
      refine ⟨st3, ?_, inv3, hq3⟩
      rw [bfs_loop]
      simp only [hq, hcuru, if_true, hst2]
      exact hst3

theorem bfs_final_unloaded {fl2 : List monfaction} {cm : List (Int × Int)}
    (ctx : bfs_ctx fl2 cm) {st : bfs_state} (inv : bfs_inv fl2 st) (hq : st.queue = [])
    (c : Int) (hc : ∃ m, fget fl2 c = some m) : c ∉ st.unloaded ↔ reaches_root fl2 c := by
  constructor
  · intro h
    exact inv.reach c hc (Or.inr h)
  · rintro ⟨n, hn⟩
    induction n generalizing c with
    | zero =>
      obtain ⟨m, hm, hroot⟩ := hn
      simp only [parent_chain] at hm hroot
      rcases (inv.roots c m hm hroot).2 with h | h
      · rw [hq] at h
        cases h
      · exact h
    | succ n ih =>
      obtain ⟨m, hm⟩ := hc
      by_cases hroot : m.base_faction = c
      · rcases (inv.roots c m hm hroot).2 with h | h
        · rw [hq] at h
          cases h
        · exact h
      · rw [parent_chain, base_of_fget hm] at hn
        have hp := ih m.base_faction (ctx.base_valid c m hm) hn
        rcases (inv.reached c m hm hroot hp).2 with h | h
        · rw [hq] at h
          cases h
        · exact h

/-! ## The state that the first two loops hand to the traversal -/

theorem ListWF_ids {fl : List monfaction} (h : ListWF fl) :
    fl.map (fun m => m.id) = (List.range fl.length).map Int.ofNat := by
  apply List.ext_getElem?
  intro i
  rw [List.getElem?_map, List.getElem?_map]
  by_cases hi : i < fl.length
  · rw [List.getElem?_range hi]
    have := List.getElem?_eq_getElem hi
    rw [this]
    simp [(h i _ this).1]
  · rw [List.getElem?_eq_none (by omega), List.getElem?_eq_none (by simp; omega)]
    rfl

theorem ListWF_ids_sorted {fl : List monfaction} (h : ListWF fl) :
    (fl.map (fun m => m.id)).Pairwise (· < ·) := by
  rw [ListWF_ids h]
  apply List.Pairwise.map Int.ofNat _ (List.pairwise_lt_range _)
  intro a b hab
  simp only [Int.ofNat_eq_coe]
  omega

theorem ListWF_ids_nodup {fl : List monfaction} (h : ListWF fl) :
    (fl.map (fun m => m.id)).Nodup :=
  (ListWF_ids_sorted h).nodup

theorem scan_faction_skel (m : monfaction) : skel (scan_faction m) = skel m := by
  unfold scan_faction
  split
  · rfl
  · split <;> rfl

theorem scan_faction_id (m : monfaction) : (scan_faction m).id = m.id :=
  congrArg (fun x => x.2.1) (scan_faction_skel m)

theorem scan_faction_base (m : monfaction) : (scan_faction m).base_faction = m.base_faction :=
  congrArg (fun x => x.2.2) (scan_faction_skel m)

theorem scan_faction_name (m : monfaction) : (scan_faction m).name = m.name :=
  congrArg (fun x => x.1) (scan_faction_skel m)

theorem scan_faction_att_root (m : monfaction) (h : m.base_faction = m.id) :
    (scan_faction m).attitude_map = m.attitude_map := by
  unfold scan_faction
  rw [if_pos h.symm]

theorem scan_faction_att (m : monfaction) (h : m.base_faction ≠ m.id) (k : Int) :
    assoc_find (scan_faction m).attitude_map k =
      (assoc_find m.attitude_map k).or (if k = m.id then some MFA_FRIENDLY else none) := by
  unfold scan_faction
  have h2 : ¬ m.id = m.base_faction := fun e => h e.symm
  rw [if_neg h2]
  by_cases h3 : (assoc_find m.attitude_map m.id).isNone
  · rw [if_pos h3]
    simp only
    rw [assoc_find_set]
    rw [Option.isNone_iff_eq_none] at h3
    by_cases hk : m.id = k
    · subst hk
      simp [h3]
    · have : ¬ k = m.id := fun e => hk e.symm
      simp [hk, this]
  · rw [if_neg h3]
    by_cases hk : k = m.id
    · subst hk
      cases hf : assoc_find m.attitude_map m.id with
      | none => simp [hf] at h3
      | some v => simp
    · simp [hk]

theorem adopt_faction_name (root : Int) (m : monfaction) : (adopt_faction root m).name = m.name := by
  unfold adopt_faction
  split <;> rfl

theorem adopt_faction_id (root : Int) (m : monfaction) : (adopt_faction root m).id = m.id := by
  unfold adopt_faction
  split <;> rfl

theorem adopt_faction_att (root : Int) (m : monfaction) :
    (adopt_faction root m).attitude_map = m.attitude_map := by
  unfold adopt_faction
  split <;> rfl

theorem adopt_faction_base (root : Int) (m : monfaction) :
    (adopt_faction root m).base_faction = if m.base_faction < 0 then root else m.base_faction := by
  unfold adopt_faction
  split <;> rfl

theorem primary_root_eq (fl : List monfaction) :
    primary_root fl = ((fl.filter (fun m => m.id = m.base_faction)).map (fun m => m.id)).head? := by
  unfold primary_root
  rw [scan_loop_eq]
  simp only
  rw [scan_locals_queue]
  simp

theorem mem_roots {fl : List monfaction} (h : ListWF fl) (c : Int) :
    c ∈ (fl.filter (fun m => m.id = m.base_faction)).map (fun m => m.id) ↔
      self_parented fl c := by
  simp only [List.mem_map, List.mem_filter, decide_eq_true_eq]
  constructor
  · rintro ⟨m, ⟨h1, h2⟩, h3⟩
    subst h3
    exact ⟨m, ListWF_mem h h1, h2.symm⟩
  · rintro ⟨m, h1, h2⟩
    have := (ListWF_fget h h1).1
    exact ⟨m, ⟨fget_mem h1, by rw [this, h2]⟩, this⟩

theorem primary_root_spec {fl : List monfaction} (h : ListWF fl) {root : Int}
    (hr : primary_root fl = some root) :
    self_parented fl root ∧ ∀ c, self_parented fl c → root ≤ c := by
  rw [primary_root_eq, List.head?_eq_some_iff] at hr
  obtain ⟨rest, hrest⟩ := hr
  have hsorted : ((fl.filter (fun m => m.id = m.base_faction)).map (fun m => m.id)).Pairwise
      (· < ·) :=
    List.Pairwise.sublist (List.Sublist.map _ (List.filter_sublist _)) (ListWF_ids_sorted h)
  constructor
  · rw [← mem_roots h, hrest]
    simp
  · intro c hc
    rw [← mem_roots h, hrest] at hc
    rw [hrest, List.pairwise_cons] at hsorted
    rcases List.mem_cons.mp hc with e | e
    · omega
    · have := hsorted.1 c e
      omega

theorem fget_finalize_list (root : Int) (fl : List monfaction) (c : Int) :
    fget ((fl.map scan_faction).map (adopt_faction root)) c =
      (fget fl c).map (fun m => adopt_faction root (scan_faction m)) := by
  rw [fget_map, fget_map]
  cases fget fl c <;> rfl

theorem finalize_list_fget {root : Int} {fl : List monfaction} {c : Int} {m2 : monfaction}
    (h : fget ((fl.map scan_faction).map (adopt_faction root)) c = some m2) :
    ∃ m, fget fl c = some m ∧ m2 = adopt_faction root (scan_faction m) := by
  rw [fget_finalize_list] at h
  cases hm : fget fl c with
  | none => rw [hm] at h; cases h
  | some m =>
    rw [hm] at h
    simp only [Option.map, Option.some.injEq] at h
    exact ⟨m, rfl, h.symm⟩

theorem finalize_list_base (root : Int) (m : monfaction) :
    (adopt_faction root (scan_faction m)).base_faction =
      if m.base_faction < 0 then root else m.base_faction := by
  rw [adopt_faction_base, scan_faction_base]

theorem finalize_list_id (root : Int) (m : monfaction) :
    (adopt_faction root (scan_faction m)).id = m.id := by
  rw [adopt_faction_id, scan_faction_id]

theorem finalize_list_wf {fl : List monfaction} (h : ListWF fl) {root : Int}
    (hroot : self_parented fl root) :
    ListWF ((fl.map scan_faction).map (adopt_faction root)) ∧
    ∀ c m2, fget ((fl.map scan_faction).map (adopt_faction root)) c = some m2 →
      0 ≤ m2.base_faction ∧ m2.base_faction < (fl.length : Int) := by
  obtain ⟨mr, hmr, hmr2⟩ := hroot
  obtain ⟨r0, r1, _⟩ := fget_eq_some hmr
  have key : ∀ c m2, fget ((fl.map scan_faction).map (adopt_faction root)) c = some m2 →
      m2.id = c ∧ 0 ≤ m2.base_faction ∧ m2.base_faction < (fl.length : Int) := by
    intro c m2 h2
    obtain ⟨m, hm, e⟩ := finalize_list_fget h2
    obtain ⟨g1, g2, g3⟩ := ListWF_fget h hm
    subst e
    rw [finalize_list_base, finalize_list_id]
    refine ⟨g1, ?_, ?_⟩
    · split <;> omega
    · split <;> omega
  constructor
  · intro i m2 hi
    have hi2 : fget ((fl.map scan_faction).map (adopt_faction root)) (i : Int) = some m2 := by
      rw [fget_natCast]; exact hi
    obtain ⟨g1, g2, g3⟩ := key _ _ hi2
    simp only [List.length_map]
    exact ⟨g1, by omega, g3⟩
  · intro c m2 h2
    exact (key c m2 h2).2

theorem finalize_ctx {fl : List monfaction} (h : ListWF fl) {root : Int}
    (hroot : self_parented fl root) :
    bfs_ctx ((fl.map scan_faction).map (adopt_faction root))
      ((fl.filter (fun m => ¬ m.id = m.base_faction ∧ m.base_faction ≥ 0)).map
          (fun m => (m.base_faction, m.id)) ++
        ((fl.map scan_faction).filter (fun m => m.base_faction < 0 ∧ ¬ root = m.id)).map
          (fun m => (root, m.id))) := by
  obtain ⟨hwf2, hbase2⟩ := finalize_list_wf h hroot
  obtain ⟨mr, hmr, hmr2⟩ := hroot
  have hmrid := (ListWF_fget h hmr).1
  constructor
  · exact hwf2
  · intro p c
    simp only [List.mem_append, List.mem_map, List.mem_filter, decide_eq_true_eq,
      Prod.mk.injEq]
    constructor
    · rintro (⟨m, ⟨h1, h2, h3⟩, h4, h5⟩ | ⟨m1, ⟨h1, h2, h3⟩, h4, h5⟩)
      · subst h4 h5
        refine ⟨adopt_faction root (scan_faction m), ?_, ?_, ?_⟩
        · rw [fget_finalize_list, ListWF_mem h h1]
          rfl
        · rw [finalize_list_base]
          have : ¬ m.base_faction < 0 := by omega
          rw [if_neg this]
          exact fun e => h2 e.symm
        · rw [finalize_list_base]
          have : ¬ m.base_faction < 0 := by omega
          rw [if_neg this]
      · obtain ⟨m, hm, e⟩ := h1
        subst e h4 h5
        rw [scan_faction_base] at h2
        rw [scan_faction_id] at h3 ⊢
        refine ⟨adopt_faction root (scan_faction m), ?_, ?_, ?_⟩
        · rw [fget_finalize_list, ListWF_mem h hm]
          rfl
        · rw [finalize_list_base, if_pos h2]
          exact h3
        · rw [finalize_list_base, if_pos h2]
    · rintro ⟨m2, h1, h2, h3⟩
      obtain ⟨m, hm, e⟩ := finalize_list_fget h1
      have hid := (ListWF_fget h hm).1
      subst e
      rw [finalize_list_base] at h2 h3
      by_cases hneg : m.base_faction < 0
      · rw [if_pos hneg] at h2 h3
        right
        refine ⟨scan_faction m, ⟨⟨m, fget_mem hm, rfl⟩, ?_, ?_⟩, h3, ?_⟩
        · rw [scan_faction_base]; exact hneg
        · rw [scan_faction_id, hid]; exact h2
        · rw [scan_faction_id, hid]
      · rw [if_neg hneg] at h2 h3
        left
        refine ⟨m, ⟨fget_mem hm, ?_, by omega⟩, h3, hid⟩
        rw [hid]
        exact fun e => h2 e.symm
  · rw [List.map_append, List.map_map, List.map_map, List.nodup_append]
    have e1 : (Prod.snd ∘ fun m : monfaction => (m.base_faction, m.id)) = fun m => m.id := rfl
    have e2 : (Prod.snd ∘ fun m : monfaction => (root, m.id)) = fun m => m.id := rfl
    rw [e1, e2]
    have hids1 : ((fl.map scan_faction).map (fun m => m.id)) = fl.map (fun m => m.id) := by
      rw [List.map_map]
      apply List.map_congr_left
      intro m _
      exact scan_faction_id m
    refine ⟨?_, ?_, ?_⟩
    · exact List.Nodup.sublist (List.Sublist.map _ (List.filter_sublist _)) (ListWF_ids_nodup h)
    · apply List.Nodup.sublist (List.Sublist.map _ (List.filter_sublist _))
      rw [hids1]
      exact ListWF_ids_nodup h
    · intro x hx1 hx2
      simp only [List.mem_map, List.mem_filter, decide_eq_true_eq] at hx1 hx2
      obtain ⟨m, ⟨g1, g2, g3⟩, g4⟩ := hx1
      obtain ⟨m1, ⟨k1, k2, k3⟩, k4⟩ := hx2
      obtain ⟨m0, hm0, e⟩ := k1
      subst e
      rw [scan_faction_base] at k2
      rw [scan_faction_id] at k4
      have a1 := ListWF_mem h g1
      have a2 := ListWF_mem h hm0
      rw [g4] at a1
      rw [k4, a1] at a2
      cases a2
      omega
  · intro c m2 hm2
    obtain ⟨b0, b1⟩ := hbase2 c m2 hm2
    have : m2.base_faction < (((fl.map scan_faction).map (adopt_faction root)).length : Int) := by
      simp only [List.length_map]
      exact b1
    exact fget_of_range b0 this

theorem finalize_inv {fl : List monfaction} (h : ListWF fl) {root : Int}
    (hroot : self_parented fl root) :
    bfs_inv ((fl.map scan_faction).map (adopt_faction root))
      ⟨(fl.map scan_faction).map (adopt_faction root),
       fl.foldl (fun u m => set_insert u m.id) [],
       (fl.filter (fun m => m.id = m.base_faction)).map (fun m => m.id), []⟩ := by
  have ctx := finalize_ctx h hroot
  obtain ⟨mr, hmr, hmr2⟩ := hroot
  have hmem_u : ∀ c m2, fget ((fl.map scan_faction).map (adopt_faction root)) c = some m2 →
      c ∈ fl.foldl (fun u m => set_insert u m.id) [] := by
    intro c m2 hm2
    obtain ⟨m, hm, _⟩ := finalize_list_fget hm2
    rw [foldl_set_insert_mem]
    exact Or.inr ⟨m, fget_mem hm, (ListWF_fget h hm).1⟩
  have hroot_iff : ∀ c m2, fget ((fl.map scan_faction).map (adopt_faction root)) c = some m2 →
      (m2.base_faction = c ↔ self_parented fl c) := by
    intro c m2 hm2
    obtain ⟨m, hm, e⟩ := finalize_list_fget hm2
    subst e
    rw [finalize_list_base]
    constructor
    · intro hb
      by_cases hneg : m.base_faction < 0
      · rw [if_pos hneg] at hb
        subst hb
        rw [hmr] at hm
        cases hm
        have := (fget_eq_some hmr).1
        omega
      · rw [if_neg hneg] at hb
        exact ⟨m, hm, hb⟩
    · rintro ⟨m3, hm3, hb⟩
      rw [hm] at hm3
      cases hm3
      have := (fget_eq_some hm).1
      have hneg : ¬ m.base_faction < 0 := by omega
      rw [if_neg hneg]
      exact hb
  constructor
  · rfl
  · rfl
  · exact List.Nodup.sublist (List.Sublist.map _ (List.filter_sublist _)) (ListWF_ids_nodup h)
  · intro q hq
    simp only at hq ⊢
    obtain ⟨m, hm, hb⟩ := (mem_roots h q).mp hq
    rw [foldl_set_insert_mem]
    exact Or.inr ⟨m, fget_mem hm, (ListWF_fget h hm).1⟩
  · intro u hu
    simp only at hu
    rw [foldl_set_insert_mem] at hu
    rcases hu with hu | ⟨m, hm, e⟩
    · cases hu
    · subst e
      refine ⟨adopt_faction root (scan_faction m), ?_⟩
      rw [fget_finalize_list, ListWF_mem h hm]
      rfl
  · exact foldl_set_insert_sorted fl [] List.Pairwise.nil
  · intro c m2 hm2 hne _
    simp only
    refine ⟨att_of_fget hm2, hmem_u c m2 hm2, ?_⟩
    intro hq
    exact hne ((hroot_iff c m2 hm2).mpr ((mem_roots h c).mp hq))
  · intro c m2 hm2 hne hnu
    simp only at hnu
    obtain ⟨mp, hmp⟩ := ctx.base_valid c m2 hm2
    exact absurd (hmem_u _ mp hmp) hnu
  · intro c m2 hm2 hb
    simp only
    exact ⟨att_of_fget hm2, Or.inl ((mem_roots h c).mpr ((hroot_iff c m2 hm2).mp hb))⟩
  · intro c hc hcase
    simp only at hcase
    obtain ⟨m2, hm2⟩ := hc
    rcases hcase with hq | hnu
    · exact ⟨0, m2, hm2, (hroot_iff c m2 hm2).mpr ((mem_roots h c).mp hq)⟩
    · exact absurd (hmem_u c m2 hm2) hnu

/-! ## The last loop and the whole of `finalize_monfactions` -/

theorem name_of_modify_faction (fl : List monfaction) (c : Int) (F : monfaction → monfaction)
    (hF : ∀ m, (F m).name = m.name) (x : Int) :
    name_of (modify_faction fl c F) x = name_of fl x := by
  unfold name_of
  rw [fget_modify_faction]
  by_cases h : x = c
  · rw [if_pos h]
    cases fget fl x with
    | none => rfl
    | some m => exact hF m
  · rw [if_neg h]

theorem cycle_loop_spec (fuel : Nat) (root : Int) :
    ∀ (u : List Int) (names : String) (fl : List monfaction) (msgs : List debugmsg),
      (∀ x, x ∈ u → ∃ m, fget fl x = some m) →
      cycle_loop (fuel + 1) root u names fl msgs =
        some (u.foldl (fun s x => (s ++ name_of fl x) ++ " ") names,
          u.foldl (fun fl2 x => modify_faction fl2 x (fun f => { f with base_faction := root })) fl,
          msgs) := by
  intro u
  induction u with
  | nil => intro names fl msgs _; rfl
  | cons x u ih =>
    intro names fl msgs hu
    obtain ⟨m, hm⟩ := hu x (by simp)
    rw [cycle_loop, obj_of_fget hm]
    simp only [List.append_nil, List.foldl_cons]
    rw [ih]
    · have e : (fun s y => (s ++ name_of (modify_faction fl x
            (fun f => { f with base_faction := root })) y) ++ " ") =
          (fun s y => (s ++ name_of fl y) ++ " ") := by
        funext s y
        rw [name_of_modify_faction fl x (fun f => { f with base_faction := root })
          (fun _ => rfl)]
      rw [e]
      have e2 : name_of fl x = m.name := by
        unfold name_of
        rw [hm]
      rw [e2]
    · intro y hy
      obtain ⟨my, hmy⟩ := hu y (by simp [hy])
      rw [fget_modify_faction]
      split
      · exact ⟨_, by rw [hmy]; rfl⟩
      · exact ⟨my, hmy⟩

theorem fget_foldl_modify_idem (F : monfaction → monfaction) (hF : ∀ m, F (F m) = F m)
    (u : List Int) (fl : List monfaction) (x : Int) :
    fget (u.foldl (fun fl2 y => modify_faction fl2 y F) fl) x =
      if x ∈ u then (fget fl x).map F else fget fl x := by
  induction u generalizing fl with
  | nil => simp
  | cons y u ih =>
    simp only [List.foldl_cons]
    rw [ih, fget_modify_faction]
    by_cases h1 : x = y
    · subst h1
      by_cases h2 : x ∈ u
      · cases fget fl x <;> simp [h2, hF]
      · simp [h2]
    · by_cases h2 : x ∈ u
      · simp [h1, h2]
      · simp [h1, h2]

theorem finalize_list_self_parented {fl : List monfaction} (_h : ListWF fl) {root : Int}
    (hroot : self_parented fl root) (c : Int) :
    self_parented ((fl.map scan_faction).map (adopt_faction root)) c ↔ self_parented fl c := by
  obtain ⟨mr, hmr, hmr2⟩ := hroot
  constructor
  · rintro ⟨m2, hm2, hb⟩
    obtain ⟨m, hm, e⟩ := finalize_list_fget hm2
    subst e
    rw [finalize_list_base] at hb
    by_cases hneg : m.base_faction < 0
    · rw [if_pos hneg] at hb
      subst hb
      rw [hmr] at hm
      cases hm
      have := (fget_eq_some hmr).1
      omega
    · rw [if_neg hneg] at hb
      exact ⟨m, hm, hb⟩
  · rintro ⟨m, hm, hb⟩
    refine ⟨adopt_faction root (scan_faction m), ?_, ?_⟩
    · rw [fget_finalize_list, hm]
      rfl
    · have := (fget_eq_some hm).1
      have hneg : ¬ m.base_faction < 0 := by omega
      rw [finalize_list_base, if_neg hneg]
      exact hb

theorem anchored_step {fl : List monfaction} {c : Int} {m : monfaction}
    (h : fget fl c = some m) (hr : anchored fl m.base_faction) : anchored fl c := by
  obtain ⟨n, hn⟩ := hr
  refine ⟨n + 1, ?_⟩
  rw [parent_chain, base_of_fget h]
  exact hn

theorem reaches_root_iff_anchored {fl : List monfaction} (h : ListWF fl) {root : Int}
    (hroot : self_parented fl root) (c : Int) (hc : ∃ m, fget fl c = some m) :
    reaches_root ((fl.map scan_faction).map (adopt_faction root)) c ↔ anchored fl c := by
  have hsp := finalize_list_self_parented h hroot
  have hf2 : ∀ c m, fget fl c = some m →
      fget ((fl.map scan_faction).map (adopt_faction root)) c =
        some (adopt_faction root (scan_faction m)) := by
    intro c m hm
    rw [fget_finalize_list, hm]
    rfl
  have hvalid : ∀ c m, fget fl c = some m → ¬ m.base_faction < 0 →
      ∃ mp, fget fl m.base_faction = some mp := by
    intro c m hm hneg
    obtain ⟨_, g2, g3⟩ := ListWF_fget h hm
    exact fget_of_range (by omega) g3
  constructor
  · rintro ⟨n, hn⟩
    induction n generalizing c with
    | zero => exact ⟨0, Or.inl ((hsp c).mp hn)⟩
    | succ n ih =>
      obtain ⟨m, hm⟩ := hc
      by_cases hneg : m.base_faction < 0
      · exact ⟨0, Or.inr ⟨m, hm, hneg⟩⟩
      · rw [parent_chain, base_of_fget (hf2 c m hm), finalize_list_base, if_neg hneg] at hn
        exact anchored_step hm (ih _ (hvalid c m hm hneg) hn)
  · rintro ⟨n, hn⟩
    have hunset : ∀ c m, fget fl c = some m → m.base_faction < 0 →
        reaches_root ((fl.map scan_faction).map (adopt_faction root)) c := by
      intro c m hm hneg
      apply reaches_root_step (hf2 c m hm)
      rw [finalize_list_base, if_pos hneg]
      exact ⟨0, (hsp root).mpr hroot⟩
    induction n generalizing c with
    | zero =>
      rcases hn with hn | ⟨m, hm, hneg⟩
      · exact ⟨0, (hsp c).mpr hn⟩
      · exact hunset c m hm hneg
    | succ n ih =>
      obtain ⟨m, hm⟩ := hc
      by_cases hneg : m.base_faction < 0
      · exact hunset c m hm hneg
      · rw [parent_chain, base_of_fget hm] at hn
        have := ih _ (hvalid c m hm hneg) hn
        apply reaches_root_step (hf2 c m hm)
        rw [finalize_list_base, if_neg hneg]
        exact this

theorem foldl_set_insert_length (fl : List monfaction) (u : List Int) :
    (fl.foldl (fun u m => set_insert u m.id) u).length ≤ u.length + fl.length := by
  induction fl generalizing u with
  | nil => simp
  | cons m rest ih =>
    rw [List.foldl_cons]
    have h1 := ih (set_insert u m.id)
    have h2 : (set_insert u m.id).length ≤ u.length + 1 := by
      clear h1 ih
      induction u with
      | nil => simp [set_insert]
      | cons y u ih2 =>
        unfold set_insert
        split
        · simp
        · split
          · simp
          · simp only [List.length_cons]
            omega
    simp only [List.length_cons]
    omega

theorem finalize_unfold (fuel : Nat) (reg : Registry) (hne : reg.faction_list ≠ [])
    (root : Int) (rest : List Int)
    (hq : (reg.faction_list.filter (fun m => m.id = m.base_faction)).map (fun m => m.id) =
      root :: rest) :
    finalize_monfactions fuel reg =
      match bfs_loop fuel
          ((reg.faction_list.filter
              (fun m => ¬ m.id = m.base_faction ∧ m.base_faction ≥ 0)).map
              (fun m => (m.base_faction, m.id)) ++
            ((reg.faction_list.map scan_faction).filter
              (fun m => m.base_faction < 0 ∧ ¬ root = m.id)).map (fun m => (root, m.id)))
          fuel
          ⟨(reg.faction_list.map scan_faction).map (adopt_faction root),
           reg.faction_list.foldl (fun u m => set_insert u m.id) [],
           root :: rest, []⟩ with
      | none => none
      | some st =>
        if st.unloaded ≠ [] then
          match cycle_loop fuel root st.unloaded "" st.faction_list st.msgs with
          | none => none
          | some (names, fl, msgs) =>
            some ({ reg with faction_list := fl }, msgs ++ [debugmsg.cycle_encountered names])
        else some ({ reg with faction_list := st.faction_list }, st.msgs) := by
  unfold finalize_monfactions
  rw [if_neg hne]
  simp only [scan_loop_eq, adopt_loop_eq, scan_locals_queue, scan_locals_child_map,
    scan_locals_unloaded, List.nil_append, hq]

theorem finalize_spec (reg : Registry) (hwf : ListWF reg.faction_list) (root : Int)
    (hroot : primary_root reg.faction_list = some root) (fuel : Nat)
    (hfuel : reg.faction_list.length ≤ fuel) :
    ∃ flF u, finalize_monfactions fuel reg =
        some ({ reg with faction_list := flF },
          if u = [] then [] else [debugmsg.cycle_encountered (names_of reg.faction_list u)]) ∧
      final_spec reg.faction_list root u flF ∧
      ∃ st, finalize_traversal fuel reg.faction_list root = some st ∧ st.unloaded = u := by
  have hsp := primary_root_spec hwf hroot
  have hq := hroot
  rw [primary_root_eq, List.head?_eq_some_iff] at hq
  obtain ⟨rest, hq⟩ := hq
  have hne : reg.faction_list ≠ [] := by
    intro e
    rw [e] at hq
    cases hq
  have hlen : 0 < reg.faction_list.length := List.length_pos.mpr hne
  obtain ⟨f, rfl⟩ : ∃ f, fuel = f + 1 := ⟨fuel - 1, by omega⟩
  have ctx := finalize_ctx hwf hsp.1
  have inv0 := finalize_inv hwf hsp.1
  rw [hq] at inv0
  have hlen0 : (reg.faction_list.foldl (fun u m => set_insert u m.id) []).length ≤ f + 1 := by
    have := foldl_set_insert_length reg.faction_list []
    simp only [List.length_nil, Nat.zero_add] at this
    omega
  obtain ⟨st, hst, inv, hstq⟩ := bfs_loop_spec ctx f (f + 1) _ inv0 hlen0
  have hfin := bfs_final_unloaded ctx inv hstq
  have hf2 : ∀ c m, fget reg.faction_list c = some m →
      fget ((reg.faction_list.map scan_faction).map (adopt_faction root)) c =
        some (adopt_faction root (scan_faction m)) := by
    intro c m hm
    rw [fget_finalize_list, hm]
    rfl
  have hvalid_u : ∀ x, x ∈ st.unloaded → ∃ m, fget st.faction_list x = some m := by
    intro x hx
    obtain ⟨m2, hm2⟩ := inv.unloaded_valid x hx
    obtain ⟨m, hm, _⟩ := fget_skel inv.skel_eq hm2
    exact ⟨m, hm⟩
  have hname : ∀ x, name_of st.faction_list x = name_of reg.faction_list x := by
    intro x
    unfold name_of
    cases hx : fget reg.faction_list x with
    | none =>
      cases hx2 : fget st.faction_list x with
      | none => rfl
      | some ms =>
        exfalso
        have h1 := (fget_eq_some hx2).2.1
        have h0 := (fget_eq_some hx2).1
        have h2 : st.faction_list.length = reg.faction_list.length := by
          have := congrArg List.length inv.skel_eq
          simpa using this
        rw [h2] at h1
        obtain ⟨m, hm⟩ := fget_of_range h0 h1
        rw [hm] at hx
        cases hx
    | some m =>
      obtain ⟨ms, hms, hsk⟩ := fget_skel inv.skel_eq (hf2 x m hx)
      rw [hms]
      have : ms.name = (adopt_faction root (scan_faction m)).name := congrArg (fun x => x.1) hsk
      rw [adopt_faction_name, scan_faction_name] at this
      exact this
  have hnames : st.unloaded.foldl (fun s x => (s ++ name_of st.faction_list x) ++ " ") "" =
      names_of reg.faction_list st.unloaded := by
    unfold names_of
    have e : (fun s x => (s ++ name_of st.faction_list x) ++ " ") =
        (fun s x => (s ++ name_of reg.faction_list x) ++ " ") := by
      funext s x
      rw [hname]
    rw [e]
  refine ⟨st.unloaded.foldl
      (fun fl2 x => modify_faction fl2 x (fun f => { f with base_faction := root }))
      st.faction_list, st.unloaded, ?_, ?_, ?_⟩
  rotate_left
  rotate_left
  · refine ⟨st, ?_, rfl⟩
    unfold finalize_traversal
    simp only [scan_loop_eq, adopt_loop_eq, scan_locals_queue, scan_locals_child_map,
      scan_locals_unloaded, List.nil_append, hq]
    exact hst
  · rw [finalize_unfold (f + 1) reg hne root rest hq, hst]
    simp only
    by_cases hu : st.unloaded = []
    · simp [hu, inv.no_msgs]
    · rw [if_pos hu, if_neg hu, cycle_loop_spec f root st.unloaded "" st.faction_list st.msgs
        hvalid_u]
      simp only [inv.no_msgs, List.nil_append, hnames]
  · have hfl : ∀ x, fget (st.unloaded.foldl
          (fun fl2 x => modify_faction fl2 x (fun f => { f with base_faction := root }))
          st.faction_list) x =
        if x ∈ st.unloaded then
          (fget st.faction_list x).map (fun f => { f with base_faction := root })
        else fget st.faction_list x :=
      fun x => fget_foldl_modify_idem (fun f => { f with base_faction := root })
        (fun _ => rfl) _ _ x
    have hatt : ∀ x, att_of (st.unloaded.foldl
          (fun fl2 x => modify_faction fl2 x (fun f => { f with base_faction := root }))
          st.faction_list) x = att_of st.faction_list x := by
      intro x
      unfold att_of
      rw [hfl]
      by_cases hx : x ∈ st.unloaded
      · rw [if_pos hx]
        cases fget st.faction_list x <;> rfl
      · rw [if_neg hx]
    constructor
    · exact inv.unloaded_sorted
    · intro c
      constructor
      · intro hc
        obtain ⟨m2, hm2⟩ := inv.unloaded_valid c hc
        obtain ⟨m, hm, _⟩ := finalize_list_fget hm2
        refine ⟨⟨m, hm⟩, ?_⟩
        intro ha
        have hr := (reaches_root_iff_anchored hwf hsp.1 c ⟨m, hm⟩).mpr ha
        exact ((hfin c ⟨m2, hm2⟩).mpr hr) hc
      · rintro ⟨⟨m, hm⟩, hna⟩
        by_contra hc
        have hr := (hfin c ⟨_, hf2 c m hm⟩).mp hc
        exact hna ((reaches_root_iff_anchored hwf hsp.1 c ⟨m, hm⟩).mp hr)
    · have h1 : ∀ (u : List Int) (fl : List monfaction), (u.foldl
          (fun fl2 x => modify_faction fl2 x (fun f => { f with base_faction := root }))
          fl).length = fl.length := by
        intro u
        induction u with
        | nil => intro fl; rfl
        | cons x u ih =>
          intro fl
          simp only [List.foldl_cons]
          rw [ih, modify_faction_length]
      rw [h1]
      have := congrArg List.length inv.skel_eq
      simpa using this
    · exact hsp
    · intro c m hm
      have hm2 := hf2 c m hm
      obtain ⟨ms, hms, hsk⟩ := fget_skel inv.skel_eq hm2
      have hid := (ListWF_fget hwf hm).1
      have hsname : ms.name = m.name := by
        have : ms.name = (adopt_faction root (scan_faction m)).name :=
          congrArg (fun x => x.1) hsk
        rw [adopt_faction_name, scan_faction_name] at this
        exact this
      have hsid : ms.id = m.id := by
        have : ms.id = (adopt_faction root (scan_faction m)).id :=
          congrArg (fun x => x.2.1) hsk
        rw [finalize_list_id] at this
        exact this
      have hsbase : ms.base_faction = if m.base_faction < 0 then root else m.base_faction := by
        have : ms.base_faction = (adopt_faction root (scan_faction m)).base_faction :=
          congrArg (fun x => x.2.2) hsk
        rw [finalize_list_base] at this
        exact this
      have hsatt : ms.attitude_map = att_of st.faction_list c := (att_of_fget hms).symm
      have h2att : (adopt_faction root (scan_faction m)).attitude_map =
          (scan_faction m).attitude_map := adopt_faction_att _ _
      have hroot2 : (adopt_faction root (scan_faction m)).base_faction = c ↔
          m.base_faction = c := by
        constructor
        · intro hb
          obtain ⟨m3, hm3, hb3⟩ := (finalize_list_self_parented hwf hsp.1 c).mp ⟨_, hm2, hb⟩
          rw [hm] at hm3
          cases hm3
          exact hb3
        · intro hb
          obtain ⟨m3, hm3, hb3⟩ := (finalize_list_self_parented hwf hsp.1 c).mpr ⟨m, hm, hb⟩
          rw [hm2] at hm3
          cases hm3
          exact hb3
      by_cases hcu : c ∈ st.unloaded
      · refine ⟨{ ms with base_faction := root }, ?_, hsname, hsid, ?_, ?_, ?_, ?_⟩
        · rw [hfl, if_pos hcu, hms]
          rfl
        · rw [if_pos hcu]
        · intro hb
          simp only
          rw [hsatt, (inv.roots c _ hm2 (hroot2.mpr hb)).1, h2att]
          exact scan_faction_att_root m (by rw [hid]; exact hb)
        · intro hb _ k
          simp only
          have hb2 : (adopt_faction root (scan_faction m)).base_faction ≠ c :=
            fun e => hb (hroot2.mp e)
          have hpu : (adopt_faction root (scan_faction m)).base_faction ∈ st.unloaded := by
            by_contra hpn
            rcases (inv.reached c _ hm2 hb2 hpn).2 with h | h
            · rw [hstq] at h
              cases h
            · exact h hcu
          rw [hsatt, (inv.pending c _ hm2 hb2 hpu).1, h2att,
            scan_faction_att m (by rw [hid]; exact hb), hid]
        · intro _ hc
          exact absurd hcu hc
      · refine ⟨ms, ?_, hsname, hsid, ?_, ?_, ?_, ?_⟩
        · rw [hfl, if_neg hcu, hms]
        · rw [if_neg hcu]
          exact hsbase
        · intro hb
          rw [hsatt, (inv.roots c _ hm2 (hroot2.mpr hb)).1, h2att]
          exact scan_faction_att_root m (by rw [hid]; exact hb)
        · intro _ hc
          exact absurd hc hcu
        · intro hb _ k
          have hb2 : (adopt_faction root (scan_faction m)).base_faction ≠ c :=
            fun e => hb (hroot2.mp e)
          have hpn : (adopt_faction root (scan_faction m)).base_faction ∉ st.unloaded := by
            intro hpu
            exact hcu (inv.pending c _ hm2 hb2 hpu).2.1
          have hsb : ms.base_faction = (adopt_faction root (scan_faction m)).base_faction :=
            congrArg (fun x => x.2.2) hsk
          rw [hsatt, (inv.reached c _ hm2 hb2 hpn).1 k, h2att,
            scan_faction_att m (by rw [hid]; exact hb), hid, hatt, hsb]

/-! ## Consequences used by the claims -/

theorem Loaded_RegWF {reg : Registry} (h : Loaded reg) : RegWF reg := by
  induction h with
  | empty => exact RegWF_empty
  | add reg name _ ih => exact RegWF_get_or_add reg ih name
  | load reg jo _ ih => exact RegWF_load reg ih jo

theorem Loaded_load_all_ix {reg : Registry} (h : Loaded reg) (jos : List JsonObject) :
    Loaded (load_all_ix reg jos) := by
  induction jos generalizing reg with
  | nil => exact h
  | cons jo jos ih =>
    simp only [load_all_ix, List.foldl_cons]
    exact ih (Loaded.load reg jo h)

theorem exists_primary_root {fl : List monfaction} (h : ListWF fl) {r : Int}
    (hr : self_parented fl r) : ∃ root, primary_root fl = some root := by
  rw [primary_root_eq]
  have := (mem_roots h r).mpr hr
  cases hl : (fl.filter (fun m => m.id = m.base_faction)).map (fun m => m.id) with
  | nil => rw [hl] at this; cases this
  | cons x rest => exact ⟨x, rfl⟩

theorem primary_root_none {fl : List monfaction} (h : ListWF fl)
    (hr : ∀ c, ¬ self_parented fl c) :
    (fl.filter (fun m => m.id = m.base_faction)).map (fun m => m.id) = [] := by
  cases hl : (fl.filter (fun m => m.id = m.base_faction)).map (fun m => m.id) with
  | nil => rfl
  | cons x rest =>
    exfalso
    exact hr x ((mem_roots h x).mp (by rw [hl]; simp))

theorem attitude_terminates {fl : List monfaction} (hne : fl ≠ []) (self : monfaction) :
    ∀ (n : Nat) (t : Int), base_of fl (parent_chain fl n t) = parent_chain fl n t →
      ∀ fuel, ∃ r, attitude fl (fuel + n + 3) self t = some r := by
  intro n
  induction n with
  | zero =>
    intro t hroot fuel
    cases hf : assoc_find self.attitude_map t with
    | some a => exact ⟨_, attitude_hit fl self t a hf (fuel + 2)⟩
    | none =>
      obtain ⟨o, msgs, _, _, hstep⟩ := attitude_miss hne self t hf fuel
      have hr : ¬ t ≠ base_of fl t := fun e => e hroot.symm
      rw [Nat.add_zero, hstep, if_neg hr]
      exact ⟨_, rfl⟩
  | succ n ih =>
    intro t hroot fuel
    cases hf : assoc_find self.attitude_map t with
    | some a => exact ⟨_, attitude_hit fl self t a hf (fuel + (n + 1) + 2)⟩
    | none =>
      obtain ⟨o, msgs, _, _, hstep⟩ := attitude_miss hne self t hf (fuel + n + 1)
      have e1 : fuel + (n + 1) + 3 = fuel + n + 1 + 3 := by omega
      have e2 : fuel + n + 1 + 2 = fuel + n + 3 := by omega
      rw [e1, hstep]
      by_cases hr : t ≠ base_of fl t
      · obtain ⟨⟨a, msgs2⟩, hrec⟩ := ih (base_of fl t) hroot fuel
        rw [if_pos hr, e2, hrec]
        exact ⟨_, rfl⟩
      · rw [if_neg hr]
        exact ⟨_, rfl⟩

theorem self_parented_base_of {fl : List monfaction} {c : Int} (h : self_parented fl c) :
    base_of fl c = c := by
  obtain ⟨m, hm, hb⟩ := h
  rw [base_of_fget hm, hb]

theorem anchored_not_unvisited {fl : List monfaction} {root : Int} {u : List Int}
    {flF : List monfaction} (hs : final_spec fl root u flF) {c : Int}
    (ha : anchored fl c) : c ∉ u :=
  fun hc => ((hs.mem_unvisited c).mp hc).2 ha

theorem root_final {fl : List monfaction} (_hwf : ListWF fl) {root : Int} {u : List Int}
    {flF : List monfaction} (hs : final_spec fl root u flF) : self_parented flF root := by
  obtain ⟨mr, hmr, hb⟩ := hs.root_first.1
  have hnu : root ∉ u := anchored_not_unvisited hs ⟨0, Or.inl ⟨mr, hmr, hb⟩⟩
  obtain ⟨mF, hmF, _, _, hbase, _⟩ := hs.records root mr hmr
  have h0 := (fget_eq_some hmr).1
  have hneg : ¬ mr.base_faction < 0 := by omega
  rw [if_neg hnu, if_neg hneg] at hbase
  exact ⟨mF, hmF, by rw [hbase, hb]⟩

theorem final_reaches_root {fl : List monfaction} (hwf : ListWF fl) {root : Int}
    {u : List Int} {flF : List monfaction} (hs : final_spec fl root u flF) :
    ∀ c m, fget fl c = some m → reaches_root flF c := by
  have hrootF := root_final hwf hs
  have hvia_root : ∀ c mF, fget flF c = some mF → mF.base_faction = root →
      reaches_root flF c := by
    intro c mF hmF hb
    apply reaches_root_step hmF
    rw [hb]
    exact ⟨0, hrootF⟩
  have key : ∀ (n : Nat) (c : Int) (m : monfaction), fget fl c = some m →
      (self_parented fl (parent_chain fl n c) ∨ unset_parent fl (parent_chain fl n c)) →
      reaches_root flF c := by
    intro n
    induction n with
    | zero =>
      intro c m hm hn
      have hnu : c ∉ u := anchored_not_unvisited hs ⟨0, hn⟩
      obtain ⟨mF, hmF, _, _, hbase, _⟩ := hs.records c m hm
      rw [if_neg hnu] at hbase
      simp only [parent_chain] at hn
      rcases hn with ⟨m2, hm2, hb⟩ | ⟨m2, hm2, hb⟩
      · rw [hm] at hm2
        cases hm2
        have h0 := (fget_eq_some hm).1
        have hneg : ¬ m.base_faction < 0 := by omega
        rw [if_neg hneg] at hbase
        exact ⟨0, mF, hmF, by rw [hbase]; exact hb⟩
      · rw [hm] at hm2
        cases hm2
        rw [if_pos hb] at hbase
        exact hvia_root c mF hmF hbase
    | succ n ih =>
      intro c m hm hn
      have hnu : c ∉ u := anchored_not_unvisited hs ⟨n + 1, hn⟩
      obtain ⟨mF, hmF, _, _, hbase, _⟩ := hs.records c m hm
      rw [if_neg hnu] at hbase
      by_cases hneg : m.base_faction < 0
      · rw [if_pos hneg] at hbase
        exact hvia_root c mF hmF hbase
      · rw [if_neg hneg] at hbase
        rw [parent_chain, base_of_fget hm] at hn
        obtain ⟨_, g2, g3⟩ := ListWF_fget hwf hm
        obtain ⟨mp, hmp⟩ := fget_of_range (by omega : 0 ≤ m.base_faction) g3
        have := ih m.base_faction mp hmp hn
        apply reaches_root_step hmF
        rw [hbase]
        exact this
  intro c m hm
  by_cases hc : c ∈ u
  · obtain ⟨mF, hmF, _, _, hbase, _⟩ := hs.records c m hm
    rw [if_pos hc] at hbase
    exact hvia_root c mF hmF hbase
  · have ha : anchored fl c := by
      by_contra hna
      exact hc ((hs.mem_unvisited c).mpr ⟨⟨m, hm⟩, hna⟩)
    obtain ⟨n, hn⟩ := ha
    exact key n c m hm hn

theorem final_base_valid {fl : List monfaction} (hwf : ListWF fl) {root : Int}
    {u : List Int} {flF : List monfaction} (hs : final_spec fl root u flF) :
    ∀ c mF, fget flF c = some mF →
      mF.id = c ∧ 0 ≤ mF.base_faction ∧ mF.base_faction < (flF.length : Int) := by
  intro c mF hmF
  obtain ⟨h0, h1, _⟩ := fget_eq_some hmF
  rw [hs.length_eq] at h1 ⊢
  obtain ⟨m, hm⟩ := fget_of_range h0 h1
  obtain ⟨mF2, hmF2, _, hid, hbase, _⟩ := hs.records c m hm
  rw [hmF] at hmF2
  cases hmF2
  obtain ⟨g1, g2, g3⟩ := ListWF_fget hwf hm
  obtain ⟨mr, hmr, _⟩ := hs.root_first.1
  obtain ⟨r0, r1, _⟩ := fget_eq_some hmr
  refine ⟨by rw [hid, g1], ?_, ?_⟩
  · rw [hbase]
    split
    · exact r0
    · split
      · exact r0
      · omega
  · rw [hbase]
    split
    · exact r1
    · split
      · exact r1
      · exact g3

/-! ## A record without `base_faction` next to a root -/

theorem rootless_cycle_loops (fuel : Nat) :
    attitude rootless_cycle_final fuel ⟨"c", 2, 0, [(2, MFA_FRIENDLY)]⟩ 0 = none ∧
    attitude rootless_cycle_final fuel ⟨"c", 2, 0, [(2, MFA_FRIENDLY)]⟩ 1 = none := by
  induction fuel with
  | zero => exact ⟨rfl, rfl⟩
  | succ f ih =>
    cases f with
    | zero => exact ⟨rfl, rfl⟩
    | succ f =>
      have h0 : obj rootless_cycle_final (f + 1) 0 = some (⟨"a", 0, 1, [(0, MFA_FRIENDLY)]⟩, []) :=
        rfl
      have h1 : obj rootless_cycle_final (f + 1) 1 = some (⟨"b", 1, 0, [(1, MFA_FRIENDLY)]⟩, []) :=
        rfl
      constructor
      · rw [attitude]
        simp only [assoc_find, h0]
        simp [ih.2]
      · rw [attitude]
        simp only [assoc_find, h1]
        simp [ih.1]

/-! ## The loader at the level of names -/

theorem Obs.ext_fields {o1 o2 : Obs} (h1 : ∀ n, o1.valid n = o2.valid n)
    (h2 : ∀ n, o1.base n = o2.base n) (h3 : ∀ n t, o1.att n t = o2.att n t) : o1 = o2 := by
  cases o1
  cases o2
  simp only [Obs.mk.injEq]
  exact ⟨funext h1, funext h2, funext (fun n => funext (h3 n))⟩

theorem AttWF_empty : AttWF Registry.empty := by
  intro i m h
  simp [Registry.empty] at h

theorem RegWF_find_valid {reg : Registry} (h : RegWF reg) {n : String} {i : Int}
    (hf : assoc_find reg.faction_map n = some i) :
    ∃ m, fget reg.faction_list i = some m ∧ m.name = n ∧ m.id = i :=  by
  obtain ⟨m, hm, hn⟩ := h.2.2.2 n i hf
  exact ⟨m, hm, hn, (ListWF_fget h.2.1 hm).1⟩

theorem RegWF_find_inj {reg : Registry} (h : RegWF reg) {n1 n2 : String} {i : Int}
    (h1 : assoc_find reg.faction_map n1 = some i) (h2 : assoc_find reg.faction_map n2 = some i) :
    n1 = n2 := by
  obtain ⟨m1, hm1, e1, _⟩ := RegWF_find_valid h h1
  obtain ⟨m2, hm2, e2, _⟩ := RegWF_find_valid h h2
  rw [hm1] at hm2
  cases hm2
  rw [← e1, ← e2]

theorem RegWF_find_name {reg : Registry} (h : RegWF reg) {c : Int} {m : monfaction}
    (hm : fget reg.faction_list c = some m) : assoc_find reg.faction_map m.name = some c := by
  obtain ⟨h0, h1, h2⟩ := fget_eq_some hm
  have := h.2.2.1 _ _ h2
  rw [this]
  congr 1
  omega

theorem name_of_fget {fl : List monfaction} {c : Int} {m : monfaction}
    (h : fget fl c = some m) : name_of fl c = m.name := by
  unfold name_of
  rw [h]

theorem fget_append_stub (fl : List monfaction) (stub : monfaction) :
    fget (fl ++ [stub]) (fl.length : Int) = some stub := by
  rw [fget_natCast]
  simp

theorem AttWF_get_or_add (reg : Registry) (_h : RegWF reg) (ha : AttWF reg) (n : String) :
    AttWF (get_or_add_faction reg n).1 := by
  cases hf : assoc_find reg.faction_map n with
  | some id => rw [get_or_add_faction_known hf]; exact ha
  | none =>
    rw [get_or_add_faction_fresh hf]
    intro i m hi k a hk
    simp only at hi
    simp only [List.length_append, List.length_singleton]
    by_cases hlt : i < reg.faction_list.length
    · rw [List.getElem?_append_left hlt] at hi
      obtain ⟨g1, g2⟩ := ha i m hi k a hk
      exact ⟨g1, by push_cast; omega⟩
    · have hlen2 := (List.getElem?_eq_some.mp hi).1
      simp only [List.length_append, List.length_singleton] at hlen2
      have hi2 : i = reg.faction_list.length := by omega
      subst hi2
      simp at hi
      subst hi
      simp [assoc_find] at hk

theorem get_or_add_faction_find (reg : Registry) (n : String) :
    assoc_find (get_or_add_faction reg n).1.faction_map n = some (get_or_add_faction reg n).2 := by
  cases hf : assoc_find reg.faction_map n with
  | some id => rw [get_or_add_faction_known hf]; exact hf
  | none =>
    rw [get_or_add_faction_fresh hf]
    simp [assoc_find_set]

theorem get_or_add_faction_find_old (reg : Registry) (n : String) {x : String} {i : Int}
    (hx : assoc_find reg.faction_map x = some i) :
    assoc_find (get_or_add_faction reg n).1.faction_map x = some i := by
  cases hf : assoc_find reg.faction_map n with
  | some id => rw [get_or_add_faction_known hf]; exact hx
  | none =>
    rw [get_or_add_faction_fresh hf]
    simp only
    rw [assoc_find_set]
    have : ¬ n = x := by
      intro e
      rw [e, hx] at hf
      cases hf
    rw [if_neg this]
    exact hx

theorem observe_get_or_add (reg : Registry) (h : RegWF reg) (ha : AttWF reg) (n : String) :
    observe (get_or_add_faction reg n).1 = (observe reg).add_name n := by
  cases hf : assoc_find reg.faction_map n with
  | some id =>
    rw [get_or_add_faction_known hf]
    apply Obs.ext_fields
    · intro x
      simp only [observe, Obs.add_name, is_valid]
      by_cases hx : x = n
      · subst hx
        simp [hf]
      · simp [hx]
    · intro x; rfl
    · intro x t; rfl
  | none =>
    rw [get_or_add_faction_fresh hf]
    have hlen := h.1
    have hold : ∀ x i, assoc_find reg.faction_map x = some i →
        ∃ m, fget reg.faction_list i = some m ∧
          fget (reg.faction_list ++ [(⟨n, (reg.faction_map.length : Int), -1, []⟩ : monfaction)]) i =
            some m := by
      intro x i hx
      obtain ⟨m, hm, _⟩ := RegWF_find_valid h hx
      exact ⟨m, hm, fget_append_left hm _⟩
    apply Obs.ext_fields
    · intro x
      simp only [observe, Obs.add_name, is_valid]
      rw [assoc_find_set]
      by_cases hx : x = n
      · subst hx
        simp
      · have : ¬ n = x := fun e => hx e.symm
        simp [hx, this]
    · intro x
      simp only [observe, Obs.add_name]
      rw [assoc_find_set]
      by_cases hx : n = x
      · subst hx
        rw [if_pos rfl, hf]
        simp only
        rw [hlen, fget_append_stub]
        simp
      · rw [if_neg hx]
        cases hfx : assoc_find reg.faction_map x with
        | none => rfl
        | some i =>
          obtain ⟨m, hm, hm2⟩ := hold x i hfx
          simp only [hm, hm2]
          by_cases hneg : m.base_faction < 0
          · simp [hneg]
          · simp only [hneg, if_false]
            obtain ⟨_, g2, g3⟩ := ListWF_fget h.2.1 hm
            obtain ⟨mp, hmp⟩ := fget_of_range (by omega : 0 ≤ m.base_faction) g3
            rw [name_of_fget hmp, name_of_fget (fget_append_left hmp _)]
    · intro x t
      simp only [observe, Obs.add_name]
      rw [assoc_find_set, assoc_find_set]
      by_cases hx : n = x
      · subst hx
        rw [if_pos rfl, hf]
        simp only
        have : att_of (reg.faction_list ++
            [(⟨n, (reg.faction_map.length : Int), -1, []⟩ : monfaction)])
            (reg.faction_map.length : Int) = [] := by
          unfold att_of
          rw [hlen, fget_append_stub]
        rw [this]
        split <;> rfl
      · rw [if_neg hx]
        cases hfx : assoc_find reg.faction_map x with
        | none => rfl
        | some i =>
          obtain ⟨m, hm, hm2⟩ := hold x i hfx
          simp only
          rw [att_of_fget hm, att_of_fget hm2]
          by_cases ht : n = t
          · subst ht
            rw [if_pos rfl, hf]
            simp only
            cases hk : assoc_find m.attitude_map (reg.faction_map.length : Int) with
            | none => rfl
            | some a =>
              exfalso
              have := ha _ _ (fget_eq_some hm).2.2 _ _ hk
              omega
          · rw [if_neg ht]

theorem att_of_modify_faction_keep (fl : List monfaction) (i : Int)
    (F : monfaction → monfaction) (hF : ∀ m, (F m).attitude_map = m.attitude_map) (c : Int) :
    att_of (modify_faction fl i F) c = att_of fl c := by
  unfold att_of
  rw [fget_modify_faction]
  by_cases h : c = i
  · rw [if_pos h]
    cases fget fl c with
    | none => rfl
    | some m => exact hF m
  · rw [if_neg h]

theorem observe_set_base (reg : Registry) (h : RegWF reg) (s bn : String) (i b : Int)
    (hs : assoc_find reg.faction_map s = some i) (hb : assoc_find reg.faction_map bn = some b) :
    observe ⟨reg.faction_map,
      modify_faction reg.faction_list i (fun f => { f with base_faction := b })⟩ =
      (observe reg).set_base s bn := by
  obtain ⟨mb, hmb, hmbn, _⟩ := RegWF_find_valid h hb
  have hb0 := (fget_eq_some hmb).1
  have hname : ∀ c, name_of (modify_faction reg.faction_list i
      (fun f => { f with base_faction := b })) c = name_of reg.faction_list c :=
    fun c => name_of_modify_faction reg.faction_list i (fun f => { f with base_faction := b })
      (fun _ => rfl) c
  apply Obs.ext_fields
  · intro x; rfl
  · intro x
    simp only [observe, Obs.set_base]
    cases hfx : assoc_find reg.faction_map x with
    | none =>
      have : ¬ x = s := by
        intro e
        rw [e, hs] at hfx
        cases hfx
      simp [this]
    | some i2 =>
      obtain ⟨m, hm, _, _⟩ := RegWF_find_valid h hfx
      simp only [fget_modify_faction, hname, hm]
      by_cases hx : x = s
      · subst hx
        rw [hs] at hfx
        cases hfx
        have hneg : ¬ b < 0 := by omega
        simp [hneg, name_of_fget hmb, hmbn]
      · have hi : ¬ i2 = i := by
          intro e
          subst e
          exact hx (RegWF_find_inj h hfx hs)
        simp only [hi, if_false, hx]
  · intro x t
    simp only [observe, Obs.set_base]
    cases hfx : assoc_find reg.faction_map x with
    | none => rfl
    | some i2 =>
      cases hft : assoc_find reg.faction_map t with
      | none => rfl
      | some k =>
        simp only
        rw [att_of_modify_faction_keep reg.faction_list i
          (fun f => { f with base_faction := b }) (fun _ => rfl)]

theorem observe_set_att (reg : Registry) (h : RegWF reg) (s t : String) (i k : Int)
    (v : mf_attitude) (hs : assoc_find reg.faction_map s = some i)
    (ht : assoc_find reg.faction_map t = some k) :
    observe ⟨reg.faction_map, modify_faction reg.faction_list i
        (fun f => { f with attitude_map := assoc_set f.attitude_map k v })⟩ =
      (observe reg).set_att s t v := by
  have hname : ∀ c, name_of (modify_faction reg.faction_list i
      (fun f => { f with attitude_map := assoc_set f.attitude_map k v })) c =
      name_of reg.faction_list c :=
    fun c => name_of_modify_faction reg.faction_list i
      (fun f => { f with attitude_map := assoc_set f.attitude_map k v }) (fun _ => rfl) c
  apply Obs.ext_fields
  · intro x; rfl
  · intro x
    simp only [observe, Obs.set_att]
    cases hfx : assoc_find reg.faction_map x with
    | none => rfl
    | some i2 =>
      obtain ⟨m, hm, _, _⟩ := RegWF_find_valid h hfx
      simp only [fget_modify_faction, hname, hm]
      by_cases hi : i2 = i
      · simp [hi]
      · simp [hi]
  · intro x t2
    simp only [observe, Obs.set_att]
    cases hfx : assoc_find reg.faction_map x with
    | none =>
      have : ¬ x = s := by
        intro e
        rw [e, hs] at hfx
        cases hfx
      simp [this]
    | some i2 =>
      obtain ⟨m, hm, _, _⟩ := RegWF_find_valid h hfx
      cases hft : assoc_find reg.faction_map t2 with
      | none =>
        have : ¬ t2 = t := by
          intro e
          rw [e, ht] at hft
          cases hft
        simp [this]
      | some k2 =>
        simp only
        unfold att_of
        rw [fget_modify_faction, hm]
        by_cases hx : x = s
        · subst hx
          rw [hs] at hfx
          cases hfx
          simp only [if_true, Option.map]
          rw [assoc_find_set]
          by_cases htt : t2 = t
          · subst htt
            rw [ht] at hft
            cases hft
            simp
          · have hk : ¬ k = k2 := by
              intro e
              subst e
              exact htt (RegWF_find_inj h hft ht)
            simp [hk, htt]
        · have hi : ¬ i2 = i := by
            intro e
            subst e
            exact hx (RegWF_find_inj h hfx hs)
          simp [hi, hx]

theorem AttWF_set_base (reg : Registry) (ha : AttWF reg) (i b : Int) :
    AttWF ⟨reg.faction_map,
      modify_faction reg.faction_list i (fun f => { f with base_faction := b })⟩ := by
  intro j m hj k a hk
  simp only at hj
  simp only [modify_faction_length]
  rw [modify_faction_getElem?] at hj
  split at hj
  · cases h0 : reg.faction_list[j]? with
    | none => rw [h0] at hj; cases hj
    | some m0 =>
      rw [h0] at hj
      simp only [Option.map, Option.some.injEq] at hj
      subst hj
      exact ha j m0 h0 k a hk
  · exact ha j m hj k a hk

theorem AttWF_set_att (reg : Registry) (ha : AttWF reg) (i k0 : Int) (v : mf_attitude)
    (hk0 : 0 ≤ k0 ∧ k0 < (reg.faction_list.length : Int)) :
    AttWF ⟨reg.faction_map, modify_faction reg.faction_list i
        (fun f => { f with attitude_map := assoc_set f.attitude_map k0 v })⟩ := by
  intro j m hj k a hk
  simp only at hj
  simp only [modify_faction_length]
  rw [modify_faction_getElem?] at hj
  split at hj
  · cases h0 : reg.faction_list[j]? with
    | none => rw [h0] at hj; cases hj
    | some m0 =>
      rw [h0] at hj
      simp only [Option.map, Option.some.injEq] at hj
      subst hj
      simp only at hk
      rw [assoc_find_set] at hk
      split at hk
      · rename_i e
        subst e
        exact hk0
      · exact ha j m0 h0 k a hk
  · exact ha j m hj k a hk

theorem RegWF_set_att (reg : Registry) (h : RegWF reg) (i k : Int) (v : mf_attitude) :
    RegWF ⟨reg.faction_map, modify_faction reg.faction_list i
      (fun f => { f with attitude_map := assoc_set f.attitude_map k v })⟩ :=
  RegWF_modify reg h i _ (fun m hm => by
    obtain ⟨j, hj⟩ := List.mem_iff_getElem?.mp hm
    obtain ⟨_, g2, g3⟩ := h.2.1 j m hj
    exact ⟨rfl, rfl, g2, g3⟩)

theorem add_to_attitude_map_ix_cons (k : String) (keys : List String) (i : Int)
    (v : mf_attitude) (reg : Registry) :
    add_to_attitude_map_ix (k :: keys) i v reg =
      add_to_attitude_map_ix keys i v
        ⟨(get_or_add_faction reg k).1.faction_map,
         modify_faction (get_or_add_faction reg k).1.faction_list i
          (fun f =>
            { f with attitude_map := assoc_set f.attitude_map (get_or_add_faction reg k).2 v })⟩ := by
  rw [add_to_attitude_map_ix]

theorem observe_add_to_attitude_map_ix (keys : List String) (s : String) (i : Int)
    (v : mf_attitude) (reg : Registry) (h : RegWF reg) (ha : AttWF reg)
    (hs : assoc_find reg.faction_map s = some i) :
    observe (add_to_attitude_map_ix keys i v reg) = (observe reg).add_tags keys s v ∧
    AttWF (add_to_attitude_map_ix keys i v reg) ∧
    assoc_find (add_to_attitude_map_ix keys i v reg).faction_map s = some i := by
  induction keys generalizing reg with
  | nil => exact ⟨rfl, ha, hs⟩
  | cons k keys ih =>
    rw [add_to_attitude_map_ix_cons]
    have h1 := RegWF_get_or_add reg h k
    have ha1 := AttWF_get_or_add reg h ha k
    have hs1 := get_or_add_faction_find_old reg k hs
    have hk1 := get_or_add_faction_find reg k
    obtain ⟨mk, hmk, _⟩ := get_or_add_faction_valid reg h k
    obtain ⟨k0, k1, _⟩ := fget_eq_some hmk
    have h2 := RegWF_set_att _ h1 i (get_or_add_faction reg k).2 v
    have ha2 := AttWF_set_att _ ha1 i (get_or_add_faction reg k).2 v ⟨k0, k1⟩
    obtain ⟨g1, g2, g3⟩ := ih _ h2 ha2 hs1
    refine ⟨?_, g2, g3⟩
    rw [g1, observe_set_att _ h1 s k i _ v hs1 hk1, observe_get_or_add reg h ha k]
    rfl

theorem observe_load (reg : Registry) (h : RegWF reg) (ha : AttWF reg) (jo : JsonObject) :
    observe (load_monster_faction_ix reg jo) = (observe reg).load jo ∧
    AttWF (load_monster_faction_ix reg jo) := by
  have h1 := RegWF_get_or_add reg h jo.name
  have ha1 := AttWF_get_or_add reg h ha jo.name
  have hs1 := get_or_add_faction_find reg jo.name
  have h2 := RegWF_get_or_add _ h1 (jo.base_faction.getD "")
  have ha2 := AttWF_get_or_add _ h1 ha1 (jo.base_faction.getD "")
  have hs2 := get_or_add_faction_find_old _ (jo.base_faction.getD "") hs1
  have hb2 := get_or_add_faction_find (get_or_add_faction reg jo.name).1 (jo.base_faction.getD "")
  obtain ⟨mb, hmb, _⟩ := get_or_add_faction_valid _ h1 (jo.base_faction.getD "")
  obtain ⟨b0, b1, _⟩ := fget_eq_some hmb
  have h3 : RegWF ⟨(get_or_add_faction (get_or_add_faction reg jo.name).1
        (jo.base_faction.getD "")).1.faction_map,
      modify_faction (get_or_add_faction (get_or_add_faction reg jo.name).1
        (jo.base_faction.getD "")).1.faction_list (get_or_add_faction reg jo.name).2
        (fun f => monfaction.mk f.name f.id
          (get_or_add_faction (get_or_add_faction reg jo.name).1
            (jo.base_faction.getD "")).2 f.attitude_map)⟩ :=
    RegWF_modify _ h2 _ _ (fun m _ => ⟨rfl, rfl, by simp only; omega, by simp only; omega⟩)
  have ha3 := AttWF_set_base _ ha2 (get_or_add_faction reg jo.name).2
    (get_or_add_faction (get_or_add_faction reg jo.name).1 (jo.base_faction.getD "")).2
  have o3 := observe_set_base _ h2 jo.name (jo.base_faction.getD "") _ _ hs2 hb2
  obtain ⟨o4, ha4, hs4⟩ := observe_add_to_attitude_map_ix jo.by_mood jo.name _ MFA_BY_MOOD _
    h3 ha3 hs2
  have h4 := RegWF_add_to_attitude_map_ix jo.by_mood (get_or_add_faction reg jo.name).2
    MFA_BY_MOOD _ h3
  obtain ⟨o5, ha5, hs5⟩ := observe_add_to_attitude_map_ix jo.neutral jo.name _ MFA_NEUTRAL _
    h4 ha4 hs4
  have h5 := RegWF_add_to_attitude_map_ix jo.neutral (get_or_add_faction reg jo.name).2
    MFA_NEUTRAL _ h4
  obtain ⟨o6, ha6, _⟩ := observe_add_to_attitude_map_ix jo.friendly jo.name _ MFA_FRIENDLY _
    h5 ha5 hs5
  constructor
  · unfold load_monster_faction_ix
    simp only
    rw [o6, o5, o4, o3, observe_get_or_add _ h1 ha1, observe_get_or_add reg h ha]
    rfl
  · exact ha6

theorem observe_load_all_ix (jos : List JsonObject) (reg : Registry) (h : RegWF reg)
    (ha : AttWF reg) :
    observe (load_all_ix reg jos) = jos.foldl Obs.load (observe reg) ∧
    AttWF (load_all_ix reg jos) := by
  induction jos generalizing reg with
  | nil => exact ⟨rfl, ha⟩
  | cons jo jos ih =>
    simp only [load_all_ix, List.foldl_cons]
    obtain ⟨o1, ha1⟩ := observe_load reg h ha jo
    obtain ⟨o2, ha2⟩ := ih _ (RegWF_load reg h jo) ha1
    rw [← o1]
    exact ⟨o2, ha2⟩

/-! ## Loading in another order -/

theorem Obs.add_tags_valid (keys : List String) (s : String) (v : mf_attitude) (o : Obs)
    (n : String) : (o.add_tags keys s v).valid n = (o.valid n || decide (n ∈ keys)) := by
  induction keys generalizing o with
  | nil => simp [Obs.add_tags]
  | cons k keys ih =>
    have e : o.add_tags (k :: keys) s v = ((o.add_name k).set_att s k v).add_tags keys s v := rfl
    rw [e, ih]
    simp only [Obs.set_att, Obs.add_name, List.mem_cons]
    by_cases h1 : n = k <;> by_cases h2 : n ∈ keys <;> simp [h1, h2]

theorem Obs.add_tags_base (keys : List String) (s : String) (v : mf_attitude) (o : Obs)
    (n : String) : (o.add_tags keys s v).base n = o.base n := by
  induction keys generalizing o with
  | nil => rfl
  | cons k keys ih =>
    have e : o.add_tags (k :: keys) s v = ((o.add_name k).set_att s k v).add_tags keys s v := rfl
    rw [e, ih]
    rfl

theorem Obs.add_tags_att (keys : List String) (s : String) (v : mf_attitude) (o : Obs)
    (n t : String) :
    (o.add_tags keys s v).att n t = if n = s ∧ t ∈ keys then some v else o.att n t := by
  induction keys generalizing o with
  | nil => simp [Obs.add_tags]
  | cons k keys ih =>
    have e : o.add_tags (k :: keys) s v = ((o.add_name k).set_att s k v).add_tags keys s v := rfl
    rw [e, ih]
    simp only [Obs.set_att, Obs.add_name, List.mem_cons]
    by_cases h1 : n = s <;> by_cases h2 : t ∈ keys <;> by_cases h3 : t = k <;> simp [h1, h2, h3]

theorem Obs.load_valid (o : Obs) (jo : JsonObject) (n : String) :
    (o.load jo).valid n =
      (o.valid n || decide (n = jo.name) || decide (n = jo.base_faction.getD "") ||
        decide (n ∈ jo.by_mood) || decide (n ∈ jo.neutral) || decide (n ∈ jo.friendly)) := by
  unfold Obs.load
  rw [Obs.add_tags_valid, Obs.add_tags_valid, Obs.add_tags_valid]
  rfl

theorem Obs.load_base (o : Obs) (jo : JsonObject) (n : String) :
    (o.load jo).base n = if n = jo.name then some (jo.base_faction.getD "") else o.base n := by
  unfold Obs.load
  rw [Obs.add_tags_base, Obs.add_tags_base, Obs.add_tags_base]
  rfl

theorem Obs.load_att (o : Obs) (jo : JsonObject) (n t : String) :
    (o.load jo).att n t =
      if n = jo.name then (tag_value jo t).or (o.att n t) else o.att n t := by
  unfold Obs.load
  rw [Obs.add_tags_att, Obs.add_tags_att, Obs.add_tags_att]
  unfold tag_value
  simp only [Obs.set_base, Obs.add_name]
  by_cases h1 : n = jo.name
  · by_cases h2 : t ∈ jo.friendly
    · simp [h1, h2]
    · by_cases h3 : t ∈ jo.neutral
      · simp [h1, h2, h3]
      · by_cases h4 : t ∈ jo.by_mood
        · simp [h1, h2, h3, h4]
        · simp [h1, h2, h3, h4]
  · simp [h1]

theorem tag_value_mem {jo : JsonObject} {t : String} {a : mf_attitude}
    (h : tag_value jo t = some a) : (t, a) ∈ tag_entries jo := by
  unfold tag_value at h
  unfold tag_entries
  simp only [List.mem_append, List.mem_map, Prod.mk.injEq]
  split at h
  · cases h
    exact Or.inr ⟨t, by assumption, rfl, rfl⟩
  · split at h
    · cases h
      exact Or.inl (Or.inr ⟨t, by assumption, rfl, rfl⟩)
    · split at h
      · cases h
        exact Or.inl (Or.inl ⟨t, by assumption, rfl, rfl⟩)
      · cases h

theorem Obs.load_comm (o : Obs) (j1 j2 : JsonObject)
    (hb : j1.name = j2.name → j1.base_faction.getD "" = j2.base_faction.getD "")
    (ht : j1.name = j2.name → ∀ t a b, (t, a) ∈ tag_entries j1 → (t, b) ∈ tag_entries j2 →
      a = b) :
    (o.load j1).load j2 = (o.load j2).load j1 := by
  apply Obs.ext_fields
  · intro n
    simp only [Obs.load_valid]
    cases o.valid n <;> cases decide (n = j1.name) <;> cases decide (n = j2.name) <;>
      cases decide (n = j1.base_faction.getD "") <;>
      cases decide (n = j2.base_faction.getD "") <;>
      cases decide (n ∈ j1.by_mood) <;> cases decide (n ∈ j2.by_mood) <;>
      cases decide (n ∈ j1.neutral) <;> cases decide (n ∈ j2.neutral) <;>
      cases decide (n ∈ j1.friendly) <;> cases decide (n ∈ j2.friendly) <;> rfl
  · intro n
    simp only [Obs.load_base]
    by_cases h1 : n = j1.name
    · subst h1
      by_cases h2 : j1.name = j2.name
      · simp [h2, hb h2]
      · simp [h2]
    · by_cases h2 : n = j2.name
      · subst h2
        simp [h1]
      · simp [h1, h2]
  · intro n t
    simp only [Obs.load_att]
    by_cases h1 : n = j1.name
    · subst h1
      by_cases h2 : j1.name = j2.name
      · simp only [h2, if_true]
        cases hv1 : tag_value j1 t with
        | none =>
          cases hv2 : tag_value j2 t <;> rfl
        | some a =>
          cases hv2 : tag_value j2 t with
          | none => rfl
          | some b =>
            have := ht h2 t a b (tag_value_mem hv1) (tag_value_mem hv2)
            subst this
            rfl
      · simp [h2]
    · by_cases h2 : n = j2.name
      · subst h2
        simp [h1]
      · simp [h1, h2]

theorem observe_load_all_ix_perm (recsA recsB : List JsonObject) (hperm : recsA.Perm recsB)
    (hc : no_conflict recsA) (hb : same_base recsA) :
    observe (load_all_ix Registry.empty recsA) = observe (load_all_ix Registry.empty recsB) := by
  rw [(observe_load_all_ix recsA _ RegWF_empty AttWF_empty).1,
    (observe_load_all_ix recsB _ RegWF_empty AttWF_empty).1]
  apply List.Perm.foldl_eq' hperm
  intro x hx y hy z
  exact Obs.load_comm z x y (hb x hx y hy)
    (fun e t a b ha hb2 => hc x hx y hy e (t, a) ha (t, b) hb2 rfl)

/-! ## Registries with the same name-level content -/

theorem Sim.sim_symm {A B : Registry} (S : Sim A B) : Sim B A :=
  ⟨S.wfB, S.wfA, S.obs.symm⟩

theorem corr_symm {A B : Registry} {i j : Int} (h : corr A B i j) : corr B A j i := by
  obtain ⟨n, h1, h2⟩ := h
  exact ⟨n, h2, h1⟩

theorem observe_base_eq {A : Registry} {n : String} {i : Int} {m : monfaction}
    (h1 : assoc_find A.faction_map n = some i) (h2 : fget A.faction_list i = some m) :
    (observe A).base n =
      if m.base_faction < 0 then none else some (name_of A.faction_list m.base_faction) := by
  simp only [observe, h1, h2]

theorem observe_att_eq {A : Registry} {n t : String} {i k : Int}
    (h1 : assoc_find A.faction_map n = some i) (h2 : assoc_find A.faction_map t = some k) :
    (observe A).att n t = assoc_find (att_of A.faction_list i) k := by
  simp only [observe, h1, h2]

theorem Sim.valid_iff {A B : Registry} (S : Sim A B) (n : String) :
    (∃ i, assoc_find A.faction_map n = some i) → ∃ j, assoc_find B.faction_map n = some j := by
  rintro ⟨i, hi⟩
  have h := congrFun (congrArg Obs.valid S.obs) n
  simp only [observe, is_valid, hi, Option.isSome_some] at h
  cases hj : assoc_find B.faction_map n with
  | none => rw [hj] at h; cases h
  | some j => exact ⟨j, rfl⟩

theorem corr_fun {A B : Registry} (S : Sim A B) {i j j2 : Int} (h1 : corr A B i j)
    (h2 : corr A B i j2) : j = j2 := by
  obtain ⟨n, a1, b1⟩ := h1
  obtain ⟨n2, a2, b2⟩ := h2
  have e := RegWF_find_inj S.wfA a1 a2
  subst e
  rw [b1] at b2
  cases b2
  rfl

theorem corr_inj {A B : Registry} (S : Sim A B) {i i2 j : Int} (h1 : corr A B i j)
    (h2 : corr A B i2 j) : i = i2 :=
  corr_fun S.sim_symm (corr_symm h1) (corr_symm h2)

theorem corr_valid {A B : Registry} (S : Sim A B) {i j : Int} (h : corr A B i j) :
    (∃ mA, fget A.faction_list i = some mA) ∧ ∃ mB, fget B.faction_list j = some mB := by
  obtain ⟨n, a, b⟩ := h
  obtain ⟨mA, hA, _⟩ := RegWF_find_valid S.wfA a
  obtain ⟨mB, hB, _⟩ := RegWF_find_valid S.wfB b
  exact ⟨⟨mA, hA⟩, ⟨mB, hB⟩⟩

theorem corr_base {A B : Registry} (S : Sim A B) {i j : Int} (h : corr A B i j)
    {mA mB : monfaction} (hA : fget A.faction_list i = some mA)
    (hB : fget B.faction_list j = some mB) :
    (mA.base_faction < 0 ∧ mB.base_faction < 0) ∨
    (0 ≤ mA.base_faction ∧ 0 ≤ mB.base_faction ∧ corr A B mA.base_faction mB.base_faction) := by
  obtain ⟨n, a, b⟩ := h
  have e := congrFun (congrArg Obs.base S.obs) n
  rw [observe_base_eq a hA, observe_base_eq b hB] at e
  by_cases h1 : mA.base_faction < 0
  · by_cases h2 : mB.base_faction < 0
    · exact Or.inl ⟨h1, h2⟩
    · rw [if_pos h1, if_neg h2] at e
      cases e
  · by_cases h2 : mB.base_faction < 0
    · rw [if_neg h1, if_pos h2] at e
      cases e
    · rw [if_neg h1, if_neg h2] at e
      simp only [Option.some.injEq] at e
      right
      obtain ⟨_, _, g3⟩ := ListWF_fget S.wfA.2.1 hA
      obtain ⟨_, _, k3⟩ := ListWF_fget S.wfB.2.1 hB
      obtain ⟨pA, hpA⟩ := fget_of_range (by omega : 0 ≤ mA.base_faction) g3
      obtain ⟨pB, hpB⟩ := fget_of_range (by omega : 0 ≤ mB.base_faction) k3
      rw [name_of_fget hpA, name_of_fget hpB] at e
      refine ⟨by omega, by omega, pA.name, RegWF_find_name S.wfA hpA, ?_⟩
      rw [e]
      exact RegWF_find_name S.wfB hpB

theorem corr_att {A B : Registry} (S : Sim A B) {i j k l : Int} (h1 : corr A B i j)
    (h2 : corr A B k l) :
    assoc_find (att_of A.faction_list i) k = assoc_find (att_of B.faction_list j) l := by
  obtain ⟨n, a, b⟩ := h1
  obtain ⟨t, c, d⟩ := h2
  have e := congrFun (congrFun (congrArg Obs.att S.obs) n) t
  rw [observe_att_eq a c, observe_att_eq b d] at e
  exact e

theorem corr_eq_iff {A B : Registry} (S : Sim A B) {i j k l : Int} (h1 : corr A B i j)
    (h2 : corr A B k l) : k = i ↔ l = j := by
  constructor
  · intro e
    subst e
    exact corr_fun S h2 h1
  · intro e
    subst e
    exact corr_inj S h2 h1

theorem corr_anchored {A B : Registry} (S : Sim A B) :
    ∀ (n : Nat) (i j : Int), corr A B i j →
      (self_parented A.faction_list (parent_chain A.faction_list n i) ∨
        unset_parent A.faction_list (parent_chain A.faction_list n i)) →
      anchored B.faction_list j := by
  intro n
  induction n with
  | zero =>
    intro i j hc hn
    obtain ⟨⟨mA, hA⟩, ⟨mB, hB⟩⟩ := corr_valid S hc
    simp only [parent_chain] at hn
    rcases hn with ⟨m, hm, hb⟩ | ⟨m, hm, hb⟩
    · rw [hA] at hm
      cases hm
      rcases corr_base S hc hA hB with ⟨g1, _⟩ | ⟨_, _, g3⟩
      · have := (fget_eq_some hA).1
        omega
      · rw [hb] at g3
        have := corr_fun S g3 hc
        exact ⟨0, Or.inl ⟨mB, hB, this⟩⟩
    · rw [hA] at hm
      cases hm
      rcases corr_base S hc hA hB with ⟨_, g2⟩ | ⟨g1, _, _⟩
      · exact ⟨0, Or.inr ⟨mB, hB, g2⟩⟩
      · omega
  | succ n ih =>
    intro i j hc hn
    obtain ⟨⟨mA, hA⟩, ⟨mB, hB⟩⟩ := corr_valid S hc
    rcases corr_base S hc hA hB with ⟨_, g2⟩ | ⟨_, _, g3⟩
    · exact ⟨0, Or.inr ⟨mB, hB, g2⟩⟩
    · rw [parent_chain, base_of_fget hA] at hn
      exact anchored_step hB (ih _ _ g3 hn)

theorem corr_anchored_iff {A B : Registry} (S : Sim A B) {i j : Int} (hc : corr A B i j) :
    anchored A.faction_list i ↔ anchored B.faction_list j := by
  constructor
  · rintro ⟨n, hn⟩
    exact corr_anchored S n i j hc hn
  · rintro ⟨n, hn⟩
    exact corr_anchored S.sim_symm n j i (corr_symm hc) hn

/-! ## Finalizing registries with the same name-level content -/

theorem FinalPair.unvisited_iff {A B : Registry} {rA rB : Int} {uA uB : List Int}
    {flFA flFB : List monfaction} (P : FinalPair A B rA rB uA uB flFA flFB) {i j : Int}
    (hc : corr A B i j) : i ∈ uA ↔ j ∈ uB := by
  obtain ⟨hA, hB⟩ := corr_valid P.sim hc
  rw [P.specA.mem_unvisited, P.specB.mem_unvisited, corr_anchored_iff P.sim hc]
  constructor
  · rintro ⟨_, h⟩
    exact ⟨hB, h⟩
  · rintro ⟨_, h⟩
    exact ⟨hA, h⟩

theorem FinalPair.root_iff {A B : Registry} {rA rB : Int} {uA uB : List Int}
    {flFA flFB : List monfaction} (P : FinalPair A B rA rB uA uB flFA flFB) {i j : Int}
    (hc : corr A B i j) {mA mB : monfaction} (hA : fget A.faction_list i = some mA)
    (hB : fget B.faction_list j = some mB) : mA.base_faction = i ↔ mB.base_faction = j := by
  have key : ∀ {A B : Registry} (S : Sim A B) {i j : Int} (hc : corr A B i j)
      {mA mB : monfaction} (hA : fget A.faction_list i = some mA)
      (hB : fget B.faction_list j = some mB), mA.base_faction = i → mB.base_faction = j := by
    intro A B S i j hc mA mB hA hB hb
    rcases corr_base S hc hA hB with ⟨g1, _⟩ | ⟨_, _, g3⟩
    · have := (fget_eq_some hA).1
      omega
    · rw [hb] at g3
      exact corr_fun S g3 hc
  exact ⟨key P.sim hc hA hB, key P.sim.sim_symm (corr_symm hc) hB hA⟩

theorem FinalPair.base_corr {A B : Registry} {rA rB : Int} {uA uB : List Int}
    {flFA flFB : List monfaction} (P : FinalPair A B rA rB uA uB flFA flFB) {i j : Int}
    (hc : corr A B i j) {mFA mFB : monfaction} (hFA : fget flFA i = some mFA)
    (hFB : fget flFB j = some mFB) : corr A B mFA.base_faction mFB.base_faction := by
  obtain ⟨⟨mA, hA⟩, ⟨mB, hB⟩⟩ := corr_valid P.sim hc
  obtain ⟨m1, h1, _, _, hbA, _⟩ := P.specA.records i mA hA
  obtain ⟨m2, h2, _, _, hbB, _⟩ := P.specB.records j mB hB
  rw [hFA] at h1
  cases h1
  rw [hFB] at h2
  cases h2
  rw [hbA, hbB]
  have hu := P.unvisited_iff hc
  by_cases hi : i ∈ uA
  · rw [if_pos hi, if_pos (hu.mp hi)]
    exact P.roots ⟨i, mA, hA, Or.inl hi⟩
  · have hj : j ∉ uB := fun h => hi (hu.mpr h)
    rw [if_neg hi, if_neg hj]
    rcases corr_base P.sim hc hA hB with ⟨g1, g2⟩ | ⟨g1, g2, g3⟩
    · rw [if_pos g1, if_pos g2]
      exact P.roots ⟨i, mA, hA, Or.inr g1⟩
    · have n1 : ¬ mA.base_faction < 0 := by omega
      have n2 : ¬ mB.base_faction < 0 := by omega
      rw [if_neg n1, if_neg n2]
      exact g3

theorem FinalPair.att_root {A B : Registry} {rA rB : Int} {uA uB : List Int}
    {flFA flFB : List monfaction} (P : FinalPair A B rA rB uA uB flFA flFB) {i j : Int}
    (hc : corr A B i j) {mA : monfaction} (hA : fget A.faction_list i = some mA)
    (hroot : mA.base_faction = i) {k l : Int} (hk : corr A B k l) :
    assoc_find (att_of flFA i) k = assoc_find (att_of flFB j) l := by
  obtain ⟨_, ⟨mB, hB⟩⟩ := corr_valid P.sim hc
  have hrootB := (P.root_iff hc hA hB).mp hroot
  obtain ⟨m1, h1, _, _, _, a1, _⟩ := P.specA.records i mA hA
  obtain ⟨m2, h2, _, _, _, a2, _⟩ := P.specB.records j mB hB
  rw [att_of_fget h1, att_of_fget h2, a1 hroot, a2 hrootB, ← att_of_fget hA, ← att_of_fget hB]
  exact corr_att P.sim hc hk

theorem FinalPair.att_own {A B : Registry} {rA rB : Int} {uA uB : List Int}
    {flFA flFB : List monfaction} (P : FinalPair A B rA rB uA uB flFA flFB) {i j : Int}
    (hc : corr A B i j) {mA mB : monfaction} (hA : fget A.faction_list i = some mA)
    (hB : fget B.faction_list j = some mB) {k l : Int} (hk : corr A B k l) :
    (assoc_find mA.attitude_map k).or (if k = i then some MFA_FRIENDLY else none) =
      (assoc_find mB.attitude_map l).or (if l = j then some MFA_FRIENDLY else none) := by
  have e1 := corr_att P.sim hc hk
  rw [att_of_fget hA, att_of_fget hB] at e1
  rw [e1]
  by_cases h : k = i
  · rw [if_pos h, if_pos ((corr_eq_iff P.sim hc hk).mp h)]
  · have h2 : ¬ l = j := fun e => h ((corr_eq_iff P.sim hc hk).mpr e)
    rw [if_neg h, if_neg h2]

theorem FinalPair.att_anchored {A B : Registry} {rA rB : Int} {uA uB : List Int}
    {flFA flFB : List monfaction} (P : FinalPair A B rA rB uA uB flFA flFB) :
    ∀ (n : Nat) (i j : Int), corr A B i j →
      (self_parented A.faction_list (parent_chain A.faction_list n i) ∨
        unset_parent A.faction_list (parent_chain A.faction_list n i)) →
      ∀ (k l : Int), corr A B k l →
        assoc_find (att_of flFA i) k = assoc_find (att_of flFB j) l := by
  obtain ⟨mr, hmr, hmrb⟩ := P.specA.root_first.1
  intro n
  induction n with
  | zero =>
    intro i j hc hn k l hk
    obtain ⟨⟨mA, hA⟩, ⟨mB, hB⟩⟩ := corr_valid P.sim hc
    by_cases hroot : mA.base_faction = i
    · exact P.att_root hc hA hroot hk
    · have hrootB : mB.base_faction ≠ j := fun e => hroot ((P.root_iff hc hA hB).mpr e)
      have hi : i ∉ uA := anchored_not_unvisited P.specA ⟨0, hn⟩
      have hj : j ∉ uB := fun h => hi ((P.unvisited_iff hc).mpr h)
      obtain ⟨m1, h1, _, _, b1, _, _, a1⟩ := P.specA.records i mA hA
      obtain ⟨m2, h2, _, _, b2, _, _, a2⟩ := P.specB.records j mB hB
      rw [att_of_fget h1, att_of_fget h2, a1 hroot hi k, a2 hrootB hj l,
        P.att_own hc hA hB hk]
      congr 1
      simp only [parent_chain] at hn
      rcases hn with ⟨m, hm, hb⟩ | ⟨m, hm, hb⟩
      · rw [hA] at hm
        cases hm
        exact absurd hb hroot
      · rw [hA] at hm
        cases hm
        rcases corr_base P.sim hc hA hB with ⟨g1, g2⟩ | ⟨g1, _, _⟩
        · rw [if_neg hi, if_pos g1] at b1
          rw [if_neg hj, if_pos g2] at b2
          rw [b1, b2]
          exact P.att_root (P.roots ⟨i, mA, hA, Or.inr g1⟩) hmr hmrb hk
        · omega
  | succ n ih =>
    intro i j hc hn k l hk
    obtain ⟨⟨mA, hA⟩, ⟨mB, hB⟩⟩ := corr_valid P.sim hc
    by_cases hroot : mA.base_faction = i
    · exact P.att_root hc hA hroot hk
    · have hrootB : mB.base_faction ≠ j := fun e => hroot ((P.root_iff hc hA hB).mpr e)
      have hi : i ∉ uA := anchored_not_unvisited P.specA ⟨n + 1, hn⟩
      have hj : j ∉ uB := fun h => hi ((P.unvisited_iff hc).mpr h)
      obtain ⟨m1, h1, _, _, b1, _, _, a1⟩ := P.specA.records i mA hA
      obtain ⟨m2, h2, _, _, b2, _, _, a2⟩ := P.specB.records j mB hB
      rw [att_of_fget h1, att_of_fget h2, a1 hroot hi k, a2 hrootB hj l,
        P.att_own hc hA hB hk]
      congr 1
      rcases corr_base P.sim hc hA hB with ⟨g1, g2⟩ | ⟨g1, g2, g3⟩
      · rw [if_neg hi, if_pos g1] at b1
        rw [if_neg hj, if_pos g2] at b2
        rw [b1, b2]
        exact P.att_root (P.roots ⟨i, mA, hA, Or.inr g1⟩) hmr hmrb hk
      · have n1 : ¬ mA.base_faction < 0 := by omega
        have n2 : ¬ mB.base_faction < 0 := by omega
        rw [if_neg hi, if_neg n1] at b1
        rw [if_neg hj, if_neg n2] at b2
        rw [b1, b2]
        rw [parent_chain, base_of_fget hA] at hn
        exact ih _ _ g3 hn k l hk

theorem FinalPair.att_corr {A B : Registry} {rA rB : Int} {uA uB : List Int}
    {flFA flFB : List monfaction} (P : FinalPair A B rA rB uA uB flFA flFB) {i j k l : Int}
    (hc : corr A B i j) (hk : corr A B k l) :
    assoc_find (att_of flFA i) k = assoc_find (att_of flFB j) l := by
  obtain ⟨⟨mA, hA⟩, ⟨mB, hB⟩⟩ := corr_valid P.sim hc
  by_cases hi : i ∈ uA
  · have hj : j ∈ uB := (P.unvisited_iff hc).mp hi
    have hroot : mA.base_faction ≠ i := by
      intro e
      exact ((P.specA.mem_unvisited i).mp hi).2 ⟨0, Or.inl ⟨mA, hA, e⟩⟩
    have hrootB : mB.base_faction ≠ j := fun e => hroot ((P.root_iff hc hA hB).mpr e)
    obtain ⟨m1, h1, _, _, _, _, a1, _⟩ := P.specA.records i mA hA
    obtain ⟨m2, h2, _, _, _, _, a2, _⟩ := P.specB.records j mB hB
    rw [att_of_fget h1, att_of_fget h2, a1 hroot hi k, a2 hrootB hj l]
    exact P.att_own hc hA hB hk
  · have ha : anchored A.faction_list i := by
      by_contra hna
      exact hi ((P.specA.mem_unvisited i).mpr ⟨⟨mA, hA⟩, hna⟩)
    obtain ⟨n, hn⟩ := ha
    exact P.att_anchored n i j hc hn k l hk

theorem FinalPair.final_valid {A B : Registry} {rA rB : Int} {uA uB : List Int}
    {flFA flFB : List monfaction} (P : FinalPair A B rA rB uA uB flFA flFB) {i j : Int}
    (hc : corr A B i j) :
    (∃ mFA, fget flFA i = some mFA) ∧ ∃ mFB, fget flFB j = some mFB := by
  obtain ⟨⟨mA, hA⟩, ⟨mB, hB⟩⟩ := corr_valid P.sim hc
  obtain ⟨m1, h1, _⟩ := P.specA.records i mA hA
  obtain ⟨m2, h2, _⟩ := P.specB.records j mB hB
  exact ⟨⟨m1, h1⟩, ⟨m2, h2⟩⟩

theorem FinalPair.attitude_corr {A B : Registry} {rA rB : Int} {uA uB : List Int}
    {flFA flFB : List monfaction} (P : FinalPair A B rA rB uA uB flFA flFB) {s sB : Int}
    (hs : corr A B s sB) {selfA selfB : monfaction} (hsA : fget flFA s = some selfA)
    (hsB : fget flFB sB = some selfB) :
    ∀ (n : Nat) (t tB : Int), corr A B t tB →
      self_parented flFA (parent_chain flFA n t) →
      ∀ fA fB, ∃ a mA mB, attitude flFA (fA + n + 3) selfA t = some (a, mA) ∧
        attitude flFB (fB + n + 3) selfB tB = some (a, mB) := by
  have hneA : flFA ≠ [] := by
    intro e
    rw [e] at hsA
    simp [fget] at hsA
  have hneB : flFB ≠ [] := by
    intro e
    rw [e] at hsB
    simp [fget] at hsB
  have hfind : ∀ t tB, corr A B t tB →
      assoc_find selfA.attitude_map t = assoc_find selfB.attitude_map tB := by
    intro t tB ht
    rw [← att_of_fget hsA, ← att_of_fget hsB]
    exact P.att_corr hs ht
  have hbase : ∀ t tB, corr A B t tB →
      corr A B (base_of flFA t) (base_of flFB tB) ∧
      (t ≠ base_of flFA t ↔ tB ≠ base_of flFB tB) := by
    intro t tB ht
    obtain ⟨⟨m1, h1⟩, ⟨m2, h2⟩⟩ := P.final_valid ht
    rw [base_of_fget h1, base_of_fget h2]
    have hb := P.base_corr ht h1 h2
    refine ⟨hb, ?_⟩
    have := corr_eq_iff P.sim ht hb
    constructor
    · intro h e
      exact h (this.mpr e.symm).symm
    · intro h e
      exact h (this.mp e.symm).symm
  intro n
  induction n with
  | zero =>
    intro t tB ht hroot fA fB
    cases hf : assoc_find selfA.attitude_map t with
    | some a =>
      have hfB := hf
      rw [hfind t tB ht] at hfB
      exact ⟨a, [], [], attitude_hit flFA selfA t a hf (fA + 2),
        attitude_hit flFB selfB tB a hfB (fB + 2)⟩
    | none =>
      have hfB := hf
      rw [hfind t tB ht] at hfB
      obtain ⟨oA, msA, _, _, stepA⟩ := attitude_miss hneA selfA t hf fA
      obtain ⟨oB, msB, _, _, stepB⟩ := attitude_miss hneB selfB tB hfB fB
      have hr : ¬ t ≠ base_of flFA t := fun e => e (self_parented_base_of hroot).symm
      have hrB : ¬ tB ≠ base_of flFB tB := fun e => hr ((hbase t tB ht).2.mpr e)
      rw [Nat.add_zero, stepA, if_neg hr]
      rw [Nat.add_zero, stepB, if_neg hrB]
      exact ⟨_, _, _, rfl, rfl⟩
  | succ n ih =>
    intro t tB ht hroot fA fB
    cases hf : assoc_find selfA.attitude_map t with
    | some a =>
      have hfB := hf
      rw [hfind t tB ht] at hfB
      exact ⟨a, [], [], attitude_hit flFA selfA t a hf (fA + (n + 1) + 2),
        attitude_hit flFB selfB tB a hfB (fB + (n + 1) + 2)⟩
    | none =>
      have hfB := hf
      rw [hfind t tB ht] at hfB
      obtain ⟨oA, msA, _, _, stepA⟩ := attitude_miss hneA selfA t hf (fA + n + 1)
      obtain ⟨oB, msB, _, _, stepB⟩ := attitude_miss hneB selfB tB hfB (fB + n + 1)
      have eA : fA + (n + 1) + 3 = fA + n + 1 + 3 := by omega
      have eB : fB + (n + 1) + 3 = fB + n + 1 + 3 := by omega
      have eA2 : fA + n + 1 + 2 = fA + n + 3 := by omega
      have eB2 : fB + n + 1 + 2 = fB + n + 3 := by omega
      rw [eA, eB, stepA, stepB]
      by_cases hr : t ≠ base_of flFA t
      · have hrB : tB ≠ base_of flFB tB := (hbase t tB ht).2.mp hr
        obtain ⟨a, mA, mB, h1, h2⟩ :=
          ih (base_of flFA t) (base_of flFB tB) (hbase t tB ht).1 hroot fA fB
        rw [if_pos hr, if_pos hrB, eA2, eB2, h1, h2]
        exact ⟨_, _, _, rfl, rfl⟩
      · have hrB : ¬ tB ≠ base_of flFB tB := fun e => hr ((hbase t tB ht).2.mpr e)
        rw [if_neg hr, if_neg hrB]
        exact ⟨_, _, _, rfl, rfl⟩

theorem attitude_of_names_eq {reg : Registry} {s t : String} {i k : Int} {self : monfaction}
    {a : mf_attitude} {msgs : List debugmsg} (q : Nat)
    (hs : assoc_find reg.faction_map s = some i) (ht : assoc_find reg.faction_map t = some k)
    (hself : fget reg.faction_list i = some self)
    (hatt : attitude reg.faction_list (q + 1) self k = some (a, msgs)) :
    attitude_of_names (q + 1) reg s t = some a := by
  unfold attitude_of_names
  simp only [str_id, hs, ht, obj_of_fget hself, hatt]

/-! ## The name-to-id map as a list of first occurrences -/

theorem index_from_length (k : Nat) (d : List String) : (index_from k d).length = d.length := by
  induction d generalizing k with
  | nil => rfl
  | cons n rest ih => simp [index_from, ih]

theorem assoc_find_index_from (k : Nat) (d : List String) (n : String) :
    assoc_find (index_from k d) n =
      if n ∈ d then some ((k : Int) + (d.indexOf n : Int)) else none := by
  induction d generalizing k with
  | nil => simp [index_from, assoc_find]
  | cons x rest ih =>
    simp only [index_from, assoc_find]
    by_cases h : x = n
    · subst h
      simp
    · have h2 : ¬ n = x := fun e => h e.symm
      rw [if_neg h, ih]
      by_cases hm : n ∈ rest
      · simp only [hm, if_true, List.mem_cons, or_true]
        rw [List.indexOf_cons_ne _ h]
        congr 1
        push_cast
        omega
      · simp [hm, h2]

theorem assoc_set_index_from (k : Nat) (d : List String) (n : String) (h : n ∉ d) :
    assoc_set (index_from k d) n ((k : Int) + (d.length : Int)) = index_from k (d ++ [n]) := by
  induction d generalizing k with
  | nil => simp [index_from, assoc_set]
  | cons x rest ih =>
    simp only [List.mem_cons, not_or] at h
    have hx : ¬ x = n := fun e => h.1 e.symm
    rw [List.cons_append]
    simp only [index_from, assoc_set, if_neg hx, List.cons.injEq, true_and]
    rw [← ih (k + 1) h.2]
    congr 1
    simp only [List.length_cons]
    push_cast
    omega

theorem stubs_from_append (k : Nat) (d : List String) (n : String) :
    stubs_from k (d ++ [n]) = stubs_from k d ++ [⟨n, ((k + d.length : Nat) : Int), -1, []⟩] := by
  induction d generalizing k with
  | nil => simp [stubs_from]
  | cons x rest ih =>
    rw [List.cons_append]
    simp only [stubs_from, List.length_cons, List.cons_append, List.cons.injEq, true_and]
    rw [ih (k + 1)]
    congr 3
    omega

theorem stubs_from_length (k : Nat) (d : List String) : (stubs_from k d).length = d.length := by
  induction d generalizing k with
  | nil => rfl
  | cons n rest ih => simp [stubs_from, ih]

theorem stubs_from_getElem? (k : Nat) (d : List String) (j : Nat) :
    (stubs_from k d)[j]? = (d[j]?).map (fun n => ⟨n, ((k + j : Nat) : Int), -1, []⟩) := by
  induction d generalizing k j with
  | nil => simp [stubs_from]
  | cons n rest ih =>
    cases j with
    | zero => simp [stubs_from]
    | succ j =>
      simp only [stubs_from, List.getElem?_cons_succ]
      rw [ih (k + 1) j]
      congr 1
      funext x
      congr 2
      omega

theorem note_name_prefix (d : List String) (n : String) : ∃ e, note_name d n = d ++ e := by
  unfold note_name
  split
  · exact ⟨[], by simp⟩
  · exact ⟨[n], rfl⟩

theorem mem_note_name (d : List String) (n x : String) :
    x ∈ note_name d n ↔ x ∈ d ∨ x = n := by
  unfold note_name
  split
  · rename_i h
    constructor
    · exact Or.inl
    · rintro (h1 | h1)
      · exact h1
      · rw [h1]; exact h
  · simp

theorem note_name_nodup (d : List String) (n : String) (h : d.Nodup) :
    (note_name d n).Nodup := by
  unfold note_name
  split
  · exact h
  · rename_i hn
    rw [List.nodup_append]
    refine ⟨h, by simp, ?_⟩
    intro x hx hx2
    simp only [List.mem_singleton] at hx2
    subst hx2
    exact hn hx

theorem foldl_note_name_prefix (names : List String) (d : List String) :
    ∃ e, names.foldl note_name d = d ++ e := by
  induction names generalizing d with
  | nil => exact ⟨[], by simp⟩
  | cons n rest ih =>
    obtain ⟨e1, h1⟩ := note_name_prefix d n
    obtain ⟨e2, h2⟩ := ih (note_name d n)
    refine ⟨e1 ++ e2, ?_⟩
    rw [List.foldl_cons, h2, h1, List.append_assoc]

theorem mem_foldl_note_name (names : List String) (d : List String) (x : String) :
    x ∈ names.foldl note_name d ↔ x ∈ d ∨ x ∈ names := by
  induction names generalizing d with
  | nil => simp
  | cons n rest ih =>
    rw [List.foldl_cons, ih, mem_note_name, List.mem_cons]
    tauto

theorem foldl_note_name_nodup (names : List String) (d : List String) (h : d.Nodup) :
    (names.foldl note_name d).Nodup := by
  induction names generalizing d with
  | nil => exact h
  | cons n rest ih =>
    rw [List.foldl_cons]
    exact ih _ (note_name_nodup d n h)

theorem get_or_add_index_from (reg : Registry) (d : List String) (n : String)
    (h : reg.faction_map = index_from 0 d) :
    (get_or_add_faction reg n).1.faction_map = index_from 0 (note_name d n) ∧
    (get_or_add_faction reg n).2 = ((note_name d n).indexOf n : Int) ∧
    ((get_or_add_faction reg n).1.faction_list = reg.faction_list ∧ n ∈ d ∨
      (get_or_add_faction reg n).1.faction_list =
        reg.faction_list ++ [⟨n, (d.length : Int), -1, []⟩] ∧ n ∉ d) := by
  have hfind := assoc_find_index_from 0 d n
  rw [← h] at hfind
  by_cases hn : n ∈ d
  · rw [if_pos hn] at hfind
    rw [get_or_add_faction_known hfind]
    simp only [note_name, if_pos hn]
    exact ⟨h, by simp, Or.inl ⟨trivial, hn⟩⟩
  · rw [if_neg hn] at hfind
    rw [get_or_add_faction_fresh hfind]
    simp only [note_name, if_neg hn]
    have hlen : reg.faction_map.length = d.length := by rw [h, index_from_length]
    refine ⟨?_, ?_, Or.inr ⟨by rw [hlen], hn⟩⟩
    · rw [hlen, h]
      have := assoc_set_index_from 0 d n hn
      simpa using this
    · rw [hlen]
      have : (d ++ [n]).indexOf n = d.length := by
        rw [List.indexOf_append_of_not_mem hn]
        simp
      rw [this]

theorem foldl_note_name_order (names : List String) (d : List String) (a b : String)
    (ha : a ∈ d ∨ a ∈ names) (hb : b ∈ d ∨ b ∈ names) :
    ((names.foldl note_name d).indexOf a < (names.foldl note_name d).indexOf b ↔
      (d ++ names).indexOf a < (d ++ names).indexOf b) := by
  induction names generalizing d with
  | nil => simp
  | cons n rest ih =>
    rw [List.foldl_cons]
    have ha2 : a ∈ note_name d n ∨ a ∈ rest := by
      rw [mem_note_name]
      simp only [List.mem_cons] at ha
      tauto
    have hb2 : b ∈ note_name d n ∨ b ∈ rest := by
      rw [mem_note_name]
      simp only [List.mem_cons] at hb
      tauto
    rw [ih (note_name d n) ha2 hb2]
    unfold note_name
    by_cases hn : n ∈ d
    · rw [if_pos hn]
      have key : ∀ x : String, (x ∈ d → (d ++ rest).indexOf x = d.indexOf x ∧
            (d ++ n :: rest).indexOf x = d.indexOf x ∧ d.indexOf x < d.length) ∧
          (x ∉ d → (d ++ rest).indexOf x = d.length + rest.indexOf x ∧
            (d ++ n :: rest).indexOf x = d.length + (rest.indexOf x + 1)) := by
        intro x
        constructor
        · intro hx
          exact ⟨List.indexOf_append_of_mem hx, List.indexOf_append_of_mem hx,
            List.indexOf_lt_length.mpr hx⟩
        · intro hx
          have hne : n ≠ x := fun e => hx (e ▸ hn)
          refine ⟨List.indexOf_append_of_not_mem hx, ?_⟩
          rw [List.indexOf_append_of_not_mem hx, List.indexOf_cons_ne _ hne]
      by_cases h1 : a ∈ d <;> by_cases h2 : b ∈ d
      · rw [((key a).1 h1).1, ((key a).1 h1).2.1, ((key b).1 h2).1, ((key b).1 h2).2.1]
      · have := ((key a).1 h1).2.2
        rw [((key a).1 h1).1, ((key a).1 h1).2.1, ((key b).2 h2).1, ((key b).2 h2).2]
        omega
      · have := ((key b).1 h2).2.2
        rw [((key a).2 h1).1, ((key a).2 h1).2, ((key b).1 h2).1, ((key b).1 h2).2.1]
        omega
      · rw [((key a).2 h1).1, ((key a).2 h1).2, ((key b).2 h2).1, ((key b).2 h2).2]
        omega
    · rw [if_neg hn]
      simp

theorem register_all_spec (names : List String) (reg : Registry) (d : List String)
    (hmap : reg.faction_map = index_from 0 d) (hlist : reg.faction_list = stubs_from 0 d) :
    (register_all names reg).1.faction_map = index_from 0 (names.foldl note_name d) ∧
    (register_all names reg).1.faction_list = stubs_from 0 (names.foldl note_name d) ∧
    (register_all names reg).2 =
      names.map (fun n => ((names.foldl note_name d).indexOf n : Int)) := by
  induction names generalizing reg d with
  | nil => exact ⟨hmap, hlist, rfl⟩
  | cons n rest ih =>
    obtain ⟨h1, h2, h3⟩ := get_or_add_index_from reg d n hmap
    have hl : (get_or_add_faction reg n).1.faction_list = stubs_from 0 (note_name d n) := by
      rcases h3 with ⟨h3, hn⟩ | ⟨h3, hn⟩
      · rw [h3, hlist]
        simp only [note_name, if_pos hn]
      · rw [h3, hlist]
        simp only [note_name, if_neg hn]
        rw [stubs_from_append]
        simp
    obtain ⟨i1, i2, i3⟩ := ih (get_or_add_faction reg n).1 (note_name d n) h1 hl
    simp only [register_all, List.foldl_cons, List.map_cons]
    refine ⟨i1, i2, ?_⟩
    rw [i3, h2]
    congr 1
    obtain ⟨e, he⟩ := foldl_note_name_prefix rest (note_name d n)
    rw [he]
    have hmem : n ∈ note_name d n := by
      rw [mem_note_name]
      exact Or.inr rfl
    rw [List.indexOf_append_of_mem hmem]

/-! ## The results do not depend on the budget -/

theorem obj_mono_succ (fl : List monfaction) (fuel : Nat) (c : Int)
    (r : monfaction × List debugmsg) (h : obj fl fuel c = some r) :
    obj fl (fuel + 1) c = some r := by
  induction fuel generalizing c r with
  | zero => simp [obj] at h
  | succ n ih =>
    rw [obj] at h
    rw [obj]
    by_cases hc : id_out_of_range fl c
    · rw [if_pos hc] at h ⊢
      cases h0 : obj fl n 0 with
      | none => rw [h0] at h; cases h
      | some r0 =>
        rw [h0] at h
        rw [ih 0 r0 h0]
        exact h
    · rw [if_neg hc] at h ⊢
      exact h

theorem obj_mono {fl : List monfaction} {fuel fuel2 : Nat} {c : Int}
    {r : monfaction × List debugmsg} (h : obj fl fuel c = some r) (hle : fuel ≤ fuel2) :
    obj fl fuel2 c = some r := by
  induction hle with
  | refl => exact h
  | step _ ih => exact obj_mono_succ fl _ c r ih

theorem attitude_mono_succ (fl : List monfaction) (fuel : Nat) (self : monfaction) (t : Int)
    (r : mf_attitude × List debugmsg) (h : attitude fl fuel self t = some r) :
    attitude fl (fuel + 1) self t = some r := by
  induction fuel generalizing t r with
  | zero => simp [attitude] at h
  | succ n ih =>
    rw [attitude] at h
    rw [attitude]
    cases hf : assoc_find self.attitude_map t with
    | some a => rw [hf] at h; exact h
    | none =>
      rw [hf] at h
      simp only at h ⊢
      cases ho : obj fl n t with
      | none => rw [ho] at h; cases h
      | some o =>
        rw [ho] at h
        rw [obj_mono_succ fl n t o ho]
        simp only at h ⊢
        by_cases hb : t ≠ o.1.base_faction
        · rw [if_pos hb] at h ⊢
          cases ha : attitude fl n self o.1.base_faction with
          | none => rw [ha] at h; cases h
          | some a =>
            rw [ha] at h
            rw [ih _ a ha]
            exact h
        · rw [if_neg hb] at h ⊢
          exact h

theorem attitude_mono {fl : List monfaction} {fuel fuel2 : Nat} {self : monfaction} {t : Int}
    {r : mf_attitude × List debugmsg} (h : attitude fl fuel self t = some r)
    (hle : fuel ≤ fuel2) : attitude fl fuel2 self t = some r := by
  induction hle with
  | refl => exact h
  | step _ ih => exact attitude_mono_succ fl _ self t r ih

theorem apply_base_faction_mono {fl : List monfaction} {fuel fuel2 : Nat} {b c : Int}
    {r : List monfaction × List debugmsg} (h : apply_base_faction fuel fl b c = some r)
    (hle : fuel ≤ fuel2) : apply_base_faction fuel2 fl b c = some r := by
  unfold apply_base_faction at h ⊢
  cases ho : obj fl fuel b with
  | none => rw [ho] at h; cases h
  | some o =>
    rw [ho] at h
    rw [obj_mono ho hle]
    exact h

theorem children_loop_mono {fuel fuel2 : Nat} (cur : Int) (hle : fuel ≤ fuel2)
    (ch : List (Int × Int)) (st r : bfs_state) (h : children_loop fuel cur ch st = some r) :
    children_loop fuel2 cur ch st = some r := by
  induction ch generalizing st with
  | nil => exact h
  | cons it rest ih =>
    rw [children_loop] at h ⊢
    cases ha : apply_base_faction fuel st.faction_list cur it.2 with
    | none => rw [ha] at h; cases h
    | some a =>
      rw [ha] at h
      rw [apply_base_faction_mono ha hle]
      exact ih _ h

theorem bfs_loop_mono {d d2 : Nat} (cm : List (Int × Int)) (hd : d ≤ d2)
    (fuel : Nat) (st r : bfs_state) (h : bfs_loop d cm fuel st = some r)
    (fuel2 : Nat) (hle : fuel ≤ fuel2) : bfs_loop d2 cm fuel2 st = some r := by
  induction fuel generalizing st fuel2 with
  | zero =>
    rw [bfs_loop] at h
    by_cases hq : st.queue = []
    · rw [if_pos hq] at h
      cases fuel2 with
      | zero => rw [bfs_loop, if_pos hq]; exact h
      | succ k => rw [bfs_loop, hq]; exact h
    · rw [if_neg hq] at h
      cases h
  | succ n ih =>
    cases fuel2 with
    | zero => omega
    | succ k =>
      have hk : n ≤ k := by omega
      rw [bfs_loop] at h ⊢
      cases hq : st.queue with
      | nil => rw [hq] at h; exact h
      | cons cur rest =>
        rw [hq] at h
        simp only at h ⊢
        by_cases hc : cur ∈ st.unloaded
        · rw [if_pos hc] at h ⊢
          cases hch : children_loop d cur (cm.filter (fun p => p.1 = cur))
              { st with queue := rest, unloaded := st.unloaded.filter (fun x => x ≠ cur) } with
          | none => rw [hch] at h; cases h
          | some st2 =>
            rw [hch] at h
            rw [children_loop_mono cur hd _ _ _ hch]
            exact ih _ h _ hk
        · rw [if_neg hc] at h ⊢
          cases ho : obj st.faction_list d cur with
          | none => rw [ho] at h; cases h
          | some o =>
            rw [ho] at h
            rw [obj_mono ho hd]
            exact ih _ h _ hk

theorem cycle_loop_mono {fuel fuel2 : Nat} (root : Int) (hle : fuel ≤ fuel2)
    (u : List Int) (names : String) (fl : List monfaction) (msgs : List debugmsg)
    (r : String × List monfaction × List debugmsg)
    (h : cycle_loop fuel root u names fl msgs = some r) :
    cycle_loop fuel2 root u names fl msgs = some r := by
  induction u generalizing names fl msgs with
  | nil => exact h
  | cons fac rest ih =>
    rw [cycle_loop] at h ⊢
    cases ho : obj fl fuel fac with
    | none => rw [ho] at h; cases h
    | some o =>
      rw [ho] at h
      rw [obj_mono ho hle]
      exact ih _ _ _ h

theorem finalize_mono {fuel fuel2 : Nat} {reg : Registry} {r : Registry × List debugmsg}
    (h : finalize_monfactions fuel reg = some r) (hle : fuel ≤ fuel2) :
    finalize_monfactions fuel2 reg = some r := by
  unfold finalize_monfactions at h ⊢
  by_cases he : reg.faction_list = []
  · rw [if_pos he] at h ⊢
    exact h
  · rw [if_neg he] at h ⊢
    simp only at h ⊢
    cases hq : (scan_loop reg.faction_list ⟨[], [], []⟩).2.queue with
    | nil => rw [hq] at h; exact h
    | cons root rest =>
      rw [hq] at h
      simp only at h ⊢
      cases hb : bfs_loop fuel (adopt_loop root (scan_loop reg.faction_list ⟨[], [], []⟩).1
          (scan_loop reg.faction_list ⟨[], [], []⟩).2.child_map).2 fuel
          ⟨(adopt_loop root (scan_loop reg.faction_list ⟨[], [], []⟩).1
            (scan_loop reg.faction_list ⟨[], [], []⟩).2.child_map).1,
           (scan_loop reg.faction_list ⟨[], [], []⟩).2.unloaded, root :: rest, []⟩ with
      | none => rw [hb] at h; cases h
      | some st =>
        rw [hb] at h
        rw [bfs_loop_mono _ hle _ _ _ hb _ hle]
        simp only at h ⊢
        by_cases hu : st.unloaded ≠ []
        · rw [if_pos hu] at h ⊢
          cases hc : cycle_loop fuel root st.unloaded "" st.faction_list st.msgs with
          | none => rw [hc] at h; cases h
          | some c =>
            rw [hc] at h
            rw [cycle_loop_mono root hle _ _ _ _ _ hc]
            exact h
        · rw [if_neg hu] at h ⊢
          exact h

/-! ## Properties of all entries of all attitude maps -/

theorem mem_assoc_set {κ ν : Type} [DecidableEq κ] (m : List (κ × ν)) (k : κ) (v : ν)
    (p : κ × ν) (h : p ∈ assoc_set m k v) : p ∈ m ∨ p = (k, v) := by
  induction m with
  | nil =>
    simp only [assoc_set, List.mem_singleton] at h
    exact Or.inr h
  | cons q rest ih =>
    obtain ⟨k0, v0⟩ := q
    simp only [assoc_set] at h
    by_cases hk : k0 = k
    · rw [if_pos hk] at h
      simp only [List.mem_cons] at h ⊢
      rcases h with h | h
      · right; rw [h, hk]
      · left; right; exact h
    · rw [if_neg hk] at h
      simp only [List.mem_cons] at h ⊢
      rcases h with h | h
      · left; left; exact h
      · rcases ih h with h2 | h2
        · left; right; exact h2
        · right; exact h2

theorem mem_assoc_insert {κ ν : Type} [DecidableEq κ] (m : List (κ × ν)) (q p : κ × ν)
    (h : p ∈ assoc_insert m q) : p ∈ m ∨ p = q := by
  unfold assoc_insert at h
  split at h
  · exact Or.inl h
  · exact mem_assoc_set m q.1 q.2 p h

theorem assoc_find_mem {κ ν : Type} [DecidableEq κ] (m : List (κ × ν)) (k : κ) (v : ν)
    (h : assoc_find m k = some v) : (k, v) ∈ m := by
  induction m with
  | nil => simp [assoc_find] at h
  | cons q rest ih =>
    obtain ⟨k0, v0⟩ := q
    simp only [assoc_find] at h
    by_cases hk : k0 = k
    · rw [if_pos hk] at h
      cases h
      rw [hk]
      exact List.mem_cons_self _ _
    · rw [if_neg hk] at h
      exact List.mem_cons_of_mem _ (ih h)

theorem mem_modify_faction (fl : List monfaction) (id : Int) (f : monfaction → monfaction)
    (m : monfaction) (h : m ∈ modify_faction fl id f) :
    m ∈ fl ∨ ∃ m0, m0 ∈ fl ∧ m = f m0 := by
  obtain ⟨i, hi⟩ := List.mem_iff_getElem?.mp h
  rw [modify_faction_getElem?] at hi
  split at hi
  · cases h0 : fl[i]? with
    | none => rw [h0] at hi; cases hi
    | some m0 =>
      rw [h0] at hi
      simp only [Option.map, Option.some.injEq] at hi
      exact Or.inr ⟨m0, List.mem_iff_getElem?.mpr ⟨i, h0⟩, hi.symm⟩
  · exact Or.inl (List.mem_iff_getElem?.mpr ⟨i, hi⟩)

theorem entries_ok_modify {P : Int × mf_attitude → Prop} {fl : List monfaction}
    (h : entries_ok P fl) (id : Int) (f : monfaction → monfaction)
    (hf : ∀ m0, m0 ∈ fl → ∀ p, p ∈ (f m0).attitude_map → P p) :
    entries_ok P (modify_faction fl id f) := by
  intro m hm p hp
  rcases mem_modify_faction fl id f m hm with h1 | ⟨m0, h1, h2⟩
  · exact h m h1 p hp
  · rw [h2] at hp
    exact hf m0 h1 p hp

theorem entries_ok_weaken {P Q : Int × mf_attitude → Prop} {fl : List monfaction}
    (h : entries_ok P fl) (hPQ : ∀ p, P p → Q p) : entries_ok Q fl :=
  fun m hm p hp => hPQ p (h m hm p hp)

theorem obj_mem {fl : List monfaction} {fuel : Nat} {c : Int} {m : monfaction}
    {msgs : List debugmsg} (h : obj fl fuel c = some (m, msgs)) : m ∈ fl := by
  induction fuel generalizing c m msgs with
  | zero => simp [obj] at h
  | succ n ih =>
    rw [obj] at h
    by_cases hc : id_out_of_range fl c
    · rw [if_pos hc] at h
      cases h0 : obj fl n 0 with
      | none => rw [h0] at h; cases h
      | some r0 =>
        obtain ⟨m0, msgs0⟩ := r0
        rw [h0] at h
        simp only [Option.some.injEq, Prod.mk.injEq] at h
        rw [← h.1]
        exact ih h0
    · rw [if_neg hc] at h
      cases h0 : fl[c.toNat]? with
      | none => rw [h0] at h; cases h
      | some m0 =>
        rw [h0] at h
        simp only [Option.some.injEq, Prod.mk.injEq] at h
        rw [← h.1]
        exact List.mem_iff_getElem?.mpr ⟨_, h0⟩

theorem entries_ok_merge {P : Int × mf_attitude → Prop} (c : Int)
    (pairs : List (Int × mf_attitude)) (hp : ∀ p, p ∈ pairs → P p)
    (fl : List monfaction) (h : entries_ok P fl) :
    entries_ok P (pairs.foldl
      (fun fl2 pair => modify_faction fl2 c
        (fun faction =>
          if (assoc_find faction.attitude_map pair.1).isNone then
            { faction with attitude_map := assoc_insert faction.attitude_map pair }
          else faction))
      fl) := by
  induction pairs generalizing fl with
  | nil => exact h
  | cons q rest ih =>
    rw [List.foldl_cons]
    apply ih (fun p hp2 => hp p (List.mem_cons_of_mem _ hp2))
    apply entries_ok_modify h
    intro m0 hm0 p hpm
    split at hpm
    · rcases mem_assoc_insert _ _ _ hpm with h1 | h1
      · exact h m0 hm0 p h1
      · rw [h1]
        exact hp q (List.mem_cons_self _ _)
    · exact h m0 hm0 p hpm

theorem entries_ok_apply_base {P : Int × mf_attitude → Prop} {fuel : Nat}
    {fl : List monfaction} {b c : Int} {r : List monfaction × List debugmsg}
    (hr : apply_base_faction fuel fl b c = some r) (h : entries_ok P fl) :
    entries_ok P r.1 := by
  unfold apply_base_faction at hr
  cases ho : obj fl fuel b with
  | none => rw [ho] at hr; cases hr
  | some o =>
    obtain ⟨bm, msgs⟩ := o
    rw [ho] at hr
    simp only [Option.some.injEq] at hr
    rw [← hr]
    exact entries_ok_merge c bm.attitude_map (fun p hp => h bm (obj_mem ho) p hp) fl h

theorem entries_ok_children {P : Int × mf_attitude → Prop} (fuel : Nat) (cur : Int)
    (ch : List (Int × Int)) (st r : bfs_state) (hr : children_loop fuel cur ch st = some r)
    (h : entries_ok P st.faction_list) : entries_ok P r.faction_list := by
  induction ch generalizing st with
  | nil =>
    simp only [children_loop, Option.some.injEq] at hr
    rw [← hr]
    exact h
  | cons it rest ih =>
    rw [children_loop] at hr
    cases ha : apply_base_faction fuel st.faction_list cur it.2 with
    | none => rw [ha] at hr; cases hr
    | some a =>
      rw [ha] at hr
      exact ih _ hr (entries_ok_apply_base ha h)

theorem entries_ok_bfs {P : Int × mf_attitude → Prop} (d : Nat) (cm : List (Int × Int))
    (fuel : Nat) (st r : bfs_state) (hr : bfs_loop d cm fuel st = some r)
    (h : entries_ok P st.faction_list) : entries_ok P r.faction_list := by
  induction fuel generalizing st with
  | zero =>
    rw [bfs_loop] at hr
    split at hr
    · simp only [Option.some.injEq] at hr
      rw [← hr]
      exact h
    · cases hr
  | succ n ih =>
    rw [bfs_loop] at hr
    cases hq : st.queue with
    | nil =>
      rw [hq] at hr
      simp only [Option.some.injEq] at hr
      rw [← hr]
      exact h
    | cons cur rest =>
      rw [hq] at hr
      simp only at hr
      by_cases hc : cur ∈ st.unloaded
      · rw [if_pos hc] at hr
        cases hch : children_loop d cur (cm.filter (fun p => p.1 = cur))
            { st with queue := rest, unloaded := st.unloaded.filter (fun x => x ≠ cur) } with
        | none => rw [hch] at hr; cases hr
        | some st2 =>
          rw [hch] at hr
          exact ih _ hr (entries_ok_children d cur _ _ _ hch h)
      · rw [if_neg hc] at hr
        cases ho : obj st.faction_list d cur with
        | none => rw [ho] at hr; cases hr
        | some o =>
          rw [ho] at hr
          exact ih _ hr h

theorem entries_ok_cycle {P : Int × mf_attitude → Prop} (fuel : Nat) (root : Int)
    (u : List Int) (names : String) (fl : List monfaction) (msgs : List debugmsg)
    (r : String × List monfaction × List debugmsg)
    (hr : cycle_loop fuel root u names fl msgs = some r) (h : entries_ok P fl) :
    entries_ok P r.2.1 := by
  induction u generalizing names fl msgs with
  | nil =>
    simp only [cycle_loop, Option.some.injEq] at hr
    rw [← hr]
    exact h
  | cons fac rest ih =>
    rw [cycle_loop] at hr
    cases ho : obj fl fuel fac with
    | none => rw [ho] at hr; cases hr
    | some o =>
      rw [ho] at hr
      exact ih _ _ _ hr (entries_ok_modify h _ _ (fun m0 hm0 p hp => h m0 hm0 p hp))

theorem entries_ok_scan_adopt {P : Int × mf_attitude → Prop} {fl : List monfaction}
    (h : entries_ok P fl) (hself : ∀ m, m ∈ fl → P (m.id, MFA_FRIENDLY)) :
    entries_ok P (fl.map scan_faction) ∧
    ∀ root, entries_ok P ((fl.map scan_faction).map (adopt_faction root)) := by
  have h1 : entries_ok P (fl.map scan_faction) := by
    intro m hm p hp
    obtain ⟨m0, hm0, rfl⟩ := List.mem_map.mp hm
    unfold scan_faction at hp
    split at hp
    · exact h m0 hm0 p hp
    · split at hp
      · rcases mem_assoc_set _ _ _ _ hp with h2 | h2
        · exact h m0 hm0 p h2
        · rw [h2]
          exact hself m0 hm0
      · exact h m0 hm0 p hp
  refine ⟨h1, ?_⟩
  intro root m hm p hp
  obtain ⟨m1, hm1, rfl⟩ := List.mem_map.mp hm
  unfold adopt_faction at hp
  split at hp
  · exact h1 m1 hm1 p hp
  · exact h1 m1 hm1 p hp

theorem entries_ok_finalize {P : Int × mf_attitude → Prop} {fuel : Nat} {reg : Registry}
    {r : Registry × List debugmsg} (hr : finalize_monfactions fuel reg = some r)
    (h : entries_ok P reg.faction_list)
    (hself : ∀ m, m ∈ reg.faction_list → P (m.id, MFA_FRIENDLY)) :
    entries_ok P r.1.faction_list := by
  obtain ⟨hs, ha⟩ := entries_ok_scan_adopt h hself
  unfold finalize_monfactions at hr
  by_cases he : reg.faction_list = []
  · rw [if_pos he] at hr
    simp only [Option.some.injEq] at hr
    rw [← hr]
    exact h
  · rw [if_neg he] at hr
    simp only [scan_loop_eq, adopt_loop_eq] at hr
    cases hq : (reg.faction_list.foldl scan_locals ⟨[], [], []⟩).queue with
    | nil =>
      rw [hq] at hr
      simp only [Option.some.injEq] at hr
      rw [← hr]
      exact hs
    | cons root rest =>
      rw [hq] at hr
      simp only at hr
      split at hr
      · cases hr
      · rename_i st hb
        have hst := entries_ok_bfs _ _ _ _ _ hb (ha root)
        by_cases hu : st.unloaded ≠ []
        · rw [if_pos hu] at hr
          split at hr
          · cases hr
          · rename_i names fl2 msgs2 hc
            simp only [Option.some.injEq] at hr
            rw [← hr]
            exact entries_ok_cycle _ _ _ _ _ _ _ hc hst
        · rw [if_neg hu] at hr
          simp only [Option.some.injEq] at hr
          rw [← hr]
          exact hst

/-! ## Every run of `finalize_monfactions` that returns -/

theorem finalize_cases {reg : Registry} (hwf : ListWF reg.faction_list) {fuel : Nat}
    {r : Registry × List debugmsg} (hr : finalize_monfactions fuel reg = some r) :
    (reg.faction_list = [] ∧ r = (reg, [debugmsg.no_factions_found])) ∨
    (reg.faction_list ≠ [] ∧ (∀ c, ¬ self_parented reg.faction_list c) ∧
      r = ({ reg with faction_list := reg.faction_list.map scan_faction },
        [debugmsg.no_valid_root])) ∨
    (∃ root flF u, primary_root reg.faction_list = some root ∧
      r = ({ reg with faction_list := flF },
        if u = [] then [] else [debugmsg.cycle_encountered (names_of reg.faction_list u)]) ∧
      final_spec reg.faction_list root u flF) := by
  by_cases hne : reg.faction_list = []
  · left
    unfold finalize_monfactions at hr
    rw [if_pos hne] at hr
    simp only [Option.some.injEq] at hr
    exact ⟨hne, hr.symm⟩
  · right
    cases hp : primary_root reg.faction_list with
    | none =>
      left
      have hq : (reg.faction_list.filter (fun m => m.id = m.base_faction)).map (fun m => m.id)
          = [] := by
        rw [primary_root_eq] at hp
        exact List.head?_eq_none_iff.mp hp
      refine ⟨hne, ?_, ?_⟩
      · intro c hc
        have := (mem_roots hwf c).mpr hc
        rw [hq] at this
        cases this
      · unfold finalize_monfactions at hr
        rw [if_neg hne] at hr
        simp only [scan_loop_eq, scan_locals_queue, List.nil_append, hq,
          Option.some.injEq] at hr
        exact hr.symm
    | some root =>
      right
      have hle : fuel ≤ max fuel reg.faction_list.length := Nat.le_max_left _ _
      have hr2 := finalize_mono hr hle
      obtain ⟨flF, u, hfin, hspec, _⟩ :=
        finalize_spec reg hwf root hp (max fuel reg.faction_list.length) (Nat.le_max_right _ _)
      rw [hfin] at hr2
      simp only [Option.some.injEq] at hr2
      exact ⟨root, flF, u, rfl, hr2.symm, hspec⟩

theorem RegWF_of_records {reg : Registry} (h : RegWF reg) {flF : List monfaction}
    (hlen : flF.length = reg.faction_list.length)
    (hrec : ∀ c m, fget reg.faction_list c = some m →
      ∃ mF, fget flF c = some mF ∧ mF.name = m.name ∧ mF.id = m.id ∧
        -1 ≤ mF.base_faction ∧ mF.base_faction < (reg.faction_list.length : Int)) :
    RegWF { reg with faction_list := flF } := by
  obtain ⟨h1, h2, h3, h4⟩ := h
  have key : ∀ (i : Nat) (mF : monfaction), flF[i]? = some mF →
      ∃ m, reg.faction_list[i]? = some m ∧ mF.name = m.name ∧ mF.id = m.id ∧
        -1 ≤ mF.base_faction ∧ mF.base_faction < (reg.faction_list.length : Int) := by
    intro i mF hi
    have hlt : i < reg.faction_list.length := by
      rw [← hlen]
      exact (List.getElem?_eq_some_iff.mp hi).1
    have hm : reg.faction_list[i]? = some (reg.faction_list[i]) := List.getElem?_eq_getElem hlt
    have hm2 : fget reg.faction_list (i : Int) = some (reg.faction_list[i]) := by
      rw [fget_natCast]
      exact hm
    obtain ⟨mF2, g1, g2, g3, g4, g5⟩ := hrec _ _ hm2
    rw [fget_natCast, hi] at g1
    cases g1
    exact ⟨_, hm, g2, g3, g4, g5⟩
  refine ⟨by simp only; rw [h1, hlen], ?_, ?_, ?_⟩
  · intro i mF hi
    obtain ⟨m, hm, _, g3, g4, g5⟩ := key i mF hi
    simp only at hi ⊢
    rw [hlen]
    exact ⟨by rw [g3]; exact (h2 i m hm).1, g4, g5⟩
  · intro i mF hi
    obtain ⟨m, hm, g2, _⟩ := key i mF hi
    simp only
    rw [g2]
    exact h3 i m hm
  · intro name id hf
    obtain ⟨m, hm, hn⟩ := h4 name id hf
    obtain ⟨mF, g1, g2, _⟩ := hrec _ _ hm
    exact ⟨mF, g1, by rw [g2, hn]⟩

theorem RegWF_finalize {reg : Registry} (h : RegWF reg) {fuel : Nat}
    {r : Registry × List debugmsg} (hr : finalize_monfactions fuel reg = some r) :
    RegWF r.1 := by
  rcases finalize_cases h.2.1 hr with ⟨_, rfl⟩ | ⟨_, _, rfl⟩ | ⟨root, flF, u, hp, rfl, hs⟩
  · exact h
  · apply RegWF_of_records h (by simp)
    intro c m hm
    refine ⟨scan_faction m, ?_, scan_faction_name m, scan_faction_id m, ?_⟩
    · rw [fget_map, hm]
      rfl
    · rw [scan_faction_base m]
      exact (ListWF_fget h.2.1 hm).2
  · apply RegWF_of_records h hs.length_eq
    intro c m hm
    obtain ⟨mF, g1, g2, g3, _⟩ := hs.records c m hm
    obtain ⟨_, g4, g5⟩ := final_base_valid h.2.1 hs c mF g1
    rw [hs.length_eq] at g5
    exact ⟨mF, g1, g2, g3, by omega, g5⟩

theorem finalize_map {reg : Registry} (h : RegWF reg) {fuel : Nat}
    {r : Registry × List debugmsg} (hr : finalize_monfactions fuel reg = some r) :
    r.1.faction_map = reg.faction_map ∧ r.1.faction_list.length = reg.faction_list.length := by
  rcases finalize_cases h.2.1 hr with ⟨_, rfl⟩ | ⟨_, _, rfl⟩ | ⟨root, flF, u, hp, rfl, hs⟩
  · exact ⟨rfl, rfl⟩
  · exact ⟨rfl, by simp⟩
  · exact ⟨rfl, hs.length_eq⟩

/-! ## Invariants of the reachable registries -/

theorem EntWF_empty : EntWF Registry.empty := by
  intro m hm
  simp [Registry.empty] at hm

theorem EntWF_get_or_add (reg : Registry) (he : EntWF reg) (n : String) :
    EntWF (get_or_add_faction reg n).1 := by
  cases hf : assoc_find reg.faction_map n with
  | some id => rw [get_or_add_faction_known hf]; exact he
  | none =>
    rw [get_or_add_faction_fresh hf]
    intro m hm p hp
    simp only [List.mem_append, List.mem_singleton] at hm
    simp only [List.length_append, List.length_singleton]
    rcases hm with hm | hm
    · obtain ⟨g1, g2, g3⟩ := he m hm p hp
      exact ⟨g1, by push_cast; omega, g3⟩
    · rw [hm] at hp
      simp at hp

theorem EntWF_set_base (reg : Registry) (he : EntWF reg) (i b : Int) :
    EntWF ⟨reg.faction_map,
      modify_faction reg.faction_list i (fun f => { f with base_faction := b })⟩ := by
  unfold EntWF
  simp only [modify_faction_length]
  exact entries_ok_modify he _ _ (fun m0 hm0 p hp => he m0 hm0 p hp)

theorem EntWF_set_att (reg : Registry) (he : EntWF reg) (i k0 : Int) (v : mf_attitude)
    (hk0 : 0 ≤ k0 ∧ k0 < (reg.faction_list.length : Int)) (hv : v ≠ MFA_HOSTILE) :
    EntWF ⟨reg.faction_map, modify_faction reg.faction_list i
        (fun f => { f with attitude_map := assoc_set f.attitude_map k0 v })⟩ := by
  unfold EntWF
  simp only [modify_faction_length]
  apply entries_ok_modify he
  intro m0 hm0 p hp
  rcases mem_assoc_set _ _ _ _ hp with h1 | h1
  · exact he m0 hm0 p h1
  · rw [h1]
    exact ⟨hk0.1, hk0.2, hv⟩

theorem EntWF_add_to_attitude_map_ix (keys : List String) (i : Int) (v : mf_attitude)
    (hv : v ≠ MFA_HOSTILE) (reg : Registry) (h : RegWF reg) (he : EntWF reg) :
    EntWF (add_to_attitude_map_ix keys i v reg) := by
  induction keys generalizing reg with
  | nil => exact he
  | cons k keys ih =>
    rw [add_to_attitude_map_ix_cons]
    have h1 := RegWF_get_or_add reg h k
    have he1 := EntWF_get_or_add reg he k
    obtain ⟨mk, hmk, _⟩ := get_or_add_faction_valid reg h k
    obtain ⟨k0, k1, _⟩ := fget_eq_some hmk
    exact ih _ (RegWF_set_att _ h1 i (get_or_add_faction reg k).2 v)
      (EntWF_set_att _ he1 i (get_or_add_faction reg k).2 v ⟨k0, k1⟩ hv)

theorem EntWF_load (reg : Registry) (h : RegWF reg) (he : EntWF reg) (jo : JsonObject) :
    EntWF (load_monster_faction_ix reg jo) := by
  unfold load_monster_faction_ix
  have h1 := RegWF_get_or_add reg h jo.name
  have h2 := RegWF_get_or_add _ h1 (jo.base_faction.getD "")
  have he2 := EntWF_get_or_add _ (EntWF_get_or_add reg he jo.name) (jo.base_faction.getD "")
  obtain ⟨mb, hb, _⟩ := get_or_add_faction_valid _ h1 (jo.base_faction.getD "")
  obtain ⟨hb0, hb1, _⟩ := fget_eq_some hb
  have h3 := RegWF_modify _ h2 (get_or_add_faction reg jo.name).2
    (fun f => { f with base_faction :=
      (get_or_add_faction (get_or_add_faction reg jo.name).1 (jo.base_faction.getD "")).2 })
    (fun m _ => ⟨rfl, rfl, by simp only; omega, by simp only; omega⟩)
  have he3 := EntWF_set_base _ he2 (get_or_add_faction reg jo.name).2
    (get_or_add_faction (get_or_add_faction reg jo.name).1 (jo.base_faction.getD "")).2
  have h4 := RegWF_add_to_attitude_map_ix jo.by_mood (get_or_add_faction reg jo.name).2
    MFA_BY_MOOD _ h3
  have he4 := EntWF_add_to_attitude_map_ix jo.by_mood (get_or_add_faction reg jo.name).2
    MFA_BY_MOOD (by decide) _ h3 he3
  have h5 := RegWF_add_to_attitude_map_ix jo.neutral (get_or_add_faction reg jo.name).2
    MFA_NEUTRAL _ h4
  have he5 := EntWF_add_to_attitude_map_ix jo.neutral (get_or_add_faction reg jo.name).2
    MFA_NEUTRAL (by decide) _ h4 he4
  exact EntWF_add_to_attitude_map_ix jo.friendly (get_or_add_faction reg jo.name).2
    MFA_FRIENDLY (by decide) _ h5 he5

theorem EntWF_finalize {reg : Registry} (h : RegWF reg) (he : EntWF reg) {fuel : Nat}
    {r : Registry × List debugmsg} (hr : finalize_monfactions fuel reg = some r) :
    EntWF r.1 := by
  unfold EntWF
  rw [(finalize_map h hr).2]
  apply entries_ok_finalize hr he
  intro m hm
  have hm2 := ListWF_mem h.2.1 hm
  obtain ⟨g0, g1, _⟩ := fget_eq_some hm2
  exact ⟨g0, g1, fun e => by cases e⟩

theorem Reachable_inv {reg : Registry} (h : Reachable reg) : RegWF reg ∧ EntWF reg := by
  induction h with
  | empty => exact ⟨RegWF_empty, EntWF_empty⟩
  | add reg name _ ih => exact ⟨RegWF_get_or_add reg ih.1 name, EntWF_get_or_add reg ih.2 name⟩
  | load reg jo _ ih => exact ⟨RegWF_load reg ih.1 jo, EntWF_load reg ih.1 ih.2 jo⟩
  | finalize reg fuel regF msgs _ hfin ih =>
    exact ⟨RegWF_finalize ih.1 hfin, EntWF_finalize ih.1 ih.2 hfin⟩

theorem EntWF_AttWF {reg : Registry} (he : EntWF reg) : AttWF reg := by
  intro i m hi k a hk
  have hm : m ∈ reg.faction_list := List.mem_iff_getElem?.mpr ⟨i, hi⟩
  obtain ⟨g1, g2, _⟩ := he m hm (k, a) (assoc_find_mem _ _ _ hk)
  exact ⟨g1, g2⟩

theorem Loaded_Reachable {reg : Registry} (h : Loaded reg) : Reachable reg := by
  induction h with
  | empty => exact Reachable.empty
  | add reg name _ ih => exact Reachable.add reg name ih
  | load reg jo _ ih => exact Reachable.load reg jo ih

theorem run_op_Reachable {reg reg2 : Registry} (h : Reachable reg) (op : Op)
    (hr : run_op reg op = some reg2) : Reachable reg2 := by
  cases op with
  | add n =>
    simp only [run_op, Option.some.injEq] at hr
    rw [← hr]
    exact Reachable.add reg n h
  | load jo =>
    simp only [run_op, Option.some.injEq] at hr
    rw [← hr]
    exact Reachable.load reg jo h
  | finalize fuel =>
    simp only [run_op] at hr
    split at hr
    · rename_i reg3 msgs hfin
      simp only [Option.some.injEq] at hr
      rw [← hr]
      exact Reachable.finalize reg fuel reg3 msgs h hfin
    · cases hr

theorem run_ops_Reachable (ops : List Op) {reg reg2 : Registry} (h : Reachable reg)
    (hr : run_ops ops reg = some reg2) : Reachable reg2 := by
  induction ops generalizing reg with
  | nil =>
    simp only [run_ops, Option.some.injEq] at hr
    rw [← hr]
    exact h
  | cons op ops ih =>
    rw [run_ops] at hr
    cases h1 : run_op reg op with
    | none => rw [h1] at hr; cases hr
    | some reg1 =>
      rw [h1] at hr
      exact ih (run_op_Reachable h op h1) hr

theorem simple_inheritance_reachable : Reachable simple_inheritance_registry :=
  Reachable.finalize (load_all_ix Registry.empty simple_inheritance) 3 simple_inheritance_registry []
    (Loaded_Reachable (Loaded_load_all_ix Loaded.empty simple_inheritance)) rfl

theorem add_to_attitude_map_ix_index (keys : List String) (i : Int) (v : mf_attitude)
    (reg : Registry) (d : List String) (h : reg.faction_map = index_from 0 d) :
    (add_to_attitude_map_ix keys i v reg).faction_map = index_from 0 (keys.foldl note_name d) := by
  induction keys generalizing reg d with
  | nil => exact h
  | cons k keys ih =>
    rw [add_to_attitude_map_ix_cons, List.foldl_cons]
    exact ih _ _ (get_or_add_index_from reg d k h).1

theorem load_index (reg : Registry) (jo : JsonObject) (d : List String)
    (h : reg.faction_map = index_from 0 d) :
    (load_monster_faction_ix reg jo).faction_map =
      index_from 0 ((op_names (Op.load jo)).foldl note_name d) := by
  unfold load_monster_faction_ix
  simp only [op_names, List.foldl_cons, List.foldl_append]
  apply add_to_attitude_map_ix_index
  apply add_to_attitude_map_ix_index
  apply add_to_attitude_map_ix_index
  exact (get_or_add_index_from _ _ _ (get_or_add_index_from reg d jo.name h).1).1

theorem run_op_RegWF {reg reg2 : Registry} (h : RegWF reg) (op : Op)
    (hr : run_op reg op = some reg2) : RegWF reg2 := by
  cases op with
  | add n =>
    simp only [run_op, Option.some.injEq] at hr
    rw [← hr]
    exact RegWF_get_or_add reg h n
  | load jo =>
    simp only [run_op, Option.some.injEq] at hr
    rw [← hr]
    exact RegWF_load reg h jo
  | finalize fuel =>
    simp only [run_op] at hr
    split at hr
    · rename_i reg3 msgs hfin
      simp only [Option.some.injEq] at hr
      rw [← hr]
      exact RegWF_finalize h hfin
    · cases hr

theorem run_op_index {reg reg2 : Registry} (h : RegWF reg) (op : Op) (d : List String)
    (hd : reg.faction_map = index_from 0 d) (hr : run_op reg op = some reg2) :
    reg2.faction_map = index_from 0 ((op_names op).foldl note_name d) := by
  cases op with
  | add n =>
    simp only [run_op, Option.some.injEq] at hr
    rw [← hr]
    exact (get_or_add_index_from reg d n hd).1
  | load jo =>
    simp only [run_op, Option.some.injEq] at hr
    rw [← hr]
    exact load_index reg jo d hd
  | finalize fuel =>
    simp only [run_op] at hr
    split at hr
    · rename_i reg3 msgs hfin
      simp only [Option.some.injEq] at hr
      rw [← hr]
      have := (finalize_map h hfin).1
      simp only at this
      rw [this]
      exact hd
    · cases hr

theorem run_ops_index (ops : List Op) {reg reg2 : Registry} (h : RegWF reg) (d : List String)
    (hd : reg.faction_map = index_from 0 d) (hr : run_ops ops reg = some reg2) :
    reg2.faction_map = index_from 0 ((ops_names ops).foldl note_name d) := by
  induction ops generalizing reg d with
  | nil =>
    simp only [run_ops, Option.some.injEq] at hr
    rw [← hr]
    exact hd
  | cons op ops ih =>
    rw [run_ops] at hr
    cases h1 : run_op reg op with
    | none => rw [h1] at hr; cases hr
    | some reg1 =>
      rw [h1] at hr
      simp only [ops_names, List.foldl_append]
      exact ih (run_op_RegWF h op h1) _ (run_op_index h op d hd h1) hr

theorem attitude_value (fl : List monfaction) (self : monfaction) (fuel : Nat) (t : Int)
    (a : mf_attitude) (msgs : List debugmsg) (h : attitude fl fuel self t = some (a, msgs)) :
    a = MFA_FRIENDLY ∨ ∃ k, (k, a) ∈ self.attitude_map := by
  induction fuel generalizing t msgs with
  | zero => simp [attitude] at h
  | succ n ih =>
    rw [attitude] at h
    cases hf : assoc_find self.attitude_map t with
    | some a0 =>
      rw [hf] at h
      simp only [Option.some.injEq, Prod.mk.injEq] at h
      right
      exact ⟨t, h.1 ▸ assoc_find_mem _ _ _ hf⟩
    | none =>
      rw [hf] at h
      simp only at h
      cases ho : obj fl n t with
      | none => rw [ho] at h; cases h
      | some o =>
        rw [ho] at h
        simp only at h
        by_cases hb : t ≠ o.1.base_faction
        · rw [if_pos hb] at h
          cases ha : attitude fl n self o.1.base_faction with
          | none => rw [ha] at h; cases h
          | some r =>
            obtain ⟨a1, m1⟩ := r
            rw [ha] at h
            simp only [Option.some.injEq, Prod.mk.injEq] at h
            obtain ⟨h1, _⟩ := h
            subst h1
            exact ih _ _ ha
        · rw [if_neg hb] at h
          simp only [Option.some.injEq, Prod.mk.injEq] at h
          left
          exact h.1.symm

theorem load_base_registered (reg : Registry) (h : RegWF reg) (ha : AttWF reg)
    (jo : JsonObject) :
    ∃ s k ms, assoc_find (load_monster_faction_ix reg jo).faction_map jo.name = some s ∧
      assoc_find (load_monster_faction_ix reg jo).faction_map (jo.base_faction.getD "") = some k ∧
      fget (load_monster_faction_ix reg jo).faction_list s = some ms ∧ ms.base_faction = k := by
  have hwf := RegWF_load reg h jo
  have hobs := (observe_load reg h ha jo).1
  have hb : (observe (load_monster_faction_ix reg jo)).base jo.name =
      some (jo.base_faction.getD "") := by
    rw [hobs, Obs.load_base, if_pos rfl]
  simp only [observe] at hb
  cases hs : assoc_find (load_monster_faction_ix reg jo).faction_map jo.name with
  | none => rw [hs] at hb; cases hb
  | some s =>
    rw [hs] at hb
    simp only at hb
    cases hm : fget (load_monster_faction_ix reg jo).faction_list s with
    | none => rw [hm] at hb; cases hb
    | some ms =>
      rw [hm] at hb
      simp only at hb
      by_cases hneg : ms.base_faction < 0
      · rw [if_pos hneg] at hb; cases hb
      · rw [if_neg hneg] at hb
        simp only [Option.some.injEq] at hb
        obtain ⟨_, _, g3⟩ := ListWF_fget hwf.2.1 hm
        obtain ⟨mb, hmb⟩ := fget_of_range (by omega) g3
        have hname := name_of_fget hmb
        rw [hb] at hname
        have hfind := RegWF_find_name hwf hmb
        rw [← hname] at hfind
        exact ⟨s, ms.base_faction, ms, rfl, hfind, hm, rfl⟩

/-! ## The order of the traversal -/

theorem children_loop_unloaded (fuel : Nat) (cur : Int) (ch : List (Int × Int))
    (st st2 : bfs_state) (h : children_loop fuel cur ch st = some st2) :
    st2.unloaded = st.unloaded := by
  induction ch generalizing st with
  | nil =>
    simp only [children_loop, Option.some.injEq] at h
    rw [← h]
  | cons it rest ih =>
    rw [children_loop] at h
    cases ha : apply_base_faction fuel st.faction_list cur it.2 with
    | none => rw [ha] at h; cases h
    | some a =>
      rw [ha] at h
      have h2 := ih _ h
      exact h2

theorem bfs_order_spec {fl2 : List monfaction} {cm : List (Int × Int)} (ctx : bfs_ctx fl2 cm)
    (dfuel : Nat) :
    ∀ (fuel : Nat) (st : bfs_state), bfs_inv fl2 st → st.unloaded.length ≤ fuel →
      ∃ order, bfs_order (dfuel + 1) cm fuel st = some order ∧ order.Nodup ∧
        ∀ x, x ∈ order → x ∈ st.unloaded := by
  intro fuel
  induction fuel with
  | zero =>
    intro st inv hlen
    have hu : st.unloaded = [] := List.length_eq_zero.mp (by omega)
    have hq : st.queue = [] := by
      cases hq : st.queue with
      | nil => rfl
      | cons q rest =>
        have := inv.queue_unloaded q (by rw [hq]; simp)
        rw [hu] at this
        cases this
    exact ⟨[], by simp [bfs_order, hq], List.nodup_nil, fun x hx => by cases hx⟩
  | succ fuel ih =>
    intro st inv hlen
    cases hq : st.queue with
    | nil => exact ⟨[], by simp [bfs_order, hq], List.nodup_nil, fun x hx => by cases hx⟩
    | cons cur rest =>
      obtain ⟨hcuru, st2, hst2, inv2, hlt⟩ := bfs_step ctx inv hq dfuel
      have hun := children_loop_unloaded _ _ _ _ _ hst2
      simp only at hun
      obtain ⟨order, ho, hnd, hmem⟩ := ih st2 inv2 (by omega)
      refine ⟨cur :: order, ?_, ?_, ?_⟩
      · rw [bfs_order, hq]
        simp only [if_pos hcuru, hst2, ho]
      · rw [List.nodup_cons]
        refine ⟨?_, hnd⟩
        intro hc
        have := hmem cur hc
        rw [hun] at this
        simp at this
      · intro x hx
        rcases List.mem_cons.mp hx with e | hx2
        · rw [e]; exact hcuru
        · have := hmem x hx2
          rw [hun] at this
          exact (List.mem_filter.mp this).1

theorem finalize_order_spec {fl : List monfaction} (hwf : ListWF fl) {root : Int}
    (hroot : primary_root fl = some root) (fuel : Nat) (hfuel : fl.length ≤ fuel) :
    ∃ order, finalize_order fuel fl root = some order ∧ order.Nodup := by
  have hsp := primary_root_spec hwf hroot
  have hq := hroot
  rw [primary_root_eq, List.head?_eq_some_iff] at hq
  obtain ⟨rest, hq⟩ := hq
  have hne : fl ≠ [] := by
    intro e
    rw [e] at hq
    cases hq
  have hlen : 0 < fl.length := List.length_pos.mpr hne
  obtain ⟨f, rfl⟩ : ∃ f, fuel = f + 1 := ⟨fuel - 1, by omega⟩
  have ctx := finalize_ctx hwf hsp.1
  have inv0 := finalize_inv hwf hsp.1
  rw [hq] at inv0
  have hlen0 : (fl.foldl (fun u m => set_insert u m.id) []).length ≤ f + 1 := by
    have := foldl_set_insert_length fl []
    simp only [List.length_nil, Nat.zero_add] at this
    omega
  obtain ⟨order, ho, hnd, _⟩ := bfs_order_spec ctx f (f + 1) _ inv0 hlen0
  refine ⟨order, ?_, hnd⟩
  unfold finalize_order
  simp only [scan_loop_eq, adopt_loop_eq, scan_locals_queue, scan_locals_child_map,
    scan_locals_unloaded, List.nil_append, hq]
  exact ho

/-! ## The length of the parent chains of a forest -/

theorem parent_chain_add (fl : List monfaction) (a b : Nat) (c : Int) :
    parent_chain fl (a + b) c = parent_chain fl b (parent_chain fl a c) := by
  induction a generalizing c with
  | zero => simp [parent_chain]
  | succ a ih =>
    have : a + 1 + b = (a + b) + 1 := by omega
    rw [this, parent_chain, ih, parent_chain]

theorem parent_chain_valid {fl : List monfaction}
    (hbase : ∀ c m, fget fl c = some m → ∃ mp, fget fl m.base_faction = some mp)
    (n : Nat) (c : Int) (hc : ∃ m, fget fl c = some m) :
    ∃ m, fget fl (parent_chain fl n c) = some m := by
  induction n generalizing c with
  | zero => exact hc
  | succ n ih =>
    obtain ⟨m, hm⟩ := hc
    rw [parent_chain, base_of_fget hm]
    exact ih _ (hbase c m hm)

theorem parent_chain_short {fl : List monfaction}
    (hbase : ∀ c m, fget fl c = some m → ∃ mp, fget fl m.base_faction = some mp)
    (c : Int) (hc : ∃ m, fget fl c = some m) (hr : reaches_root fl c) :
    ∃ n, n + 1 ≤ fl.length ∧ self_parented fl (parent_chain fl n c) := by
  classical
  obtain ⟨n, hroot, hmin⟩ : ∃ n, self_parented fl (parent_chain fl n c) ∧
      ∀ i, i < n → ¬ self_parented fl (parent_chain fl i c) :=
    ⟨Nat.find hr, Nat.find_spec hr, fun i hi => Nat.find_min hr hi⟩
  refine ⟨n, ?_, hroot⟩
  have hfix : ∀ k, parent_chain fl (n + k) c = parent_chain fl n c := by
    intro k
    rw [parent_chain_add]
    exact parent_chain_fixed fl _ (self_parented_base_of hroot) k
  have hinj : ∀ i j, i < j → j ≤ n → parent_chain fl i c ≠ parent_chain fl j c := by
    intro i j hij hjn heq
    have hper : ∀ k, parent_chain fl (i + k * (j - i)) c = parent_chain fl i c := by
      intro k
      induction k with
      | zero => simp
      | succ k ih =>
        have e : i + (k + 1) * (j - i) = (i + k * (j - i)) + (j - i) := by ring
        rw [e, parent_chain_add, ih, ← parent_chain_add]
        have e2 : i + (j - i) = j := by omega
        rw [e2]
        exact heq.symm
    have hge : n ≤ i + n * (j - i) := by
      have : 1 ≤ j - i := by omega
      nlinarith
    have h1 := hfix (i + n * (j - i) - n)
    have e3 : n + (i + n * (j - i) - n) = i + n * (j - i) := by omega
    rw [e3, hper n] at h1
    apply hmin i (by omega)
    rw [h1]
    exact hroot
  have hval : ∀ i, 0 ≤ parent_chain fl i c ∧ parent_chain fl i c < (fl.length : Int) := by
    intro i
    obtain ⟨m, hm⟩ := parent_chain_valid hbase i c hc
    obtain ⟨h0, h1, _⟩ := fget_eq_some hm
    exact ⟨h0, h1⟩
  have hcard := Fintype.card_le_of_injective
    (fun i : Fin (n + 1) => (⟨(parent_chain fl i.1 c).toNat, by
      have := hval i.1
      omega⟩ : Fin fl.length))
    (by
      intro i j hij
      simp only [Fin.mk.injEq] at hij
      have hi := hval i.1
      have hj := hval j.1
      have heq : parent_chain fl i.1 c = parent_chain fl j.1 c := by omega
      apply Fin.ext
      by_contra hne
      rcases Nat.lt_or_gt_of_ne hne with hlt | hgt
      · exact hinj i.1 j.1 hlt (by omega) heq
      · exact hinj j.1 i.1 hgt (by omega) heq.symm)
  simpa using hcard

theorem attitude_terminates_valid {fl : List monfaction} (self : monfaction) :
    ∀ (n : Nat) (t : Int), (∀ i, i ≤ n → ∃ m, fget fl (parent_chain fl i t) = some m) →
      self_parented fl (parent_chain fl n t) →
      ∀ fuel, ∃ r, attitude fl (fuel + n + 2) self t = some r := by
  intro n
  induction n with
  | zero =>
    intro t _ hroot fuel
    obtain ⟨m, hm, hb⟩ := hroot
    simp only [parent_chain] at hm hb
    rw [Nat.add_zero, attitude]
    cases hf : assoc_find self.attitude_map t with
    | some a => exact ⟨_, rfl⟩
    | none =>
      simp only
      rw [obj_of_fget hm fuel]
      simp only
      have : ¬ t ≠ m.base_faction := fun e => e hb.symm
      rw [if_neg this]
      exact ⟨_, rfl⟩
  | succ n ih =>
    intro t hval hroot fuel
    obtain ⟨m, hm⟩ := hval 0 (by omega)
    simp only [parent_chain] at hm
    have e : fuel + (n + 1) + 2 = (fuel + n + 2) + 1 := by omega
    rw [e, attitude]
    cases hf : assoc_find self.attitude_map t with
    | some a => exact ⟨_, rfl⟩
    | none =>
      simp only
      rw [obj_of_fget hm (fuel + n + 1)]
      simp only
      by_cases hb : t ≠ m.base_faction
      · rw [if_pos hb]
        have hval2 : ∀ i, i ≤ n → ∃ m2, fget fl (parent_chain fl i m.base_faction) = some m2 := by
          intro i hi
          have := hval (i + 1) (by omega)
          rw [parent_chain, base_of_fget hm] at this
          exact this
        have hroot2 : self_parented fl (parent_chain fl n m.base_faction) := by
          rw [parent_chain, base_of_fget hm] at hroot
          exact hroot
        obtain ⟨r, hr⟩ := ih m.base_faction hval2 hroot2 fuel
        rw [hr]
        exact ⟨_, rfl⟩
      · rw [if_neg hb]
        exact ⟨_, rfl⟩

theorem finalize_returns {reg : Registry} (hwf : ListWF reg.faction_list) (fuel : Nat)
    (hfuel : reg.faction_list.length ≤ fuel) : ∃ r, finalize_monfactions fuel reg = some r := by
  by_cases hne : reg.faction_list = []
  · unfold finalize_monfactions
    rw [if_pos hne]
    exact ⟨_, rfl⟩
  · cases hp : primary_root reg.faction_list with
    | none =>
      have hq : (reg.faction_list.filter (fun m => m.id = m.base_faction)).map (fun m => m.id)
          = [] := by
        rw [primary_root_eq] at hp
        exact List.head?_eq_none_iff.mp hp
      unfold finalize_monfactions
      rw [if_neg hne]
      simp only [scan_loop_eq, scan_locals_queue, List.nil_append, hq]
      exact ⟨_, rfl⟩
    | some root =>
      obtain ⟨flF, u, hfin, _⟩ := finalize_spec reg hwf root hp fuel hfuel
      exact ⟨_, hfin⟩

/-! ## The loader and its reading by index -/

theorem get_or_add_faction_same_length (reg : Registry) (k : String) :
    (get_or_add_faction reg k).1.faction_list.length = reg.faction_list.length ↔
      is_valid reg k = true := by
  unfold is_valid
  cases hf : assoc_find reg.faction_map k with
  | some id =>
    rw [get_or_add_faction_known hf]
    simp
  | none =>
    rw [get_or_add_faction_fresh hf]
    simp

theorem get_or_add_faction_of_valid {reg : Registry} {k : String}
    (h : is_valid reg k = true) : (get_or_add_faction reg k).1 = reg := by
  unfold is_valid at h
  cases hf : assoc_find reg.faction_map k with
  | some id => rw [get_or_add_faction_known hf]
  | none => rw [hf] at h; cases h

theorem add_to_attitude_map_eq_ix (keys : List String) (i : Int) (v : mf_attitude)
    (reg r : Registry) (h : add_to_attitude_map keys i v reg = some r) :
    r = add_to_attitude_map_ix keys i v reg := by
  induction keys generalizing reg with
  | nil =>
    simp only [add_to_attitude_map, Option.some.injEq] at h
    rw [← h]
    rfl
  | cons k keys ih =>
    rw [add_to_attitude_map] at h
    simp only at h
    split at h
    · rw [add_to_attitude_map_ix]
      exact ih _ h
    · cases h

theorem add_to_attitude_map_map (keys : List String) (i : Int) (v : mf_attitude)
    (reg r : Registry) (h : add_to_attitude_map keys i v reg = some r) :
    r.faction_map = reg.faction_map ∧ ∀ k, k ∈ keys → is_valid reg k = true := by
  induction keys generalizing reg with
  | nil =>
    simp only [add_to_attitude_map, Option.some.injEq] at h
    rw [← h]
    exact ⟨rfl, fun k hk => by cases hk⟩
  | cons k keys ih =>
    rw [add_to_attitude_map] at h
    simp only at h
    split at h
    · rename_i hlen
      have hv := (get_or_add_faction_same_length reg k).mp hlen
      have he := get_or_add_faction_of_valid hv
      obtain ⟨g1, g2⟩ := ih _ h
      simp only [he] at g1 g2
      refine ⟨g1, ?_⟩
      intro k2 hk2
      rcases List.mem_cons.mp hk2 with e | hk3
      · rw [e]; exact hv
      · exact g2 k2 hk3
    · cases h

theorem add_to_attitude_map_defined (keys : List String) (i : Int) (v : mf_attitude)
    (reg : Registry) (h : ∀ k, k ∈ keys → is_valid reg k = true) :
    add_to_attitude_map keys i v reg = some (add_to_attitude_map_ix keys i v reg) := by
  induction keys generalizing reg with
  | nil => rfl
  | cons k keys ih =>
    have hv := h k (List.mem_cons_self _ _)
    have hlen := (get_or_add_faction_same_length reg k).mpr hv
    have he := get_or_add_faction_of_valid hv
    rw [add_to_attitude_map, add_to_attitude_map_ix]
    simp only [hlen, if_true]
    apply ih
    intro k2 hk2
    have := h k2 (List.mem_cons_of_mem _ hk2)
    simp only [he]
    exact this

theorem load_monster_faction_eq_ix {reg r : Registry} {jo : JsonObject}
    (h : load_monster_faction reg jo = some r) : r = load_monster_faction_ix reg jo := by
  unfold load_monster_faction at h
  simp only at h
  split at h
  · split at h
    · cases h
    · rename_i reg4 h4
      split at h
      · cases h
      · rename_i reg5 h5
        unfold load_monster_faction_ix
        simp only
        rw [← add_to_attitude_map_eq_ix _ _ _ _ _ h4, ← add_to_attitude_map_eq_ix _ _ _ _ _ h5]
        exact add_to_attitude_map_eq_ix _ _ _ _ _ h
  · cases h

theorem load_monster_faction_names {reg r : Registry} {jo : JsonObject}
    (h : load_monster_faction reg jo = some r) :
    r.faction_map = (get_or_add_faction reg jo.name).1.faction_map ∧
    is_valid (get_or_add_faction reg jo.name).1 (jo.base_faction.getD "") = true ∧
    ∀ t, t ∈ jo.by_mood ++ jo.neutral ++ jo.friendly →
      is_valid (get_or_add_faction reg jo.name).1 t = true := by
  unfold load_monster_faction at h
  simp only at h
  split at h
  · rename_i hlen
    have hv := (get_or_add_faction_same_length _ _).mp hlen
    have he := get_or_add_faction_of_valid hv
    split at h
    · cases h
    · rename_i reg4 h4
      split at h
      · cases h
      · rename_i reg5 h5
        obtain ⟨a1, a2⟩ := add_to_attitude_map_map _ _ _ _ _ h4
        obtain ⟨b1, b2⟩ := add_to_attitude_map_map _ _ _ _ _ h5
        obtain ⟨c1, c2⟩ := add_to_attitude_map_map _ _ _ _ _ h
        simp only [he] at a1 a2
        have e4 : ∀ t, is_valid reg4 t = is_valid (get_or_add_faction reg jo.name).1 t := by
          intro t
          unfold is_valid
          rw [a1]
        have e5 : ∀ t, is_valid reg5 t = is_valid (get_or_add_faction reg jo.name).1 t := by
          intro t
          unfold is_valid
          rw [b1, a1]
        refine ⟨by rw [c1, b1, a1], hv, ?_⟩
        intro t ht
        simp only [List.mem_append] at ht
        rcases ht with (ht | ht) | ht
        · exact a2 t ht
        · rw [← e4]; exact b2 t ht
        · rw [← e5]; exact c2 t ht
  · cases h

theorem load_monster_faction_defined (reg : Registry) (jo : JsonObject)
    (hb : is_valid (get_or_add_faction reg jo.name).1 (jo.base_faction.getD "") = true)
    (ht : ∀ t, t ∈ jo.by_mood ++ jo.neutral ++ jo.friendly →
      is_valid (get_or_add_faction reg jo.name).1 t = true) :
    load_monster_faction reg jo = some (load_monster_faction_ix reg jo) := by
  have hlen := (get_or_add_faction_same_length _ _).mpr hb
  have he := get_or_add_faction_of_valid hb
  have key : ∀ (keys : List String) (i : Int) (v : mf_attitude) (reg2 : Registry),
      reg2.faction_map = (get_or_add_faction reg jo.name).1.faction_map →
      (∀ t, t ∈ keys → is_valid (get_or_add_faction reg jo.name).1 t = true) →
      add_to_attitude_map keys i v reg2 = some (add_to_attitude_map_ix keys i v reg2) ∧
      (add_to_attitude_map_ix keys i v reg2).faction_map =
        (get_or_add_faction reg jo.name).1.faction_map := by
    intro keys i v reg2 hmap hk
    have hd := add_to_attitude_map_defined keys i v reg2 (fun k hk2 => by
      unfold is_valid
      rw [hmap]
      exact hk k hk2)
    exact ⟨hd, by rw [(add_to_attitude_map_map _ _ _ _ _ hd).1, hmap]⟩
  unfold load_monster_faction load_monster_faction_ix
  simp only [hlen, if_true]
  obtain ⟨k1, m1⟩ := key jo.by_mood (get_or_add_faction reg jo.name).2 MFA_BY_MOOD
    ⟨(get_or_add_faction (get_or_add_faction reg jo.name).1
        (jo.base_faction.getD "")).1.faction_map,
      modify_faction (get_or_add_faction (get_or_add_faction reg jo.name).1
        (jo.base_faction.getD "")).1.faction_list (get_or_add_faction reg jo.name).2
        (fun f => { f with base_faction :=
          (get_or_add_faction (get_or_add_faction reg jo.name).1
            (jo.base_faction.getD "")).2 })⟩
    (by simp only [he]) (fun t h => ht t (by simp [h]))
  rw [k1]
  simp only
  obtain ⟨k2, m2⟩ := key jo.neutral (get_or_add_faction reg jo.name).2 MFA_NEUTRAL _ m1
    (fun t h => ht t (by simp [h]))
  rw [k2]
  simp only
  exact (key jo.friendly (get_or_add_faction reg jo.name).2 MFA_FRIENDLY _ m2
    (fun t h => ht t (by simp [h]))).1

theorem load_all_eq_ix (jos : List JsonObject) (reg r : Registry)
    (h : load_all reg jos = some r) : r = load_all_ix reg jos := by
  induction jos generalizing reg with
  | nil =>
    simp only [load_all, Option.some.injEq] at h
    rw [← h]
    rfl
  | cons jo jos ih =>
    rw [load_all] at h
    split at h
    · cases h
    · rename_i reg2 h2
      rw [load_monster_faction_eq_ix h2] at h
      simp only [load_all_ix, List.foldl_cons]
      exact ih _ h

theorem Loaded_load {reg r : Registry} {jo : JsonObject} (hl : Loaded reg)
    (h : load_monster_faction reg jo = some r) : Loaded r := by
  rw [load_monster_faction_eq_ix h]
  exact Loaded.load reg jo hl

theorem Loaded_load_all {reg r : Registry} {jos : List JsonObject} (hl : Loaded reg)
    (h : load_all reg jos = some r) : Loaded r := by
  rw [load_all_eq_ix jos reg r h]
  exact Loaded_load_all_ix hl jos

theorem Reachable_load {reg r : Registry} {jo : JsonObject} (hl : Reachable reg)
    (h : load_monster_faction reg jo = some r) : Reachable r := by
  rw [load_monster_faction_eq_ix h]
  exact Reachable.load reg jo hl

/-! ## Registries loaded without growth under a reference -/

theorem add_to_attitude_map_skel (keys : List String) (i : Int) (v : mf_attitude)
    (reg r : Registry) (h : add_to_attitude_map keys i v reg = some r) :
    r.faction_list.map skel = reg.faction_list.map skel := by
  induction keys generalizing reg with
  | nil =>
    simp only [add_to_attitude_map, Option.some.injEq] at h
    rw [← h]
  | cons k keys ih =>
    rw [add_to_attitude_map] at h
    simp only at h
    split at h
    · rename_i hlen
      have hv := (get_or_add_faction_same_length reg k).mp hlen
      have he := get_or_add_faction_of_valid hv
      have h2 := ih _ h
      rw [h2]
      simp only [he]
      exact map_skel_modify_faction _ _ _ (fun m => rfl)
    · cases h

theorem load_monster_faction_skel {reg r : Registry} {jo : JsonObject}
    (h : load_monster_faction reg jo = some r) :
    r.faction_map = (get_or_add_faction reg jo.name).1.faction_map ∧
    ∃ k, assoc_find (get_or_add_faction reg jo.name).1.faction_map
        (jo.base_faction.getD "") = some k ∧
      r.faction_list.map skel =
        (modify_faction (get_or_add_faction reg jo.name).1.faction_list
          (get_or_add_faction reg jo.name).2
          (fun f => { f with base_faction := k })).map skel := by
  have hn := load_monster_faction_names h
  refine ⟨hn.1, ?_⟩
  have hv := hn.2.1
  have he := get_or_add_faction_of_valid hv
  have hfind := get_or_add_faction_find (get_or_add_faction reg jo.name).1
    (jo.base_faction.getD "")
  rw [he] at hfind
  refine ⟨_, hfind, ?_⟩
  unfold load_monster_faction at h
  simp only at h
  split at h
  · split at h
    · cases h
    · rename_i reg4 h4
      split at h
      · cases h
      · rename_i reg5 h5
        rw [add_to_attitude_map_skel _ _ _ _ _ h, add_to_attitude_map_skel _ _ _ _ _ h5,
          add_to_attitude_map_skel _ _ _ _ _ h4]
        simp only [he]
  · cases h

theorem ParentsBefore_load {recs : List JsonObject} (hb : same_base recs) {reg r : Registry}
    {jo : JsonObject} (hjo : jo ∈ recs) (hwf : RegWF reg) (hp : ParentsBefore recs reg)
    (h : load_monster_faction reg jo = some r) : ParentsBefore recs r := by
  obtain ⟨hmap, k, hk, hskel⟩ := load_monster_faction_skel h
  have hwf1 := RegWF_get_or_add reg hwf jo.name
  obtain ⟨mk, hmk, _⟩ := RegWF_find_valid hwf1 hk
  obtain ⟨k0, k1, _⟩ := fget_eq_some hmk
  intro i m hm
  obtain ⟨m3, hm3, hsk⟩ := fget_skel hskel.symm hm
  have hname : m3.name = m.name := congrArg (fun x => x.1) hsk
  have hbase : m3.base_faction = m.base_faction := congrArg (fun x => x.2.2) hsk
  rw [fget_modify_faction] at hm3
  rw [hmap, ← hbase, ← hname]
  cases hf : assoc_find reg.faction_map jo.name with
  | some s =>
    rw [get_or_add_faction_known hf] at hm3 hk ⊢
    simp only at hm3 hk ⊢
    by_cases his : i = s
    · rw [if_pos his] at hm3
      subst his
      cases hold : fget reg.faction_list i with
      | none => rw [hold] at hm3; cases hm3
      | some mo =>
        rw [hold] at hm3
        simp only [Option.map, Option.some.injEq] at hm3
        subst hm3
        simp only
        obtain ⟨g0, g1, jo2, hjo2, hn2, hf2⟩ := hp i mo hold
        obtain ⟨mv, hmv, hnv, _⟩ := RegWF_find_valid hwf hf
        rw [hold] at hmv
        cases hmv
        have hsame := hb jo2 hjo2 jo hjo (by rw [hn2, hnv])
        rw [hsame, hk] at hf2
        simp only [Option.some.injEq] at hf2
        refine ⟨by omega, by omega, jo, hjo, hnv.symm, hk⟩
    · rw [if_neg his] at hm3
      exact hp i m3 hm3
  | none =>
    rw [get_or_add_faction_fresh hf] at hm3 hk hmk ⊢
    simp only at hm3 hk hmk ⊢
    have hlen := hwf.1
    by_cases his : i = (reg.faction_map.length : Int)
    · rw [if_pos his] at hm3
      subst his
      rw [hlen, fget_append_stub] at hm3
      simp only [Option.map, Option.some.injEq] at hm3
      subst hm3
      simp only
      have k2 := (fget_eq_some hmk).2.1
      simp only [List.length_append, List.length_singleton] at k2
      refine ⟨k0, by omega, jo, hjo, rfl, hk⟩
    · rw [if_neg his] at hm3
      have hi := fget_eq_some hm3
      have hlt : i < (reg.faction_list.length : Int) := by
        have := hi.2.1
        simp only [List.length_append, List.length_singleton] at this
        omega
      obtain ⟨mo, hmo⟩ := fget_of_range hi.1 hlt
      have := fget_append_left hmo
        [{ name := jo.name, id := (reg.faction_map.length : Int), base_faction := -1,
           attitude_map := [] }]
      rw [this] at hm3
      simp only [Option.some.injEq] at hm3
      subst hm3
      obtain ⟨g0, g1, jo2, hjo2, hn2, hf2⟩ := hp i mo hmo
      refine ⟨g0, g1, jo2, hjo2, hn2, ?_⟩
      have := get_or_add_faction_find_old reg jo.name hf2
      rw [get_or_add_faction_fresh hf] at this
      exact this

theorem ParentsBefore_load_all {recs : List JsonObject} (hb : same_base recs)
    (jos : List JsonObject) (hsub : ∀ jo, jo ∈ jos → jo ∈ recs) {reg r : Registry}
    (hwf : RegWF reg) (hp : ParentsBefore recs reg) (h : load_all reg jos = some r) :
    ParentsBefore recs r := by
  induction jos generalizing reg with
  | nil =>
    simp only [load_all, Option.some.injEq] at h
    rw [← h]
    exact hp
  | cons jo jos ih =>
    rw [load_all] at h
    split at h
    · cases h
    · rename_i reg2 h2
      have hwf2 : RegWF reg2 := by
        rw [load_monster_faction_eq_ix h2]
        exact RegWF_load reg hwf jo
      exact ih (fun j hj => hsub j (List.mem_cons_of_mem _ hj)) hwf2
        (ParentsBefore_load hb (hsub jo (List.mem_cons_self _ _)) hwf hp h2) h

theorem ParentsBefore_empty (recs : List JsonObject) : ParentsBefore recs Registry.empty := by
  intro i m hm
  simp [Registry.empty, fget] at hm

theorem ParentsBefore_reaches_root {recs : List JsonObject} {reg : Registry}
    (hp : ParentsBefore recs reg) :
    ∀ (n : Nat) (i : Int) (m : monfaction), i ≤ (n : Int) →
      fget reg.faction_list i = some m → reaches_root reg.faction_list i := by
  intro n
  induction n with
  | zero =>
    intro i m hi hm
    obtain ⟨g0, g1, _⟩ := hp i m hm
    have h0 := (fget_eq_some hm).1
    have hself : m.base_faction = i := by omega
    exact ⟨0, m, hm, hself⟩
  | succ n ih =>
    intro i m hi hm
    obtain ⟨g0, g1, _⟩ := hp i m hm
    by_cases hself : m.base_faction = i
    · exact ⟨0, m, hm, hself⟩
    · have hlt : m.base_faction < (reg.faction_list.length : Int) := by
        have := (fget_eq_some hm).2.1
        omega
      obtain ⟨mp, hmp⟩ := fget_of_range g0 hlt
      exact reaches_root_step hm (ih _ mp (by push_cast at hi; omega) hmp)

/-! ## Concrete registries -/

theorem load_cycle_and_root :
    load_all (get_or_add_faction Registry.empty "q").1 cycle_and_root = some cycle_loaded := by
  decide

theorem cycle_loaded_Loaded : Loaded cycle_loaded :=
  Loaded_load_all (Loaded.add Registry.empty "q" Loaded.empty) load_cycle_and_root

theorem load_rootless_cycle :
    load_all Registry.empty rootless_cycle = some rootless_cycle_loaded := by
  decide

theorem rootless_cycle_loaded_Loaded : Loaded rootless_cycle_loaded :=
  Loaded_load_all Loaded.empty load_rootless_cycle

theorem finalize_rootless_cycle (fuel : Nat) :
    finalize_monfactions fuel rootless_cycle_loaded =
      some (⟨[("a", 0), ("b", 1), ("c", 2)], rootless_cycle_final⟩,
        [debugmsg.no_valid_root]) :=
  rfl

theorem three_factions_no_root (fl : List monfaction) (m0 m1 m2 : monfaction)
    (hfl : fl = [m0, m1, m2]) (h0 : m0.base_faction ≠ 0) (h1 : m1.base_faction ≠ 1)
    (h2 : m2.base_faction ≠ 2) : ∀ c, ¬ self_parented fl c := by
  rintro c ⟨m, hm, hb⟩
  obtain ⟨g0, g1, g2⟩ := fget_eq_some hm
  subst hfl
  simp only [List.length_cons, List.length_nil] at g1
  have hc : c = 0 ∨ c = 1 ∨ c = 2 := by omega
  rcases hc with e | e | e
  · subst e
    simp at g2
    subst g2
    exact h0 hb
  · subst e
    simp at g2
    subst g2
    exact h1 hb
  · subst e
    simp at g2
    subst g2
    exact h2 hb

theorem rootless_cycle_no_root :
    (∀ c, ¬ self_parented rootless_cycle_loaded.faction_list c) ∧
    (∀ c, ¬ self_parented rootless_cycle_final c) :=
  ⟨three_factions_no_root _ _ _ _ rfl (by decide) (by decide) (by decide),
   three_factions_no_root _ _ _ _ rfl (by decide) (by decide) (by decide)⟩

/-! ## The records on which the loader returns -/

theorem is_valid_get_or_add (reg : Registry) (n t : String) :
    is_valid (get_or_add_faction reg n).1 t = true ↔ (t = n ∨ is_valid reg t = true) := by
  unfold is_valid
  cases hf : assoc_find reg.faction_map n with
  | some id =>
    rw [get_or_add_faction_known hf]
    constructor
    · intro h
      exact Or.inr h
    · rintro (rfl | h)
      · rw [hf]
        rfl
      · exact h
  | none =>
    rw [get_or_add_faction_fresh hf]
    simp only
    rw [assoc_find_set]
    by_cases e : n = t
    · simp [e]
    · have e2 : ¬ t = n := fun h => e h.symm
      simp [e, e2]

theorem load_monster_faction_isSome (reg : Registry) (jo : JsonObject) :
    (load_monster_faction reg jo).isSome = true ↔
      ((jo.base_faction.getD "" = jo.name ∨ is_valid reg (jo.base_faction.getD "") = true) ∧
       ∀ t, t ∈ jo.by_mood ++ jo.neutral ++ jo.friendly →
         t = jo.name ∨ is_valid reg t = true) := by
  constructor
  · intro h
    obtain ⟨r, hr⟩ := Option.isSome_iff_exists.mp h
    obtain ⟨_, hb, ht⟩ := load_monster_faction_names hr
    exact ⟨(is_valid_get_or_add _ _ _).mp hb, fun t h2 => (is_valid_get_or_add _ _ _).mp (ht t h2)⟩
  · rintro ⟨hb, ht⟩
    rw [load_monster_faction_defined reg jo ((is_valid_get_or_add _ _ _).mpr hb)
      (fun t h2 => (is_valid_get_or_add _ _ _).mpr (ht t h2))]
    rfl

theorem load_registered_base_pair (a b : String) (hab : a ≠ b) :
    load_all (get_or_add_faction Registry.empty b).1
        [plain_record a (some b), plain_record b (some b)] =
      some ⟨[(b, 0), (a, 1)], [⟨b, 0, 0, []⟩, ⟨a, 1, 0, []⟩]⟩ := by
  have h1 : ¬ b = a := fun e => hab e.symm
  simp [load_all, load_monster_faction, plain_record, get_or_add_faction, assoc_find,
    assoc_set, add_to_attitude_map, Registry.empty, modify_faction, modify_at, hab, h1]

theorem finalize_registered_base_pair (a b : String) (fuel : Nat) :
    finalize_monfactions (fuel + 2) ⟨[(b, 0), (a, 1)], [⟨b, 0, 0, []⟩, ⟨a, 1, 0, []⟩]⟩ =
    some (⟨[(b, 0), (a, 1)], [⟨b, 0, 0, []⟩, ⟨a, 1, 0, [(1, MFA_FRIENDLY)]⟩]⟩, []) := by
  cases fuel <;> rfl

theorem load_unregistered_base (reg : Registry) (jo : JsonObject)
    (hnew : is_valid reg (jo.base_faction.getD "") = false)
    (hne : jo.base_faction.getD "" ≠ jo.name) : load_monster_faction reg jo = none := by
  cases h : load_monster_faction reg jo with
  | none => rfl
  | some r =>
    exfalso
    have hs : (load_monster_faction reg jo).isSome = true := by rw [h]; rfl
    rcases ((load_monster_faction_isSome reg jo).mp hs).1 with e | e
    · exact hne e
    · rw [hnew] at e
      cases e

/-! ## The claims -/

/-- C1 (resolver reference definition).  Let the `n`-th element of the parent chain of the
target `t` be its own parent.  Then `attitude` returns the entry of `self.attitude_map` for the
first element of the chain that is a key of that map; and when no element of the chain up to
the root is a key it reports "no relation found" (as its last message) and returns FRIENDLY.
Both hold for every call depth budget from some bound on. -/
theorem attitude_reference (fl : List monfaction) (self : monfaction) (t : Int) (n : Nat)
    (hne : fl ≠ []) (hroot : base_of fl (parent_chain fl n t) = parent_chain fl n t) :
    (∀ (i : Nat) (a : mf_attitude),
      assoc_find self.attitude_map (parent_chain fl i t) = some a →
      (∀ j, j < i → assoc_find self.attitude_map (parent_chain fl j t) = none) →
      ∃ fuel0, ∀ fuel, fuel0 ≤ fuel → ∃ msgs, attitude fl fuel self t = some (a, msgs)) ∧
    ((∀ i, i ≤ n → assoc_find self.attitude_map (parent_chain fl i t) = none) →
      ∃ fuel0, ∀ fuel, fuel0 ≤ fuel → ∃ o omsgs pre,
        obj fl 2 (parent_chain fl n t) = some (o, omsgs) ∧
        attitude fl fuel self t =
          some (MFA_FRIENDLY, pre ++ [debugmsg.no_relation_found self.name o.name])) := by
  constructor
  · intro i a hfound hbefore
    refine ⟨i + 3, fun fuel hfuel => ?_⟩
    obtain ⟨msgs, h⟩ := attitude_found hne self i t a hfound hbefore (fuel - (i + 3))
    have e : fuel - (i + 3) + i + 3 = fuel := by omega
    rw [e] at h
    exact ⟨msgs, h⟩
  · intro hnone
    refine ⟨n + 3, fun fuel hfuel => ?_⟩
    obtain ⟨o, omsgs, pre, h1, h2⟩ := attitude_not_found hne self n t hroot hnone (fuel - (n + 3))
    have e : fuel - (n + 3) + n + 3 = fuel := by omega
    rw [e] at h2
    exact ⟨o, omsgs, pre, h1, h2⟩

/-- Witness of C1: in the finalized list of scenario 1 the chain of `child` (id 2) reaches
the root after one step; the root has no entry for `child` nor for itself, so its query
about `child` ends in FRIENDLY with the diagnostic. -/
theorem attitude_reference_witness :
    simple_inheritance_final ≠ [] ∧
    base_of simple_inheritance_final (parent_chain simple_inheritance_final 1 2) =
      parent_chain simple_inheritance_final 1 2 ∧
    ∃ fuel0, ∀ fuel, fuel0 ≤ fuel → ∃ o omsgs pre,
      obj simple_inheritance_final 2 (parent_chain simple_inheritance_final 1 2) =
        some (o, omsgs) ∧
      attitude simple_inheritance_final fuel ⟨"root", 0, 0, [(1, MFA_FRIENDLY)]⟩ 2 =
        some (MFA_FRIENDLY, pre ++ [debugmsg.no_relation_found "root" o.name]) :=
  ⟨by decide, by decide,
    (attitude_reference simple_inheritance_final ⟨"root", 0, 0, [(1, MFA_FRIENDLY)]⟩ 2 1
      (by decide) (by decide)).2 (by decide)⟩

/-- C3, counterexample.  The four records of `rootless_cycle` name only registered factions,
so every load returns; they leave `a` (id 0) with parent `b` (id 1), and `b` and `c` with
parent `a`.  No faction is its own parent, so `finalize_monfactions` returns after its first
loop and leaves the parents as loaded: no faction is a root, and no parent chain reaches
one. -/
theorem cycle_survives_without_root :
    load_all Registry.empty rootless_cycle = some rootless_cycle_loaded ∧
    (∀ fuel, finalize_monfactions fuel rootless_cycle_loaded =
      some (⟨[("a", 0), ("b", 1), ("c", 2)], rootless_cycle_final⟩,
        [debugmsg.no_valid_root])) ∧
    (∀ c, ¬ self_parented rootless_cycle_final c) ∧
    (∀ c, ¬ reaches_root rootless_cycle_final c) :=
  ⟨load_rootless_cycle, finalize_rootless_cycle, rootless_cycle_no_root.2,
    fun _ ⟨_, hn⟩ => rootless_cycle_no_root.2 _ hn⟩

/-- C3, amended (forest after finalization).  Let `reg` be built by the loader and hold a
self-parented faction, and let `finalize_monfactions` run with a budget of at least the number
of factions.  Then it returns, the factions keep their ids, and for every faction the parent is
a valid id and the parent chain reaches a self-parented faction in finitely many steps. -/
theorem forest_after_finalize (reg : Registry) (hl : Loaded reg) (r : Int)
    (hr : self_parented reg.faction_list r) (fuel : Nat)
    (hfuel : reg.faction_list.length ≤ fuel) :
    ∃ regF msgs, finalize_monfactions fuel reg = some (regF, msgs) ∧
      regF.faction_list.length = reg.faction_list.length ∧
      ∀ (c : Int) (mF : monfaction), fget regF.faction_list c = some mF →
        mF.id = c ∧ 0 ≤ mF.base_faction ∧
        mF.base_faction < (regF.faction_list.length : Int) ∧
        reaches_root regF.faction_list c := by
  have hwf := (Loaded_RegWF hl).2.1
  obtain ⟨root, hroot⟩ := exists_primary_root hwf hr
  obtain ⟨flF, u, hfin, hs, _⟩ := finalize_spec reg hwf root hroot fuel hfuel
  refine ⟨_, _, hfin, hs.length_eq, ?_⟩
  intro c mF hmF
  obtain ⟨g1, g2, g3⟩ := final_base_valid hwf hs c mF hmF
  refine ⟨g1, g2, g3, ?_⟩
  obtain ⟨h0, h1, _⟩ := fget_eq_some hmF
  simp only at h1
  rw [hs.length_eq] at h1
  obtain ⟨m, hm⟩ := fget_of_range h0 h1
  exact final_reaches_root hwf hs c m hm

/-- Witness of C3 (amended): scenario 5 of the spec loaded after `q` was registered: two
factions in a cycle and a root (id 2). -/
theorem forest_after_finalize_witness :
    Loaded cycle_loaded ∧
    self_parented cycle_loaded.faction_list 2 ∧
    cycle_loaded.faction_list.length ≤ 3 ∧
    ∃ regF msgs,
      finalize_monfactions 3 cycle_loaded = some (regF, msgs) ∧
      regF.faction_list.length = cycle_loaded.faction_list.length ∧
      ∀ (c : Int) (mF : monfaction), fget regF.faction_list c = some mF →
        mF.id = c ∧ 0 ≤ mF.base_faction ∧
        mF.base_faction < (regF.faction_list.length : Int) ∧
        reaches_root regF.faction_list c :=
  ⟨cycle_loaded_Loaded, ⟨⟨"r", 2, 2, []⟩, rfl, rfl⟩, by decide,
    forest_after_finalize cycle_loaded cycle_loaded_Loaded 2 ⟨⟨"r", 2, 2, []⟩, rfl, rfl⟩ 3
      (by decide)⟩

/-- C4, the code at the failing input.  After loading the single record
`{name: r, base_faction: r}` and finalizing, the attitude map of the root `r` is still empty:
the first loop leaves a self-parented faction through `continue` before it reaches the
"friendly to itself" step.  The query of `r` about itself then takes the "no relation found"
branch.  The record names only itself, so `faction_list` does not grow while the loader
holds its reference: `load_all` returns, and returns what `load_all_ix` does. -/
theorem root_lacks_self_entry :
    load_all Registry.empty lone_root = some (load_all_ix Registry.empty lone_root) ∧
    (∀ fuel, 1 ≤ fuel → finalize_monfactions fuel (load_all_ix Registry.empty lone_root) =
      some (⟨[("r", 0)], [⟨"r", 0, 0, []⟩]⟩, [])) ∧
    assoc_find (⟨"r", 0, 0, []⟩ : monfaction).attitude_map 0 = none ∧
    attitude [⟨"r", 0, 0, []⟩] 3 ⟨"r", 0, 0, []⟩ 0 =
      some (MFA_FRIENDLY, [debugmsg.no_relation_found "r" "r"]) := by
  refine ⟨rfl, ?_, by decide, by decide⟩
  intro fuel hfuel
  obtain ⟨f, rfl⟩ : ∃ f, fuel = f + 1 := ⟨fuel - 1, by omega⟩
  cases f with
  | zero => rfl
  | succ f => rfl

/-- C6, counterexample.  The four records of `rootless_cycle` name only registered factions,
so every load returns; they leave `a` with parent `b`, and `b` and `c` with parent `a`.  No
faction is its own parent, so `finalize_monfactions` returns after its first loop and leaves
the parents as loaded.  The query of `c` about `a` then follows the chain `a, b, a, ...` and
returns for no call depth budget. -/
theorem attitude_loops_without_root :
    load_all Registry.empty rootless_cycle = some rootless_cycle_loaded ∧
    (∀ fuel, finalize_monfactions fuel rootless_cycle_loaded =
      some (⟨[("a", 0), ("b", 1), ("c", 2)], rootless_cycle_final⟩,
        [debugmsg.no_valid_root])) ∧
    (∀ fuel, attitude_of_names fuel ⟨[("a", 0), ("b", 1), ("c", 2)], rootless_cycle_final⟩
      "c" "a" = none) := by
  refine ⟨load_rootless_cycle, finalize_rootless_cycle, ?_⟩
  intro fuel
  cases fuel with
  | zero => rfl
  | succ f =>
    have h2 : obj rootless_cycle_final (f + 1) 2 = some (⟨"c", 2, 0, [(2, MFA_FRIENDLY)]⟩, []) :=
      rfl
    have h3 : (str_id ⟨[("a", 0), ("b", 1), ("c", 2)], rootless_cycle_final⟩ "c").1 = 2 := by
      decide
    have h4 : (str_id ⟨[("a", 0), ("b", 1), ("c", 2)], rootless_cycle_final⟩ "a").1 = 0 := by
      decide
    unfold attitude_of_names
    simp only [h3, h4, h2, (rootless_cycle_loops (f + 1)).1]

/-- C6, amended (the resolver returns once a root exists).  Let `reg` be built by the loader
and hold a self-parented faction, and let `finalize_monfactions` run with a budget of at least
the number of factions.  Then it returns, and for every registered faction `self` and every
registered target `t` the query `attitude` returns an attitude value for every call depth
budget from some bound on. -/
theorem attitude_returns_with_root (reg : Registry) (hl : Loaded reg) (r : Int)
    (hr : self_parented reg.faction_list r) (fuel : Nat)
    (hfuel : reg.faction_list.length ≤ fuel) :
    ∃ regF msgs, finalize_monfactions fuel reg = some (regF, msgs) ∧
      ∀ (s t : Int) (self mt : monfaction), fget regF.faction_list s = some self →
        fget regF.faction_list t = some mt →
        ∃ fuel0, ∀ fuel2, fuel0 ≤ fuel2 →
          ∃ a msgs2, attitude regF.faction_list fuel2 self t = some (a, msgs2) := by
  have hwf := (Loaded_RegWF hl).2.1
  obtain ⟨root, hroot⟩ := exists_primary_root hwf hr
  obtain ⟨flF, u, hfin, hs, _⟩ := finalize_spec reg hwf root hroot fuel hfuel
  refine ⟨_, _, hfin, ?_⟩
  intro s t self mt hself hmt
  simp only at hself hmt ⊢
  obtain ⟨h0, h1, _⟩ := fget_eq_some hmt
  rw [hs.length_eq] at h1
  obtain ⟨m, hm⟩ := fget_of_range h0 h1
  obtain ⟨n, hn⟩ := final_reaches_root hwf hs t m hm
  have hne : flF ≠ [] := by
    intro e
    rw [e] at hmt
    simp [fget] at hmt
  refine ⟨n + 3, fun fuel2 hfuel2 => ?_⟩
  obtain ⟨⟨a, msgs2⟩, h⟩ :=
    attitude_terminates hne self n t (self_parented_base_of hn) (fuel2 - (n + 3))
  have e : fuel2 - (n + 3) + n + 3 = fuel2 := by omega
  rw [e] at h
  exact ⟨a, msgs2, h⟩

/-- Witness of C6 (amended): scenario 5 of the spec loaded after `q` was registered; its
parents hold a cycle, and `r` (id 2) is a root. -/
theorem attitude_returns_with_root_witness :
    Loaded cycle_loaded ∧
    self_parented cycle_loaded.faction_list 2 ∧
    cycle_loaded.faction_list.length ≤ 4 ∧
    ∃ regF msgs,
      finalize_monfactions 4 cycle_loaded = some (regF, msgs) ∧
      ∀ (s t : Int) (self mt : monfaction), fget regF.faction_list s = some self →
        fget regF.faction_list t = some mt →
        ∃ fuel0, ∀ fuel2, fuel0 ≤ fuel2 →
          ∃ a msgs2, attitude regF.faction_list fuel2 self t = some (a, msgs2) :=
  ⟨cycle_loaded_Loaded, ⟨⟨"r", 2, 2, []⟩, rfl, rfl⟩, by decide,
    attitude_returns_with_root cycle_loaded cycle_loaded_Loaded 2
      ⟨⟨"r", 2, 2, []⟩, rfl, rfl⟩ 4 (by decide)⟩

/-- C7, counterexample.  Two registries without a self-parented faction: the one that
`get_or_add_faction("x")` builds from the empty registry, and the one that the four records of
`rootless_cycle` build (every load returns).  In both `finalize_monfactions` reports "No valid
root monster faction!" and returns, but its first loop has already given every faction a
FRIENDLY entry for itself: the attitude maps are not what they were before the call. -/
theorem no_root_still_writes_self_entries :
    (get_or_add_faction Registry.empty "x").1 = ⟨[("x", 0)], [⟨"x", 0, -1, []⟩]⟩ ∧
    (∀ fuel, finalize_monfactions fuel ⟨[("x", 0)], [⟨"x", 0, -1, []⟩]⟩ =
      some (⟨[("x", 0)], [⟨"x", 0, -1, [(0, MFA_FRIENDLY)]⟩]⟩, [debugmsg.no_valid_root])) ∧
    att_of [⟨"x", 0, -1, []⟩] 0 ≠ att_of [⟨"x", 0, -1, [(0, MFA_FRIENDLY)]⟩] 0 ∧
    load_all Registry.empty rootless_cycle = some rootless_cycle_loaded ∧
    (∀ fuel, finalize_monfactions fuel rootless_cycle_loaded =
      some (⟨[("a", 0), ("b", 1), ("c", 2)], rootless_cycle_final⟩,
        [debugmsg.no_valid_root])) ∧
    att_of rootless_cycle_loaded.faction_list 0 ≠ att_of rootless_cycle_final 0 :=
  ⟨by decide, fun _ => rfl, by decide, load_rootless_cycle, finalize_rootless_cycle,
    by decide⟩

/-- C7, amended (no root).  Let `reg` be built by the loader, non-empty and without a
self-parented faction.  Then `finalize_monfactions` reports "No valid root monster faction!"
(and nothing else) and returns; the name-to-id map is unchanged, and every faction keeps its
name, id and parent, and its attitude map except that a faction without an entry for its own id
gains the entry FRIENDLY. -/
theorem no_root_keeps_parents (reg : Registry) (hl : Loaded reg)
    (hne : reg.faction_list ≠ []) (hnoroot : ∀ c, ¬ self_parented reg.faction_list c)
    (fuel : Nat) :
    ∃ regF, finalize_monfactions fuel reg = some (regF, [debugmsg.no_valid_root]) ∧
      regF.faction_map = reg.faction_map ∧
      regF.faction_list.length = reg.faction_list.length ∧
      ∀ (c : Int) (m : monfaction), fget reg.faction_list c = some m →
        ∃ mF, fget regF.faction_list c = some mF ∧ mF.name = m.name ∧ mF.id = m.id ∧
          mF.base_faction = m.base_faction ∧
          ∀ k, assoc_find mF.attitude_map k =
            (assoc_find m.attitude_map k).or (if k = c then some MFA_FRIENDLY else none) := by
  have hwf := (Loaded_RegWF hl).2.1
  have hq := primary_root_none hwf hnoroot
  refine ⟨{ reg with faction_list := reg.faction_list.map scan_faction }, ?_, rfl, ?_, ?_⟩
  · unfold finalize_monfactions
    rw [if_neg hne]
    simp only [scan_loop_eq, scan_locals_queue, List.nil_append, hq]
  · simp
  · intro c m hm
    have hid := (ListWF_fget hwf hm).1
    refine ⟨scan_faction m, ?_, scan_faction_name m, scan_faction_id m, scan_faction_base m, ?_⟩
    · simp only
      rw [fget_map, hm]
      rfl
    · intro k
      have hb : m.base_faction ≠ m.id := by
        intro e
        exact hnoroot c ⟨m, hm, by rw [e, hid]⟩
      rw [scan_faction_att m hb k, hid]

/-- Witness of C7 (amended): the registry that the four records of `rootless_cycle`
build. -/
theorem no_root_keeps_parents_witness :
    Loaded rootless_cycle_loaded ∧
    rootless_cycle_loaded.faction_list ≠ [] ∧
    (∀ c, ¬ self_parented rootless_cycle_loaded.faction_list c) ∧
    ∃ regF, finalize_monfactions 2 rootless_cycle_loaded =
        some (regF, [debugmsg.no_valid_root]) ∧
      regF.faction_map = rootless_cycle_loaded.faction_map ∧
      regF.faction_list.length = rootless_cycle_loaded.faction_list.length ∧
      ∀ (c : Int) (m : monfaction),
        fget rootless_cycle_loaded.faction_list c = some m →
        ∃ mF, fget regF.faction_list c = some mF ∧ mF.name = m.name ∧ mF.id = m.id ∧
          mF.base_faction = m.base_faction ∧
          ∀ k, assoc_find mF.attitude_map k =
            (assoc_find m.attitude_map k).or (if k = c then some MFA_FRIENDLY else none) :=
  ⟨rootless_cycle_loaded_Loaded, by decide, rootless_cycle_no_root.1,
    no_root_keeps_parents rootless_cycle_loaded rootless_cycle_loaded_Loaded (by decide)
      rootless_cycle_no_root.1 2⟩

/-- C9 (orphan adoption by the primary root).  Let `reg` be built by the loader and hold a
self-parented faction, and let `finalize_monfactions` run with a budget of at least the number
of factions.  Then the primary root is the self-parented faction with the smallest id, the call
returns, and every faction whose parent was UNSET (`-1`) before the call has the primary root
as parent after it. -/
theorem orphan_adoption (reg : Registry) (hl : Loaded reg) (r : Int)
    (hr : self_parented reg.faction_list r) (fuel : Nat)
    (hfuel : reg.faction_list.length ≤ fuel) :
    ∃ root regF msgs,
      primary_root reg.faction_list = some root ∧
      self_parented reg.faction_list root ∧
      (∀ c, self_parented reg.faction_list c → root ≤ c) ∧
      finalize_monfactions fuel reg = some (regF, msgs) ∧
      ∀ (c : Int) (m : monfaction), fget reg.faction_list c = some m →
        m.base_faction = -1 →
        ∃ mF, fget regF.faction_list c = some mF ∧ mF.base_faction = root := by
  have hwf := (Loaded_RegWF hl).2.1
  obtain ⟨root, hroot⟩ := exists_primary_root hwf hr
  obtain ⟨flF, u, hfin, hs, _⟩ := finalize_spec reg hwf root hroot fuel hfuel
  refine ⟨root, _, _, hroot, hs.root_first.1, hs.root_first.2, hfin, ?_⟩
  intro c m hm hb
  obtain ⟨mF, hmF, _, _, hbase, _⟩ := hs.records c m hm
  refine ⟨mF, hmF, ?_⟩
  rw [hbase]
  have hneg : m.base_faction < 0 := by omega
  by_cases hc : c ∈ u
  · rw [if_pos hc]
  · rw [if_neg hc, if_pos hneg]

/-- Witness of C9: the registry of `two_roots`, with the self-parented factions `r1` (id 0)
and `r2` (id 3) and the factions `y` and `z`, whose parent is UNSET. -/
theorem orphan_adoption_witness :
    Loaded (load_all_ix Registry.empty two_roots) ∧
    self_parented (load_all_ix Registry.empty two_roots).faction_list 3 ∧
    (load_all_ix Registry.empty two_roots).faction_list.length ≤ 4 ∧
    ∃ root regF msgs,
      primary_root (load_all_ix Registry.empty two_roots).faction_list = some root ∧
      self_parented (load_all_ix Registry.empty two_roots).faction_list root ∧
      (∀ c, self_parented (load_all_ix Registry.empty two_roots).faction_list c → root ≤ c) ∧
      finalize_monfactions 4 (load_all_ix Registry.empty two_roots) = some (regF, msgs) ∧
      ∀ (c : Int) (m : monfaction),
        fget (load_all_ix Registry.empty two_roots).faction_list c = some m →
        m.base_faction = -1 →
        ∃ mF, fget regF.faction_list c = some mF ∧ mF.base_faction = root :=
  ⟨Loaded_load_all_ix Loaded.empty two_roots, ⟨⟨"r2", 3, 3, [(1, MFA_NEUTRAL)]⟩, rfl, rfl⟩,
    by decide,
    orphan_adoption (load_all_ix Registry.empty two_roots)
      (Loaded_load_all_ix Loaded.empty two_roots) 3 ⟨⟨"r2", 3, 3, [(1, MFA_NEUTRAL)]⟩, rfl, rfl⟩ 4
      (by decide)⟩

/-- C10, counterexample.  (1) The records of `two_parents` hold two records of `a` with
different parents `p` and `q` and no conflicting attitude values; every record names only
registered factions, so both load orders return.  The record loaded last decides the parent
of `a`, and with it the attitude that `a` inherits towards `p`: NEUTRAL in one order, FRIENDLY
in the other.
(2) The records of `mutual_pair` name each other: in either order the first load registers
the other faction after its reference was taken and writes through that reference, so the
source fixes no outcome for either order. -/
theorem load_order_matters :
    (List.Perm two_parents two_parents_swapped ∧ no_conflict two_parents ∧
      ∃ regA regB, load_all Registry.empty two_parents = some regA ∧
        load_all Registry.empty two_parents_swapped = some regB ∧
        (finalize_monfactions 4 regA).map
          (fun r => attitude_of_names 4 r.1 "a" "p") = some (some MFA_NEUTRAL) ∧
        (finalize_monfactions 4 regB).map
          (fun r => attitude_of_names 4 r.1 "a" "p") = some (some MFA_FRIENDLY)) ∧
    (List.Perm mutual_pair mutual_pair_swapped ∧ no_conflict mutual_pair ∧
      same_base mutual_pair ∧
      load_all Registry.empty mutual_pair = none ∧
      load_all Registry.empty mutual_pair_swapped = none) :=
  ⟨⟨by decide, by decide, _, _, rfl, rfl, by decide, by decide⟩,
   ⟨by decide, by decide, by decide, by decide, by decide⟩⟩

/-- C10, amended (order independence of loading).  Let `recsB` be a permutation of `recsA`,
where no (subject, target) pair appears twice with conflicting attitude values and records of
the same faction declare the same `base_faction`; let both load orders return (every record
names only factions that are registered when it is loaded, its own name included); and let
`finalize_monfactions` run with a budget of at least the number of factions.  Then both calls
return, and for all registered names `s` and `t` the query `attitude` of `s` about `t` returns
the same attitude in both registries, for every call depth budget from some bound on. -/
theorem order_independence (recsA recsB : List JsonObject) (hperm : recsA.Perm recsB)
    (hc : no_conflict recsA) (hb : same_base recsA) (regA regB : Registry)
    (hA : load_all Registry.empty recsA = some regA)
    (hB : load_all Registry.empty recsB = some regB)
    (fuel : Nat) (hfA : regA.faction_list.length ≤ fuel)
    (hfB : regB.faction_list.length ≤ fuel) :
    ∃ regFA msgsA regFB msgsB,
      finalize_monfactions fuel regA = some (regFA, msgsA) ∧
      finalize_monfactions fuel regB = some (regFB, msgsB) ∧
      ∀ s t : String, is_valid regFA s = true → is_valid regFA t = true →
        is_valid regFB s = true ∧ is_valid regFB t = true ∧
        ∃ q0, ∀ q, q0 ≤ q → ∃ a, attitude_of_names q regFA s t = some a ∧
          attitude_of_names q regFB s t = some a := by
  have hbB : same_base recsB := fun j1 h1 j2 h2 e =>
    hb j1 (hperm.mem_iff.mpr h1) j2 (hperm.mem_iff.mpr h2) e
  have pA := ParentsBefore_load_all hb recsA (fun _ h => h) RegWF_empty
    (ParentsBefore_empty recsA) hA
  have pB := ParentsBefore_load_all hbB recsB (fun _ h => h) RegWF_empty
    (ParentsBefore_empty recsB) hB
  have eA := load_all_eq_ix recsA _ _ hA
  have eB := load_all_eq_ix recsB _ _ hB
  have wfA : RegWF regA := by rw [eA]; exact RegWF_load_all_ix recsA _ RegWF_empty
  have wfB : RegWF regB := by rw [eB]; exact RegWF_load_all_ix recsB _ RegWF_empty
  have S : Sim regA regB := by
    refine ⟨wfA, wfB, ?_⟩
    rw [eA, eB]
    exact observe_load_all_ix_perm recsA recsB hperm hc hb
  by_cases hne : regA.faction_list = []
  · obtain ⟨⟨regFA, msgsA⟩, hfinA⟩ := finalize_returns wfA.2.1 fuel hfA
    obtain ⟨⟨regFB, msgsB⟩, hfinB⟩ := finalize_returns wfB.2.1 fuel hfB
    refine ⟨regFA, msgsA, regFB, msgsB, hfinA, hfinB, ?_⟩
    intro s t hs _
    exfalso
    have hmap := (finalize_map wfA hfinA).1
    simp only at hmap
    have hlen : regA.faction_map.length = 0 := by rw [wfA.1, hne]; rfl
    have hnil : regA.faction_map = [] := List.length_eq_zero.mp hlen
    simp [is_valid, hmap, hnil, assoc_find] at hs
  · have root0 : ∀ {recs : List JsonObject} {reg : Registry}, ParentsBefore recs reg →
        reg.faction_list ≠ [] → self_parented reg.faction_list 0 := by
      intro recs reg hp hn
      have h0 : (0 : Int) ≤ 0 := le_refl 0
      have h1 : (0 : Int) < (reg.faction_list.length : Int) := by
        have := List.length_pos.mpr hn
        omega
      obtain ⟨m0, hm0⟩ := fget_of_range h0 h1
      obtain ⟨g0, g1, _⟩ := hp 0 m0 hm0
      exact ⟨m0, hm0, by omega⟩
    have hneB : regB.faction_list ≠ [] := by
      obtain ⟨m0, hm0, _⟩ := root0 pA hne
      obtain ⟨j, hj⟩ := S.valid_iff m0.name ⟨0, RegWF_find_name wfA hm0⟩
      obtain ⟨mj, hmj, _⟩ := RegWF_find_valid wfB hj
      intro e
      rw [e] at hmj
      simp [fget] at hmj
    obtain ⟨rA, hpA⟩ := exists_primary_root wfA.2.1 (root0 pA hne)
    obtain ⟨rB, hpB⟩ := exists_primary_root wfB.2.1 (root0 pB hneB)
    obtain ⟨flFA, uA, hfinA, hsA, _⟩ := finalize_spec _ wfA.2.1 rA hpA fuel hfA
    obtain ⟨flFB, uB, hfinB, hsB, _⟩ := finalize_spec _ wfB.2.1 rB hpB fuel hfB
    have P : FinalPair regA regB rA rB uA uB flFA flFB := by
      refine ⟨S, hsA, hsB, ?_⟩
      rintro ⟨i, m, hm, h | h⟩
      · exfalso
        obtain ⟨n, hn⟩ := ParentsBefore_reaches_root pA i.toNat i m
          (by have := (fget_eq_some hm).1; omega) hm
        exact ((hsA.mem_unvisited i).mp h).2 ⟨n, Or.inl hn⟩
      · exfalso
        have := (pA i m hm).1
        omega
    refine ⟨_, _, _, _, hfinA, hfinB, ?_⟩
    intro s t hs ht
    simp only [is_valid] at hs ht ⊢
    obtain ⟨i, hi⟩ := Option.isSome_iff_exists.mp hs
    obtain ⟨k, hk⟩ := Option.isSome_iff_exists.mp ht
    obtain ⟨j, hj⟩ := S.valid_iff s ⟨i, hi⟩
    obtain ⟨l, hl⟩ := S.valid_iff t ⟨k, hk⟩
    have cs : corr regA regB i j := ⟨s, hi, hj⟩
    have ct : corr regA regB k l := ⟨t, hk, hl⟩
    refine ⟨by rw [hj]; rfl, by rw [hl]; rfl, ?_⟩
    obtain ⟨⟨selfA, hselfA⟩, ⟨selfB, hselfB⟩⟩ := P.final_valid cs
    obtain ⟨⟨mk, hmk⟩, _⟩ := corr_valid S ct
    obtain ⟨n, hn⟩ := final_reaches_root wfA.2.1 hsA k mk hmk
    refine ⟨n + 3, fun q hq => ?_⟩
    obtain ⟨a, mA, mB, h1, h2⟩ :=
      P.attitude_corr cs hselfA hselfB n k l ct hn (q - (n + 3)) (q - (n + 3))
    have e : q - (n + 3) + n + 3 = (q - 1) + 1 := by omega
    have e2 : q = (q - 1) + 1 := by omega
    rw [e] at h1 h2
    refine ⟨a, ?_, ?_⟩
    · rw [e2]
      exact attitude_of_names_eq (q - 1) hi hk hselfA h1
    · rw [e2]
      exact attitude_of_names_eq (q - 1) hj hl hselfB h2

/-- Witness of C10 (amended): the records of `siblings` and the order that exchanges the two
children, which get different ids in the two orders. -/
theorem order_independence_witness :
    List.Perm siblings siblings_swapped ∧
    no_conflict siblings ∧ same_base siblings ∧
    load_all Registry.empty siblings = some (load_all_ix Registry.empty siblings) ∧
    load_all Registry.empty siblings_swapped =
      some (load_all_ix Registry.empty siblings_swapped) ∧
    (load_all_ix Registry.empty siblings).faction_list.length ≤ 3 ∧
    (load_all_ix Registry.empty siblings_swapped).faction_list.length ≤ 3 ∧
    ∃ regFA msgsA regFB msgsB,
      finalize_monfactions 3 (load_all_ix Registry.empty siblings) = some (regFA, msgsA) ∧
      finalize_monfactions 3 (load_all_ix Registry.empty siblings_swapped) =
        some (regFB, msgsB) ∧
      ∀ s t : String, is_valid regFA s = true → is_valid regFA t = true →
        is_valid regFB s = true ∧ is_valid regFB t = true ∧
        ∃ q0, ∀ q, q0 ≤ q → ∃ a, attitude_of_names q regFA s t = some a ∧
          attitude_of_names q regFB s t = some a :=
  ⟨by decide, by decide, by decide, by decide, by decide, by decide, by decide,
    order_independence siblings siblings_swapped (by decide) (by decide) (by decide)
      (load_all_ix Registry.empty siblings) (load_all_ix Registry.empty siblings_swapped)
      (by decide) (by decide) 3 (by decide) (by decide)⟩

/-- C11: dense ids in registration order. From the empty registry, when the names of a list
are passed to `get_or_add_faction` in order, the call for a name returns its position (from 0)
in the list `first_names names` of the distinct names in order of first occurrence; that list
has no repetition, holds exactly the names of the list and orders them by first occurrence;
the returned ids are exactly `0 .. k - 1` for `k` distinct names; the registry then holds
exactly `k` records, and record `j` has id `j`, the `j`-th distinct name, the UNSET parent
`-1` and an empty attitude map, and the name map sends that name to `j`. -/
theorem dense_ids_in_registration_order (names : List String) :
    (first_names names).Nodup ∧
    (∀ n, n ∈ first_names names ↔ n ∈ names) ∧
    (∀ a b, a ∈ names → b ∈ names →
      ((first_names names).indexOf a < (first_names names).indexOf b ↔
        names.indexOf a < names.indexOf b)) ∧
    (register_all names Registry.empty).2 =
      names.map (fun n => ((first_names names).indexOf n : Int)) ∧
    (∀ i : Int, i ∈ (register_all names Registry.empty).2 ↔
      0 ≤ i ∧ i < ((first_names names).length : Int)) ∧
    (register_all names Registry.empty).1.faction_list.length = (first_names names).length ∧
    (register_all names Registry.empty).1.faction_map.length = (first_names names).length ∧
    ∀ (j : Nat) (n : String), (first_names names)[j]? = some n →
      (register_all names Registry.empty).1.faction_list[j]? = some ⟨n, (j : Int), -1, []⟩ ∧
      str_id (register_all names Registry.empty).1 n = ((j : Int), []) := by
  have hnd : (first_names names).Nodup := foldl_note_name_nodup names [] List.nodup_nil
  have hmem : ∀ n, n ∈ first_names names ↔ n ∈ names := by
    intro n
    unfold first_names
    rw [mem_foldl_note_name]
    simp
  have hfn : names.foldl note_name [] = first_names names := rfl
  obtain ⟨h1, h2, h3⟩ := register_all_spec names Registry.empty [] rfl rfl
  rw [hfn] at h1 h2 h3
  refine ⟨hnd, hmem, ?_, h3, ?_, ?_, ?_, ?_⟩
  · intro a b ha hb
    have := foldl_note_name_order names [] a b (Or.inr ha) (Or.inr hb)
    simpa [first_names] using this
  · intro i
    rw [h3]
    simp only [List.mem_map]
    constructor
    · rintro ⟨n, hn, rfl⟩
      have : (first_names names).indexOf n < (first_names names).length :=
        List.indexOf_lt_length.mpr ((hmem n).mpr hn)
      omega
    · rintro ⟨h0, hlt⟩
      have hlt2 : i.toNat < (first_names names).length := by omega
      refine ⟨(first_names names).get ⟨i.toNat, hlt2⟩, ?_, ?_⟩
      · exact (hmem _).mp (List.get_mem _ _ _)
      · have := List.get_indexOf hnd ⟨i.toNat, hlt2⟩
        simp only at this
        rw [this]
        omega
  · rw [h2, stubs_from_length]
  · rw [h1, index_from_length]
  · intro j n hj
    constructor
    · rw [h2, stubs_from_getElem?]
      rw [hj]
      simp
    · have hin : n ∈ first_names names := by
        obtain ⟨hlt, hget⟩ := List.getElem?_eq_some_iff.mp hj
        exact hget ▸ List.getElem_mem hlt
      have hfind := assoc_find_index_from 0 (first_names names) n
      rw [if_pos hin] at hfind
      have hidx : (first_names names).indexOf n = j := by
        obtain ⟨hlt, hget⟩ := List.getElem?_eq_some_iff.mp hj
        have := List.get_indexOf hnd ⟨j, hlt⟩
        simp only [List.get_eq_getElem, hget] at this
        exact this
      unfold str_id
      rw [h1]
      rw [hfind, hidx]
      simp

/-- C13: idempotence. For every registry (reachable or not) and every name, a second call
of `get_or_add_faction` with the same name returns the same id as the first and leaves the
registry exactly as the first call left it. -/
theorem get_or_add_idempotent (reg : Registry) (n : String) :
    get_or_add_faction (get_or_add_faction reg n).1 n =
      ((get_or_add_faction reg n).1, (get_or_add_faction reg n).2) := by
  have h := get_or_add_faction_find reg n
  exact get_or_add_faction_known h

/-- C16: fail-soft indexed lookup. For every non-empty faction list of `N` records and every
integer id, negative ones included, `int_id::obj` returns for every call budget of at least
two frames: the record at index `id` without a diagnostic when `0 ≤ id < N`, and otherwise
the record at index 0 together with the single diagnostic `invalid monfaction id`. -/
theorem fail_soft_indexed_lookup (fl : List monfaction) (id : Int) (fuel : Nat)
    (hne : fl ≠ []) :
    (0 ≤ id ∧ id < (fl.length : Int) →
      ∃ m, fl[id.toNat]? = some m ∧ obj fl (fuel + 2) id = some (m, [])) ∧
    (¬ (0 ≤ id ∧ id < (fl.length : Int)) →
      ∃ m0, fl[0]? = some m0 ∧
        obj fl (fuel + 2) id = some (m0, [debugmsg.invalid_int_id id])) := by
  constructor
  · rintro ⟨h0, h1⟩
    obtain ⟨m, hm⟩ := fget_of_range h0 h1
    exact ⟨m, (fget_eq_some hm).2.2, obj_of_fget hm (fuel + 1)⟩
  · intro h
    cases fl with
    | nil => exact absurd rfl hne
    | cons m0 rest =>
      have h00 : (m0 :: rest)[0]? = some m0 := by simp
      refine ⟨m0, h00, obj_out_of_range ?_ h00 fuel⟩
      unfold id_out_of_range
      omega

/-- Witness of C16: the three-record list of scenario 1, read at the ids 2, -1 and 3. -/
theorem fail_soft_indexed_lookup_witness :
    (∃ m, simple_inheritance_final[(2 : Int).toNat]? = some m ∧
      obj simple_inheritance_final 2 2 = some (m, [])) ∧
    (∃ m0, simple_inheritance_final[0]? = some m0 ∧
      obj simple_inheritance_final 2 (-1) = some (m0, [debugmsg.invalid_int_id (-1)])) ∧
    (∃ m0, simple_inheritance_final[0]? = some m0 ∧
      obj simple_inheritance_final 2 3 = some (m0, [debugmsg.invalid_int_id 3])) :=
  ⟨(fail_soft_indexed_lookup simple_inheritance_final 2 0 (by decide)).1 (by decide),
   (fail_soft_indexed_lookup simple_inheritance_final (-1) 0 (by decide)).2 (by decide),
   (fail_soft_indexed_lookup simple_inheritance_final 3 0 (by decide)).2 (by decide)⟩

/-- C12: name/id round trip. In every registry reachable from the empty one by calls of
`get_or_add_faction`, `load_monster_faction_ix` and `finalize_monfactions`, for every valid id
`i` the lookup `int_id(i).obj()` returns the record at index `i` without a diagnostic, and
`string_id::id` of the name of that record returns `i` without a diagnostic. -/
theorem name_id_round_trip (reg : Registry) (h : Reachable reg) (i : Int) (fuel : Nat)
    (h0 : 0 ≤ i) (h1 : i < (reg.faction_list.length : Int)) :
    ∃ m, fget reg.faction_list i = some m ∧
      obj reg.faction_list (fuel + 1) i = some (m, []) ∧ str_id reg m.name = (i, []) := by
  obtain ⟨m, hm⟩ := fget_of_range h0 h1
  refine ⟨m, hm, obj_of_fget hm fuel, ?_⟩
  unfold str_id
  rw [RegWF_find_name (Reachable_inv h).1 hm]

/-- Witness of C12: the finalized registry of scenario 1 and the id 2. -/
theorem name_id_round_trip_witness :
    Reachable simple_inheritance_registry ∧
    ∃ m, fget simple_inheritance_registry.faction_list 2 = some m ∧
      obj simple_inheritance_registry.faction_list 1 2 = some (m, []) ∧
      str_id simple_inheritance_registry m.name = (2, []) :=
  ⟨simple_inheritance_reachable,
    name_id_round_trip simple_inheritance_registry simple_inheritance_reachable 2 0
      (by decide) (by decide)⟩

/-- C17: name lookup. Let `reg` be the registry that a sequence `ops` of calls of
`get_or_add_faction`, `load_monster_faction_ix` and `finalize_monfactions` leaves, starting from
the empty registry. Then `is_valid(name)` is true exactly when `name` is one of the names that
these calls passed to `get_or_add_faction`. When it is true, `string_id::id(name)` returns,
without a diagnostic, the id that `get_or_add_faction` assigned to the name: its position in
the order of first registration, which is also what a further call of `get_or_add_faction`
returns, leaving the registry as it is. When it is false, `string_id::id(name)` reports the
diagnostic and returns the id 0. (`string_id::id` is a function of the registry: it cannot
change it.) -/
theorem name_lookup (ops : List Op) (reg : Registry)
    (h : run_ops ops Registry.empty = some reg) (name : String) :
    (is_valid reg name = true ↔ name ∈ ops_names ops) ∧
    (is_valid reg name = true →
      str_id reg name = (((first_names (ops_names ops)).indexOf name : Int), []) ∧
      get_or_add_faction reg name = (reg, (str_id reg name).1)) ∧
    (is_valid reg name = false → str_id reg name = (0, [debugmsg.invalid_str_id name])) := by
  have hmap := run_ops_index ops RegWF_empty [] rfl h
  have hfind := assoc_find_index_from 0 ((ops_names ops).foldl note_name []) name
  rw [← hmap] at hfind
  have hmem : name ∈ (ops_names ops).foldl note_name [] ↔ name ∈ ops_names ops := by
    rw [mem_foldl_note_name]
    simp
  refine ⟨?_, ?_, ?_⟩
  · unfold is_valid
    rw [hfind]
    by_cases hin : name ∈ (ops_names ops).foldl note_name []
    · rw [if_pos hin]
      exact ⟨fun _ => hmem.mp hin, fun _ => rfl⟩
    · rw [if_neg hin]
      exact ⟨fun e => (by cases e), fun e => absurd (hmem.mpr e) hin⟩
  · intro hv
    have hin : name ∈ (ops_names ops).foldl note_name [] := by
      by_contra hc
      rw [if_neg hc] at hfind
      simp [is_valid, hfind] at hv
    rw [if_pos hin] at hfind
    have hs : str_id reg name = (((first_names (ops_names ops)).indexOf name : Int), []) := by
      unfold str_id first_names
      rw [hfind]
      simp
    refine ⟨hs, ?_⟩
    rw [get_or_add_faction_known hfind, hs]
    simp [first_names]
  · intro hv
    unfold is_valid at hv
    unfold str_id
    cases hf : assoc_find reg.faction_map name with
    | none => rfl
    | some i => rw [hf] at hv; cases hv

/-- Witness of C17: the two loads of scenario 1 followed by `finalize_monfactions`, with the
registered name `bar` and the unregistered name `zombie`. -/
theorem name_lookup_witness :
    run_ops [Op.load ⟨"root", some "root", [], [], ["bar"]⟩,
        Op.load (plain_record "child" (some "root")), Op.finalize 3] Registry.empty =
      some simple_inheritance_registry ∧
    (is_valid simple_inheritance_registry "bar" = true ∧
      str_id simple_inheritance_registry "bar" = (1, []) ∧
      get_or_add_faction simple_inheritance_registry "bar" =
        (simple_inheritance_registry, 1)) ∧
    (is_valid simple_inheritance_registry "zombie" = false ∧
      str_id simple_inheritance_registry "zombie" =
        (0, [debugmsg.invalid_str_id "zombie"])) := by
  have h := name_lookup [Op.load ⟨"root", some "root", [], [], ["bar"]⟩,
        Op.load (plain_record "child" (some "root")), Op.finalize 3]
      simple_inheritance_registry rfl
  have hz := h "zombie"
  have vb : is_valid simple_inheritance_registry "bar" = true := by decide
  have vz : is_valid simple_inheritance_registry "zombie" = false := by decide
  refine ⟨rfl, ⟨vb, ?_, ?_⟩, vz, hz.2.2 vz⟩
  · decide
  · decide

/-- C20: HOSTILE is never produced. In every registry reachable from the empty one by calls
of `get_or_add_faction`, `load_monster_faction_ix` and `finalize_monfactions`, no attitude map
holds the value HOSTILE, and `attitude(S, T)` of a registered faction `S`, whenever it
returns, returns FRIENDLY, NEUTRAL or BY_MOOD. -/
theorem hostile_never_produced (reg : Registry) (h : Reachable reg) :
    (∀ m, m ∈ reg.faction_list → ∀ p, p ∈ m.attitude_map → p.2 ≠ MFA_HOSTILE) ∧
    ∀ (fuel : Nat) (self : monfaction) (t : Int) (a : mf_attitude) (msgs : List debugmsg),
      self ∈ reg.faction_list → attitude reg.faction_list fuel self t = some (a, msgs) →
      a = MFA_FRIENDLY ∨ a = MFA_NEUTRAL ∨ a = MFA_BY_MOOD := by
  have he := (Reachable_inv h).2
  have h1 : ∀ m, m ∈ reg.faction_list → ∀ p, p ∈ m.attitude_map → p.2 ≠ MFA_HOSTILE :=
    fun m hm p hp => (he m hm p hp).2.2
  refine ⟨h1, ?_⟩
  intro fuel self t a msgs hself hatt
  rcases attitude_value _ _ _ _ _ _ hatt with e | ⟨k, hk⟩
  · exact Or.inl e
  · have := h1 self hself (k, a) hk
    cases a with
    | MFA_BY_MOOD => exact Or.inr (Or.inr rfl)
    | MFA_NEUTRAL => exact Or.inr (Or.inl rfl)
    | MFA_FRIENDLY => exact Or.inl rfl
    | MFA_HOSTILE => exact absurd rfl this

/-- Witness of C20: the finalized registry of scenario 1. -/
theorem hostile_never_produced_witness :
    Reachable simple_inheritance_registry ∧
    (∀ m, m ∈ simple_inheritance_registry.faction_list → ∀ p, p ∈ m.attitude_map →
      p.2 ≠ MFA_HOSTILE) ∧
    ∀ (fuel : Nat) (self : monfaction) (t : Int) (a : mf_attitude) (msgs : List debugmsg),
      self ∈ simple_inheritance_registry.faction_list →
      attitude simple_inheritance_registry.faction_list fuel self t = some (a, msgs) →
      a = MFA_FRIENDLY ∨ a = MFA_NEUTRAL ∨ a = MFA_BY_MOOD :=
  ⟨simple_inheritance_reachable,
    hostile_never_produced simple_inheritance_registry simple_inheritance_reachable⟩

/-- C14: tag precedence and overwrite in the loader, and the records for which the loader
keeps it.  `load_monster_faction` takes a reference to the subject in `faction_list` (line 207)
and afterwards registers the names of the record through `get_or_add_faction`, whose
`push_back` (line 76) can move the list; `add_to_attitude_map` writes the entries through
that reference (line 199).
(1) Failing input: into the empty registry, the record `{name: a, base_faction: a,
friendly: [b]}` registers `b` after the reference was taken and writes the entry of `b`
through that reference, so no outcome is fixed.
(2) For every registry, the load of a record returns exactly when the base name and every
tag name is the name of the record or registered beforehand.
(3) Whenever the load of a record returns in a registry reachable from the empty one, the
subject is registered and the entry of its attitude map for a faction name `t` (read through
the name map, as `observe` does) is FRIENDLY if `t` is in `friendly`, else NEUTRAL if `t` is
in `neutral`, else BY_MOOD if `t` is in `by_mood`, else exactly what it was before the load;
an absent entry stays absent.
(4) An instance: in the finalized registry of scenario 1, where `child` is FRIENDLY to `bar`,
a record of `child` that lists `bar` both in `by_mood` and in `neutral` returns and leaves
`child` NEUTRAL to `bar`. -/
theorem tag_precedence_and_overwrite :
    load_monster_faction Registry.empty ⟨"a", some "a", [], [], ["b"]⟩ = none ∧
    (∀ (reg : Registry) (jo : JsonObject),
      (load_monster_faction reg jo).isSome = true ↔
        ((jo.base_faction.getD "" = jo.name ∨
            is_valid reg (jo.base_faction.getD "") = true) ∧
          ∀ t, t ∈ jo.by_mood ++ jo.neutral ++ jo.friendly →
            t = jo.name ∨ is_valid reg t = true)) ∧
    (∀ (reg reg2 : Registry) (jo : JsonObject) (t : String), Reachable reg →
      load_monster_faction reg jo = some reg2 →
      is_valid reg2 jo.name = true ∧
      (observe reg2).att jo.name t =
        (if t ∈ jo.friendly then some MFA_FRIENDLY
         else if t ∈ jo.neutral then some MFA_NEUTRAL
         else if t ∈ jo.by_mood then some MFA_BY_MOOD
         else (observe reg).att jo.name t)) ∧
    (∃ reg2, load_monster_faction simple_inheritance_registry
        ⟨"child", some "root", ["bar", "root"], ["bar"], []⟩ = some reg2 ∧
      (observe simple_inheritance_registry).att "child" "bar" = some MFA_FRIENDLY ∧
      (observe reg2).att "child" "bar" = some MFA_NEUTRAL) := by
  have main : ∀ (reg reg2 : Registry) (jo : JsonObject) (t : String), Reachable reg →
      load_monster_faction reg jo = some reg2 →
      is_valid reg2 jo.name = true ∧
      (observe reg2).att jo.name t =
        (if t ∈ jo.friendly then some MFA_FRIENDLY
         else if t ∈ jo.neutral then some MFA_NEUTRAL
         else if t ∈ jo.by_mood then some MFA_BY_MOOD
         else (observe reg).att jo.name t) := by
    intro reg reg2 jo t h hl
    have e := load_monster_faction_eq_ix hl
    subst e
    obtain ⟨hwf, he⟩ := Reachable_inv h
    have hobs := (observe_load reg hwf (EntWF_AttWF he) jo).1
    constructor
    · have : (observe (load_monster_faction_ix reg jo)).valid jo.name = true := by
        rw [hobs, Obs.load_valid]
        simp
      exact this
    · rw [hobs, Obs.load_att, if_pos rfl]
      unfold tag_value
      by_cases h1 : t ∈ jo.friendly
      · simp [h1]
      · by_cases h2 : t ∈ jo.neutral
        · simp [h1, h2]
        · by_cases h3 : t ∈ jo.by_mood
          · simp [h1, h2, h3]
          · simp [h1, h2, h3]
  refine ⟨by decide, load_monster_faction_isSome, main, ?_⟩
  have hl : load_monster_faction simple_inheritance_registry
      ⟨"child", some "root", ["bar", "root"], ["bar"], []⟩ =
      some (load_monster_faction_ix simple_inheritance_registry
        ⟨"child", some "root", ["bar", "root"], ["bar"], []⟩) := by decide
  refine ⟨_, hl, by decide, ?_⟩
  exact (main _ _ _ "bar" simple_inheritance_reachable hl).2

/-- C15: forward references, and the records for which the loader supports them.
`load_monster_faction` takes a reference to the subject in `faction_list` (line 207) and then
resolves `base_faction` through `get_or_add_faction` (line 209), which registers an unknown
name with `push_back` (line 76) before the parent id is written through the reference.
(1) Failing input: for distinct names `a` and `b`, the record `{name: a, base_faction: b}`
loaded into the empty registry registers `b` after the reference was taken, so no outcome is
fixed, and neither for the two loads of scenario 3.
(2) For every registry, a record whose base name (the empty string when the field is absent)
is neither registered nor the name of the record has no fixed outcome.
(3) Whenever the load of a record returns in a registry reachable from the empty one, the
base name was registered beforehand or is the name of the record; afterwards the subject and
the base name are registered and the `base_faction` of the subject is the id of the base
name.
(4) With `b` registered beforehand, loading `{name: a, base_faction: b}` and then
`{name: b, base_faction: b}` returns, and finalizing (budget at least 2) leaves both names
valid, `b` its own parent, and the `base_faction` of `a` equal to the id of `b`. -/
theorem forward_references :
    (∀ a b : String, a ≠ b →
      load_monster_faction Registry.empty (plain_record a (some b)) = none ∧
      load_all Registry.empty [plain_record a (some b), plain_record b (some b)] = none) ∧
    (∀ (reg : Registry) (jo : JsonObject),
      is_valid reg (jo.base_faction.getD "") = false → jo.base_faction.getD "" ≠ jo.name →
      load_monster_faction reg jo = none) ∧
    (∀ (reg reg2 : Registry) (jo : JsonObject), Reachable reg →
      load_monster_faction reg jo = some reg2 →
      (jo.base_faction.getD "" = jo.name ∨ is_valid reg (jo.base_faction.getD "") = true) ∧
      ∃ s k ms, assoc_find reg2.faction_map jo.name = some s ∧
        assoc_find reg2.faction_map (jo.base_faction.getD "") = some k ∧
        fget reg2.faction_list s = some ms ∧ ms.base_faction = k) ∧
    (∀ (a b : String) (fuel : Nat), a ≠ b → 2 ≤ fuel →
      ∃ reg regF msgs ma mb,
        load_all (get_or_add_faction Registry.empty b).1
          [plain_record a (some b), plain_record b (some b)] = some reg ∧
        finalize_monfactions fuel reg = some (regF, msgs) ∧
        is_valid regF a = true ∧ is_valid regF b = true ∧
        fget regF.faction_list (str_id regF a).1 = some ma ∧
        fget regF.faction_list (str_id regF b).1 = some mb ∧
        mb.base_faction = mb.id ∧ mb.id = (str_id regF b).1 ∧
        ma.base_faction = (str_id regF b).1) := by
  have undef : ∀ a b : String, a ≠ b →
      load_monster_faction Registry.empty (plain_record a (some b)) = none := by
    intro a b hab
    apply load_unregistered_base
    · rfl
    · exact fun e => hab e.symm
  refine ⟨fun a b hab => ⟨undef a b hab, ?_⟩, load_unregistered_base, ?_, ?_⟩
  · rw [load_all, undef a b hab]
  · intro reg reg2 jo h hl
    have hs : (load_monster_faction reg jo).isSome = true := by rw [hl]; rfl
    refine ⟨((load_monster_faction_isSome reg jo).mp hs).1, ?_⟩
    have e := load_monster_faction_eq_ix hl
    subst e
    obtain ⟨hwf, he⟩ := Reachable_inv h
    exact load_base_registered reg hwf (EntWF_AttWF he) jo
  · intro a b fuel hab hfuel
    have hba : ¬ b = a := fun e => hab e.symm
    obtain ⟨f, rfl⟩ : ∃ f, fuel = f + 2 := ⟨fuel - 2, by omega⟩
    refine ⟨_, _, _, ⟨a, 1, 0, [(1, MFA_FRIENDLY)]⟩, ⟨b, 0, 0, []⟩,
      load_registered_base_pair a b hab, finalize_registered_base_pair a b f,
      ?_, ?_, ?_, ?_, rfl, ?_, ?_⟩
    · simp [is_valid, assoc_find, hba]
    · simp [is_valid, assoc_find]
    · simp [str_id, assoc_find, fget, hba]
    · simp [str_id, assoc_find, fget]
    · simp [str_id, assoc_find]
    · simp [str_id, assoc_find]

/-- C18: queries terminate once a root exists. Let `reg` be reachable from the empty registry
and hold at least one self-parented faction, and let `N` be its number of factions. Then
`finalize_monfactions` (budget at least `N`) returns, and in the registry it leaves
`attitude(S, T)` returns for every registered faction `S` and every registered id `T`, for
every call-depth budget of at least `N + 1`: at most `N` nested calls of `attitude` and the
call of `obj` inside the innermost one. -/
theorem queries_terminate_with_root (reg : Registry) (h : Reachable reg) (r : Int)
    (hr : self_parented reg.faction_list r) (fuel : Nat)
    (hfuel : reg.faction_list.length ≤ fuel) :
    ∃ regF msgs, finalize_monfactions fuel reg = some (regF, msgs) ∧
      regF.faction_list.length = reg.faction_list.length ∧
      ∀ (self : monfaction) (t : Int), self ∈ regF.faction_list →
        0 ≤ t → t < (regF.faction_list.length : Int) →
        ∀ budget, regF.faction_list.length + 1 ≤ budget →
          ∃ a ms, attitude regF.faction_list budget self t = some (a, ms) := by
  have hwf := (Reachable_inv h).1.2.1
  obtain ⟨root, hroot⟩ := exists_primary_root hwf hr
  obtain ⟨flF, u, hfin, hs, _⟩ := finalize_spec reg hwf root hroot fuel hfuel
  refine ⟨_, _, hfin, hs.length_eq, ?_⟩
  intro self t _ h0 h1 budget hb
  simp only at h1 hb ⊢
  have hbase : ∀ c m, fget flF c = some m → ∃ mp, fget flF m.base_faction = some mp := by
    intro c m hm
    obtain ⟨_, g0, g1⟩ := final_base_valid hwf hs c m hm
    exact fget_of_range g0 g1
  have hcF : ∃ m, fget flF t = some m := fget_of_range h0 h1
  obtain ⟨m0, hm0⟩ : ∃ m, fget reg.faction_list t = some m :=
    fget_of_range h0 (by rw [← hs.length_eq]; exact h1)
  have hreach := final_reaches_root hwf hs t m0 hm0
  obtain ⟨n, hn, hsp⟩ := parent_chain_short hbase t hcF hreach
  obtain ⟨⟨a, ms⟩, hres⟩ := attitude_terminates_valid self n t
    (fun i _ => parent_chain_valid hbase i t hcF) hsp (budget - n - 2)
  have e : budget - n - 2 + n + 2 = budget := by omega
  rw [e] at hres
  exact ⟨a, ms, hres⟩

/-- Witness of C18: scenario 5 of the spec, two factions in a cycle and a root (id 2). -/
theorem queries_terminate_with_root_witness :
    Reachable (load_all_ix Registry.empty cycle_and_root) ∧
    self_parented (load_all_ix Registry.empty cycle_and_root).faction_list 2 ∧
    ∃ regF msgs,
      finalize_monfactions 3 (load_all_ix Registry.empty cycle_and_root) = some (regF, msgs) ∧
      regF.faction_list.length = (load_all_ix Registry.empty cycle_and_root).faction_list.length ∧
      ∀ (self : monfaction) (t : Int), self ∈ regF.faction_list →
        0 ≤ t → t < (regF.faction_list.length : Int) →
        ∀ budget, regF.faction_list.length + 1 ≤ budget →
          ∃ a ms, attitude regF.faction_list budget self t = some (a, ms) :=
  ⟨Loaded_Reachable (Loaded_load_all_ix Loaded.empty cycle_and_root),
    ⟨⟨"r", 2, 2, []⟩, rfl, rfl⟩,
    queries_terminate_with_root (load_all_ix Registry.empty cycle_and_root)
      (Loaded_Reachable (Loaded_load_all_ix Loaded.empty cycle_and_root)) 2
      ⟨⟨"r", 2, 2, []⟩, rfl, rfl⟩ 3 (by decide)⟩

/-- C19: the double-load safety net is unreachable. For every registry built from the empty
one by calls of `get_or_add_faction` and `load_monster_faction_ix`, no run of
`finalize_monfactions` that returns reports "Tried to load ... more than once", the
diagnostic that every pass through that branch emits; with a budget of at least the number
of factions the run does return, and when there is a root the traversal takes every faction
from the queue at most once. -/
theorem double_load_branch_unreachable (reg : Registry) (h : Loaded reg) (fuel : Nat) :
    (∀ regF msgs, finalize_monfactions fuel reg = some (regF, msgs) →
      ∀ name, debugmsg.loaded_more_than_once name ∉ msgs) ∧
    (reg.faction_list.length ≤ fuel →
      (∃ r, finalize_monfactions fuel reg = some r) ∧
      ∀ root, primary_root reg.faction_list = some root →
        ∃ order, finalize_order fuel reg.faction_list root = some order ∧ order.Nodup) := by
  have hwf := (Loaded_RegWF h).2.1
  constructor
  · intro regF msgs hfin name hmem
    rcases finalize_cases hwf hfin with ⟨_, e⟩ | ⟨_, _, e⟩ | ⟨root, flF, u, _, e, _⟩
    · simp only [Prod.mk.injEq] at e
      rw [e.2] at hmem
      simp at hmem
    · simp only [Prod.mk.injEq] at e
      rw [e.2] at hmem
      simp at hmem
    · simp only [Prod.mk.injEq] at e
      rw [e.2] at hmem
      split at hmem <;> simp at hmem
  · intro hfuel
    exact ⟨finalize_returns hwf fuel hfuel,
      fun root hroot => finalize_order_spec hwf hroot fuel hfuel⟩

/-- Witness of C19: scenario 5 of the spec, two factions in a cycle and a root. -/
theorem double_load_branch_unreachable_witness :
    Loaded (load_all_ix Registry.empty cycle_and_root) ∧
    (∀ regF msgs,
      finalize_monfactions 3 (load_all_ix Registry.empty cycle_and_root) = some (regF, msgs) →
      ∀ name, debugmsg.loaded_more_than_once name ∉ msgs) ∧
    ((load_all_ix Registry.empty cycle_and_root).faction_list.length ≤ 3 →
      (∃ r, finalize_monfactions 3 (load_all_ix Registry.empty cycle_and_root) = some r) ∧
      ∀ root, primary_root (load_all_ix Registry.empty cycle_and_root).faction_list = some root →
        ∃ order,
          finalize_order 3 (load_all_ix Registry.empty cycle_and_root).faction_list root =
            some order ∧ order.Nodup) :=
  ⟨Loaded_load_all_ix Loaded.empty cycle_and_root,
    double_load_branch_unreachable (load_all_ix Registry.empty cycle_and_root)
      (Loaded_load_all_ix Loaded.empty cycle_and_root) 3⟩

end Monfactions
